import Mathlib

/-!
Verification of the jsframework runtime core: a shallow embedding of the
virtual-element tree (`runtime/vdom/Element.ts`), the template compiler and
repeat reconciler (`runtime/main/model/compiler.ts`), and the update
scheduler's coalescing protocol, together with theorems settling the frozen
claims about them.

Conventions used throughout:
* JavaScript objects whose key insertion order matters are modelled as
  association lists; absent keys read as `undefined` (`Option.none`).
* JavaScript object identity is modelled by natural-number identities.
* Code of the repository that is imported by the embedded files but is not
  part of the sources (`Node.ts`, `domHelper.ts`, the differ, `directive.ts`,
  `utils`) is modelled from the spec; each such definition carries a comment
  saying so.
-/

namespace Style

/-- A JS style value as stored in a style object: `none` models `undefined`,
`some s` a string value. -/
abbrev SVal := Option String

/-- JS truthiness of a style value: only a non-empty string is truthy
(`undefined` and `""` are falsy). -/
def truthy : SVal → Bool
  | none => false
  | some s => s ≠ ""

/-- A JS style object: an association list in property-insertion order. -/
abbrev SObj := List (String × SVal)

/-- Reading `o[k]`: the stored value, or `undefined` when the key is absent. -/
def getProp : SObj → String → SVal
  | [], _ => none
  | p :: t, k => if p.1 = k then p.2 else getProp t k

/-- Writing `o[k] = v`: overwrite in place when the key is present (JS objects
keep the first-insertion position of an existing key), else append. -/
def setProp : SObj → String → SVal → SObj
  | [], k, v => [(k, v)]
  | p :: t, k, v => if p.1 = k then (k, v) :: t else p :: setProp t k v

/-- Whether the object has the key as an own property. -/
def hasProp (o : SObj) (k : String) : Bool :=
  o.any (fun p => p.1 = k)

/-- Processing order of the `while (i--)` loop in `Element#assignStyle`:
`Object.keys(dest)` is first sorted by the comparator
`dest[style1] === '' ? 1 : -1` (empty-string values move after the rest;
the comparator is inconsistent when both values are empty, and the stable
engine sort then yields the stable partition), and the loop then walks the
sorted array back to front.  Net processing order: keys with empty-string
values first, in reverse insertion order, then the remaining keys in reverse
insertion order. -/
def processOrder (dest : SObj) : List String :=
  ((dest.filter (fun p => p.2 = some "")).map Prod.fst).reverse ++
    ((dest.filter (fun p => ¬ p.2 = some "")).map Prod.fst).reverse

/-- Body of the `while (i--)` loop of `Element#assignStyle`: a truthy value is
assigned; for a falsy value, if it is `''` or `undefined` and `src` already has
a truthy value for the key, the function RETURNS (aborting the whole merge,
not just skipping this key); otherwise the falsy value is assigned. -/
def assignLoop (dest : SObj) : List String → SObj → SObj
  | [], src => src
  | k :: rest, src =>
    let val := getProp dest k
    if truthy val then assignLoop dest rest (setProp src k val)
    else if (val = some "" ∨ val = none) ∧ truthy (getProp src k) then
      src
    else assignLoop dest rest (setProp src k val)

/-- Transcription of `Element#assignStyle(src, dest)` (Element.ts:782-806). -/
def assignStyle (src dest : SObj) : SObj :=
  assignLoop dest (processOrder dest) src

/-- Transcription of `Element#toStyle` (Element.ts:767-775): start from a copy
of the tag style and merge the class style, the id style and the inline style
into it, in that order. -/
def toStyle (tagStyle classStyle idStyle style : SObj) : SObj :=
  assignStyle (assignStyle (assignStyle tagStyle classStyle) idStyle) style

/-! Basic lemmas about the style-object operations. -/

theorem getProp_setProp_same (o : SObj) (k : String) (v : SVal) :
    getProp (setProp o k v) k = v := by
  induction o with
  | nil => simp [setProp, getProp]
  | cons p t ih =>
    by_cases h : p.1 = k
    · simp [setProp, getProp, h]
    · simp [setProp, getProp, h, ih]

theorem getProp_setProp_ne (o : SObj) (k k' : String) (v : SVal) (h : ¬ k' = k) :
    getProp (setProp o k v) k' = getProp o k' := by
  have h2 : ¬ k = k' := fun hh => h hh.symm
  induction o with
  | nil => simp [setProp, getProp, h2]
  | cons p t ih =>
    by_cases hp : p.1 = k
    · have hp' : ¬ p.1 = k' := by rw [hp]; exact h2
      simp [setProp, getProp, hp, hp', h2]
    · by_cases hq : p.1 = k'
      · simp [setProp, getProp, hp, hq, h]
      · simp [setProp, getProp, hp, hq, ih]

/-- Keys listed by `processOrder` are exactly the keys of the object. -/
theorem mem_processOrder (dest : SObj) (k : String) :
    k ∈ processOrder dest ↔ hasProp dest k = true := by
  unfold processOrder hasProp
  simp only [List.mem_append, List.mem_reverse, List.mem_map, List.mem_filter,
    List.any_eq_true, decide_eq_true_eq]
  constructor
  · rintro (⟨p, ⟨hp, _⟩, hk⟩ | ⟨p, ⟨hp, _⟩, hk⟩) <;> exact ⟨p, hp, hk⟩
  · rintro ⟨p, hp, hk⟩
    by_cases he : p.2 = some ""
    · exact Or.inl ⟨p, ⟨hp, by simpa using he⟩, hk⟩
    · exact Or.inr ⟨p, ⟨hp, by simpa using he⟩, hk⟩

/-- When every value of the object is truthy, reading any of its keys yields a
truthy value. -/
theorem getProp_truthy_of_all (o : SObj)
    (hall : ∀ p ∈ o, truthy p.2 = true) (k : String) (hk : hasProp o k = true) :
    truthy (getProp o k) = true := by
  induction o with
  | nil => simp [hasProp] at hk
  | cons p t ih =>
    by_cases hp : p.1 = k
    · simpa [getProp, hp] using hall p (by simp)
    · have hk' : hasProp t k = true := by
        simpa [hasProp, hp] using hk
      have := ih (fun q hq => hall q (List.mem_cons_of_mem _ hq)) hk'
      simpa [getProp, hp] using this

/-- When every key processed has a truthy value in `dest`, the merge loop never
aborts and the result reads as: value from `dest` when the key was processed,
else the old `src` value. -/
theorem getProp_assignLoop_of_truthy (dest : SObj) (ks : List String)
    (htr : ∀ k ∈ ks, truthy (getProp dest k) = true) :
    ∀ (src : SObj) (k : String),
      getProp (assignLoop dest ks src) k =
        if k ∈ ks then getProp dest k else getProp src k := by
  induction ks with
  | nil => intro src k; simp [assignLoop]
  | cons k0 rest ih =>
    intro src k
    have h0 : truthy (getProp dest k0) = true := htr k0 (by simp)
    have hrest : ∀ k ∈ rest, truthy (getProp dest k) = true :=
      fun k hk => htr k (List.mem_cons_of_mem _ hk)
    simp only [assignLoop, h0, if_pos]
    rw [ih hrest]
    by_cases hk : k ∈ rest
    · simp [hk]
    · by_cases hk0 : k = k0
      · simp [hk, hk0, getProp_setProp_same]
      · simp [hk, hk0, getProp_setProp_ne _ _ _ _ hk0]

/-- With all values truthy in `dest`, `assignStyle` realizes plain precedence:
the `dest` value wins whenever `dest` has the key. -/
theorem getProp_assignStyle_of_truthy (src dest : SObj)
    (hall : ∀ p ∈ dest, truthy p.2 = true) (k : String) :
    getProp (assignStyle src dest) k =
      if hasProp dest k = true then getProp dest k else getProp src k := by
  unfold assignStyle
  rw [getProp_assignLoop_of_truthy dest (processOrder dest)
    (fun k hk => getProp_truthy_of_all dest hall k ((mem_processOrder dest k).1 hk))]
  by_cases hk : hasProp dest k = true
  · simp [hk, (mem_processOrder dest k).2 hk]
  · have : ¬ k ∈ processOrder dest := fun hmem => hk ((mem_processOrder dest k).1 hmem)
    simp [hk, this]

/-- Claim C2, counterexample.  For tag style `color:"red"`, class style
`color:"", margin:"1"`, id style empty, inline style `color:"blue"`, the claim
states that `toStyle` returns `color:"blue", margin:"1"`.  It does not: the
class-layer merge processes the empty `color` first and RETURNS (keeping
`color:"red"` but dropping the whole rest of the class layer), so `margin` is
never installed and the result is just `color:"blue"`. -/
theorem toStyle_example_drops_margin :
    toStyle [("color", some "red")] [("color", some ""), ("margin", some "1")]
        [] [("color", some "blue")] = [("color", some "blue")] ∧
      ¬ getProp (toStyle [("color", some "red")]
        [("color", some ""), ("margin", some "1")] [] [("color", some "blue")])
          "margin" = some "1" := by
  constructor
  · rfl
  · intro h
    simp [toStyle, assignStyle, processOrder, assignLoop, getProp, setProp, truthy] at h

/-- Claim C2, amended.  The cascade precedence tag < class < id < inline holds
for every property whenever every supplied layer value is non-empty (truthy):
the highest layer having the property wins.  (When a higher layer carries an
empty/undefined value for a property that already has a value, the source does
keep the existing value, but it also aborts the rest of that layer's merge, as
the counterexample shows.) -/
theorem toStyle_precedence (tagStyle classStyle idStyle style : SObj)
    (hc : ∀ p ∈ classStyle, truthy p.2 = true)
    (hi : ∀ p ∈ idStyle, truthy p.2 = true)
    (hs : ∀ p ∈ style, truthy p.2 = true) (k : String) :
    getProp (toStyle tagStyle classStyle idStyle style) k =
      if hasProp style k = true then getProp style k
      else if hasProp idStyle k = true then getProp idStyle k
      else if hasProp classStyle k = true then getProp classStyle k
      else getProp tagStyle k := by
  unfold toStyle
  rw [getProp_assignStyle_of_truthy _ _ hs,
    getProp_assignStyle_of_truthy _ _ hi,
    getProp_assignStyle_of_truthy _ _ hc]

/-- Witness for the amended claim C2 at a concrete input: tag `color:"red"`,
class `margin:"1"`, id `margin:"2"`, inline `color:"blue"`. -/
theorem toStyle_precedence_witness :
    getProp (toStyle [("color", some "red")] [("margin", some "1")]
      [("margin", some "2")] [("color", some "blue")]) "margin" = some "2" := by
  rw [toStyle_precedence [("color", some "red")] [("margin", some "1")]
    [("margin", some "2")] [("color", some "blue")]
    (by decide) (by decide) (by decide) "margin"]
  decide

end Style

namespace Attr

/-- An association list modelling the element's `attr` object. -/
abbrev AMap := List (String × String)

/-- Reading `attr[key]`: `none` models `undefined`. -/
def getA : AMap → String → Option String
  | [], _ => none
  | p :: t, k => if p.1 = k then some p.2 else getA t k

/-- Writing `attr[key] = value` (overwrite in place, else append). -/
def setA : AMap → String → String → AMap
  | [], k, v => [(k, v)]
  | p :: t, k, v => if p.1 = k then (k, v) :: t else p :: setA t k v

/-- A native message as sent through `taskCenter.send`: the action name and
the key/value payload. -/
structure NMsg where
  action : String
  payload : List (String × String)
deriving DecidableEq

/-- The slice of element state that `setAttr` touches: the `attr` map, whether
`getTaskCenter` returns a task center, and the list of messages sent so far. -/
structure AState where
  attr : AMap
  hasTC : Bool
  msgs : List NMsg
deriving DecidableEq

/-- Transcription of `Element#setAttr` (Element.ts:579-590).  The write is
skipped iff `this.attr[key] === value && silent !== false`; otherwise the
value is stored and, when not silent and a task center exists, one
`updateAttrs` message carrying only this key is sent. -/
def setAttr (s : AState) (key value : String) (silent : Bool) : AState :=
  if getA s.attr key = some value ∧ silent ≠ false then s
  else
    let s1 : AState := { s with attr := setA s.attr key value }
    if !silent ∧ s1.hasTC then
      { s1 with msgs := s1.msgs ++ [⟨"updateAttrs", [(key, value)]⟩] }
    else s1

/-- Claim C8, counterexample.  The claim states the write is skipped whenever
silent is true OR the value is unchanged, and in particular that a silent call
with a changed value skips even the local mutation.  The source condition is a
conjunction, so (a) a silent call with a changed value DOES mutate the local
attribute map, and (b) a non-silent call with an unchanged value still sends
an `updateAttrs` message. -/
theorem setAttr_skip_is_conjunction :
    (setAttr ⟨[("k", "a")], true, []⟩ "k" "b" true).attr = [("k", "b")] ∧
      (setAttr ⟨[("k", "a")], true, []⟩ "k" "a" false).msgs =
        [⟨"updateAttrs", [("k", "a")]⟩] := by
  constructor <;> rfl

/-- Claim C8, amended.  `setAttr` skips both the local mutation and the native
notification exactly when the new value equals the stored value AND silent is
true; a silent call with a changed value mutates the attribute map but sends
nothing; a non-silent call (changed or not) stores the value and sends exactly
one `updateAttrs` message containing only that key whenever a task center
exists, and sends nothing when it does not. -/
theorem setAttr_spec (s : AState) (key value : String) :
    (getA s.attr key = some value → setAttr s key value true = s) ∧
      (¬ getA s.attr key = some value →
        (setAttr s key value true).attr = setA s.attr key value ∧
          (setAttr s key value true).msgs = s.msgs) ∧
      (s.hasTC = true →
        (setAttr s key value false).attr = setA s.attr key value ∧
          (setAttr s key value false).msgs =
            s.msgs ++ [⟨"updateAttrs", [(key, value)]⟩]) ∧
      (s.hasTC = false →
        (setAttr s key value false).attr = setA s.attr key value ∧
          (setAttr s key value false).msgs = s.msgs) := by
  refine ⟨fun h => ?_, fun h => ?_, fun h => ?_, fun h => ?_⟩
  · simp [setAttr, h]
  · simp [setAttr, h]
  · simp [setAttr, h]
  · simp [setAttr, h]

/-- Witness for the amended claim C8 at a concrete input. -/
theorem setAttr_spec_witness :
    (setAttr ⟨[("k", "a")], true, []⟩ "k" "a" true = ⟨[("k", "a")], true, []⟩) ∧
      (setAttr ⟨[("k", "a")], true, []⟩ "k" "b" false).msgs =
        [⟨"updateAttrs", [("k", "b")]⟩] := by
  have h := setAttr_spec ⟨[("k", "a")], true, []⟩ "k" "a"
  have h2 := setAttr_spec ⟨[("k", "a")], true, []⟩ "k" "b"
  exact ⟨h.1 (by decide), (h2.2.2.1 (by decide)).2⟩

end Attr

namespace Differ

/-- State of one `watchBlock` registration (compiler.ts:695-712) together with
the slice of the app differ that its key addresses.  `latest` and `recorded`
are the fields of the closure's `config`; `pending` counts the flush callbacks
appended to the differ under this (type, blockId) key; `calls` records the
arguments passed to the real mutation handler.  The differ itself is not in
src; it is modelled from the spec: `append` enqueues a callback under the key
and the whole queue runs at flush time. -/
structure DState where
  latest : Option Int
  recorded : Bool
  pending : Nat
  calls : List (Option Int)
deriving DecidableEq

/-- Transcription of the watcher callback installed by `watchBlock`
(compiler.ts:698-709): record the latest value, append the flush callback to
the differ only when not already recorded, then mark recorded. -/
def trigger (s : DState) (v : Int) : DState :=
  let s1 : DState := { s with latest := some v }
  let s2 : DState :=
    if ¬ s1.recorded then { s1 with pending := s1.pending + 1 } else s1
  { s2 with recorded := true }

/-- Running one pending flush callback (the closure appended by `watchBlock`):
invoke the handler with `config.latestValue`, then reset `recorded` and clear
`latestValue`. -/
def flushOne (s : DState) : DState :=
  { latest := none, recorded := false, pending := s.pending - 1,
    calls := s.calls ++ [s.latest] }

/-- Run `n` pending flush callbacks. -/
def flushN : Nat → DState → DState
  | 0, s => s
  | n + 1, s => flushN n (flushOne s)

/-- Flush of the differ at the end of the update wave: every pending callback
runs (modelled from the spec, the differ itself not being in src). -/
def flush (s : DState) : DState := flushN s.pending s

/-- Once `recorded` is set, further triggers only overwrite the latest value:
no further callback is appended. -/
theorem foldl_trigger_recorded (vs : List Int) (s : DState)
    (h : s.recorded = true) (d : Int) :
    vs.foldl trigger { s with latest := some d } =
      { s with latest := some (vs.getLastD d) } := by
  induction vs generalizing d with
  | nil => simp [List.getLastD]
  | cons w u ih =>
    have hstep : trigger { s with latest := some d } w =
        { s with latest := some w } := by
      simp [trigger, h]
    rw [List.foldl_cons, hstep, ih w, List.getLastD_cons]

/-- Claim C3.  For every non-empty sequence of watcher triggers against the
same (mutation kind, block id) key within one update wave, starting from a
quiescent key, the flush invokes the real mutation handler exactly once, with
the most recent value only; earlier values are discarded. -/
theorem watchBlock_coalesces (v : Int) (vs : List Int) :
    flush ((v :: vs).foldl trigger ⟨none, false, 0, []⟩) =
      ⟨none, false, 0, [some (vs.getLastD v)]⟩ := by
  have h1 : trigger ⟨none, false, 0, []⟩ v =
      { (⟨some v, true, 1, []⟩ : DState) with latest := some v } := by
    simp [trigger]
  rw [List.foldl_cons, h1, foldl_trigger_recorded vs ⟨some v, true, 1, []⟩ rfl v]
  simp [flush, flushN, flushOne]

end Differ

namespace Destroy

/-- Observable events during `Element#destroy`: entering the destroy of a node
and running its `destroyHook` (which tears down the element's watchers, see
compiler.ts:466-476). -/
inductive DEv where
  | call (id : Nat)
  | hookRun (id : Nat)
deriving DecidableEq

/-- A vdom element as `Element#destroy` sees it.  Boolean `…Null` fields model
whether the corresponding object field has been nulled out by a previous
destroy; `hook` models the presence of `destroyHook`; `children` holds the
owned child elements (`childrenNull` models `_children === null`). -/
inductive ETree where
  | mk (id : Nat) (attrNull styleNull eventNull idStyleNull tagStyleNull : Bool)
      (classListNull : Bool) (hook : Bool) (childrenNull : Bool)
      (children : List ETree) (pureNull : Bool)

mutual

/-- Transcription of `Element#destroy` (Element.ts:860-887).  The field
assignments null out attr/style/event/idStyle/tagStyle; the statement
`this._classList.length = 0` throws a TypeError when `_classList` is already
null (second destroy), modelled as `Except.error`; then the hook runs, the
children are destroyed recursively and both child lists are nulled.  The final
`super.destroy()` (Node.ts, not in src) is modelled from the spec as node-level
teardown with no effect on the fields modelled here. -/
def destroy : ETree → Except Unit (ETree × List DEv)
  | .mk i _ _ _ _ _ clN hk chN cs _ =>
    if clN then .error ()
    else
      let ev := [DEv.call i] ++ (if hk then [DEv.hookRun i] else [])
      if chN then
        .ok (.mk i true true true true true true false true [] true, ev)
      else
        match destroyList cs with
        | .error e => .error e
        | .ok evc =>
          .ok (.mk i true true true true true true false true [] true, ev ++ evc)

/-- The `this._children.forEach(child => child.destroy())` loop; an exception
from a child propagates (forEach does not catch). -/
def destroyList : List ETree → Except Unit (List DEv)
  | [] => .ok []
  | c :: rest =>
    match destroy c with
    | .error e => .error e
    | .ok (_, ev) =>
      match destroyList rest with
      | .error e => .error e
      | .ok evs => .ok (ev ++ evs)

end

/-- A fresh leaf element with a destroy hook installed. -/
def freshLeaf (i : Nat) : ETree :=
  .mk i false false false false false false true true [] false

/-- A fresh element with a destroy hook and the given children. -/
def freshNode (i : Nat) (cs : List ETree) : ETree :=
  .mk i false false false false false false true false cs false

/-- Claim C5.  At the concrete failing input (a fresh element with two fresh
children, destroyed twice), the first destroy succeeds and destroys each owned
child exactly once, running every destroy hook — but the second destroy throws
a TypeError (at `this._classList.length = 0`, `_classList` being null) instead
of being an idempotent no-op, so `destroy` is not idempotent as the claim
requires. -/
theorem destroy_twice_throws :
    destroy (freshNode 0 [freshLeaf 1, freshLeaf 2]) =
      .ok (.mk 0 true true true true true true false true [] true,
        [DEv.call 0, DEv.hookRun 0, DEv.call 1, DEv.hookRun 1,
          DEv.call 2, DEv.hookRun 2]) ∧
      destroy (.mk 0 true true true true true true false true [] true) =
        .error () := by
  constructor <;> rfl

end Destroy

namespace Compile

/-- A template node (TemplateInterface, compiler.ts:84-99) restricted to the
fields the compiler dispatch reads: the type tag, the slot-name attribute, the
repeat directive (with the truthiness of each item of the getter's initial
value), the shown directive (with its initial truthiness), whether
`append === 'tree'`, and the child templates. -/
inductive Tmpl where
  | mk (type : String) (attrName : Option String) (hasRepeat : Bool)
      (repeatInit : List Bool) (hasShown : Bool) (shownInit : Bool)
      (appendTree : Bool) (children : List Tmpl)

def Tmpl.type : Tmpl → String
  | .mk ty _ _ _ _ _ _ _ => ty

def Tmpl.attrName : Tmpl → Option String
  | .mk _ nm _ _ _ _ _ _ => nm

def Tmpl.hasRepeat : Tmpl → Bool
  | .mk _ _ r _ _ _ _ _ => r

def Tmpl.repeatInit : Tmpl → List Bool
  | .mk _ _ _ ri _ _ _ _ => ri

def Tmpl.hasShown : Tmpl → Bool
  | .mk _ _ _ _ sh _ _ _ => sh

def Tmpl.shownInit : Tmpl → Bool
  | .mk _ _ _ _ _ si _ _ => si

def Tmpl.appendTree : Tmpl → Bool
  | .mk _ _ _ _ _ _ ap _ => ap

def Tmpl.children : Tmpl → List Tmpl
  | .mk _ _ _ _ _ _ _ cs => cs

/-- The compile destination: the document root, a plain element, or a
FragBlock (`dest.type === 'document'` discriminates the first). -/
inductive Dst where
  | document
  | element
  | block
deriving DecidableEq

/-- A view model as the compiler dispatch sees it: only the slot context
matters (present for a custom-component instance, holding the named projected
content and the projecting parent Vm). -/
inductive CVm where
  | mk (slotCtx : Option (List (String × List Tmpl) × CVm))

/-- Observable compiler state: the app's `lastSignal` abort flag, the warning
count, counters of created FragBlocks / elements / custom components / child
Vms / registered watchers / `attachTarget` calls, the process-wide
`treeModeParentNode` marker, and the oracle of native signals that future
`attachTarget` sends will return. -/
structure CState where
  lastSignal : Int
  warns : Nat
  blocks : Nat
  elems : Nat
  comps : Nat
  vmsCreated : Nat
  watchers : Nat
  attaches : Nat
  treeModeParent : Bool
  signals : List Int
deriving DecidableEq

/-- Modelled from the spec: `createBlock` (domHelper.ts, not in src) creates
the start/end comment markers of a FragBlock and links it under the
destination. -/
def createBlock (s : CState) : CState :=
  { s with blocks := s.blocks + 1 }

/-- Modelled from the spec: `attachTarget` (domHelper.ts, not in src) sends
the new element to the native side and returns the native signal, which the
caller assigns to `app.lastSignal`. -/
def attachTarget (s : CState) : CState :=
  match s.signals with
  | [] => { s with attaches := s.attaches + 1, lastSignal := 0 }
  | v :: rest =>
    { s with attaches := s.attaches + 1, lastSignal := v, signals := rest }

/-- The type of the recursive `compile` entry point: state, vm, template,
destination, then the `meta` fields — the repeat marker (`none` = absent, the
Bool being the item's truthiness), the shown marker, and `meta.type`. -/
abbrev RecC := CState → CVm → Tmpl → Dst → Option Bool → Bool → Option String → CState

/-- Transcription of `compileChildren` (compiler.ts:545-554): the
`children.every` loop compiles each child and stops as soon as
`app.lastSignal === -1`. -/
def compileChildren (recC : RecC) : CState → CVm → List Tmpl → Dst → CState
  | s, _, [], _ => s
  | s, vm, c :: rest, dest =>
    let s' := recC s vm c dest none false none
    if s'.lastSignal = -1 then s' else compileChildren recC s' vm rest dest

/-- Transcription of `compileSlot` (compiler.ts:237-258): without a slot
context this is a no-op; otherwise a block is created and either the
caller-supplied named content (compiled against the projecting parent Vm) or
the slot's own children are compiled into it. -/
def compileSlot (recC : RecC) (s : CState) (vm : CVm) (t : Tmpl) : CState :=
  match vm with
  | .mk none => s
  | .mk (some (named, parentVm)) =>
    let s1 := createBlock s
    let slotName := match t.attrName with
      | some nm => if nm = "" then "default" else nm
      | none => "default"
    match named.find? (fun p => p.1 = slotName) with
    | none => compileChildren recC s1 vm t.children Dst.block
    | some p => compileChildren recC s1 parentVm p.2 Dst.block

/-- Transcription of `compileRepeat`/`bindRepeat`'s initial materialization
(compiler.ts:266-294 and 644-649): create the FragBlock, register the repeat
watcher, then `list.forEach(compileItem)` — each item merges a child context
(`vms.push`) and re-enters `compile` with the `repeat` meta marker set.  The
forEach itself has no abort check; each `compile` call re-checks the signal. -/
def compileRepeat (recC : RecC) (s : CState) (vm : CVm) (t : Tmpl) : CState :=
  let s1 := createBlock s
  let s2 := { s1 with watchers := s1.watchers + 1 }
  (t.repeatInit).foldl (fun st b =>
    let st1 := { st with vmsCreated := st.vmsCreated + 1 }
    recC st1 vm t Dst.block (some b) false none) s2

/-- Transcription of `compileShown`/`bindShown` (compiler.ts:303-318 and
659-684): create the FragBlock, register the shown watcher, propagate the
repeat marker only when truthy (`if (meta.repeat)`), and compile the content
now when the initial display value is truthy. -/
def compileShown (recC : RecC) (s : CState) (vm : CVm) (t : Tmpl)
    (mRepeat : Option Bool) : CState :=
  let s1 := createBlock s
  let s2 := { s1 with watchers := s1.watchers + 1 }
  let mR' := match mRepeat with
    | some b => if b then some b else none
    | none => none
  if t.shownInit then recC s2 vm t Dst.block mR' true none else s2

/-- Modelled from the spec: `compileCustomComponent` (compiler.ts:359-401)
instantiates a child Vm whose own lifecycle (model/index.ts and directive.ts,
not in src) compiles the component's template and attaches it, so the native
send outcome lands in `app.lastSignal`. -/
def compileCustomComponent (s : CState) : CState :=
  let s1 := attachTarget s
  { s1 with comps := s1.comps + 1, vmsCreated := s1.vmsCreated + 1 }

/-- Transcription of `compileBlock` (compiler.ts:335-348): create the block,
then run the same `children.every` loop as `compileChildren`, compiling each
child into the block and stopping once `app.lastSignal === -1`. -/
def compileBlock (recC : RecC) (s : CState) (vm : CVm) (t : Tmpl) : CState :=
  let s1 := createBlock s
  compileChildren recC s1 vm t.children Dst.block

/-- Transcription of `compileNativeComponent` (compiler.ts:433-536): create
the element (body or plain; `bindElement` and the root-element event binding
live in directive.ts, not in src, and touch none of the modelled state),
resolve tree mode against the process-wide `treeModeParentNode` marker, attach
now unless in tree mode, compile the children if not aborted, and in tree mode
clear the marker and attach at the end. -/
def compileNativeComponent (recC : RecC) (s : CState) (vm : CVm) (t : Tmpl) :
    CState :=
  let s1 := { s with elems := s.elems + 1 }
  let p :=
    if t.appendTree then
      if s1.treeModeParent = false then
        ({ s1 with treeModeParent := true }, true)
      else (s1, false)
    else (s1, false)
  let s2 := p.1
  let treeMode := p.2
  let s3 := if ¬ s2.lastSignal = -1 ∧ treeMode = false then attachTarget s2 else s2
  let s4 :=
    if ¬ s3.lastSignal = -1 then compileChildren recC s3 vm t.children Dst.element
    else s3
  if ¬ s4.lastSignal = -1 ∧ treeMode = true then
    attachTarget { s4 with treeModeParent := false }
  else s4

/-- Transcription of `compile` (compiler.ts:138-176), with fuel standing in
for the unbounded recursion of the source (out of fuel, the compilation is cut
short with the state unchanged; every claim proved below holds for every
fuel).  The dispatch order is: abort signal, slot, repeat (unless marked),
shown (unless marked), custom component, block, native element. -/
def compileC (cc : List String) : Nat → RecC
  | 0 => fun s _ _ _ _ _ _ => s
  | fuel + 1 => fun s vm t dest mRepeat mShown mType =>
    if s.lastSignal = -1 then s
    else if t.type = "slot" then compileSlot (compileC cc fuel) s vm t
    else if mRepeat = none ∧ t.hasRepeat = true then
      if dest = Dst.document then { s with warns := s.warns + 1 }
      else compileRepeat (compileC cc fuel) s vm t
    else if mShown = false ∧ t.hasShown = true then
      if dest = Dst.document then { s with warns := s.warns + 1 }
      else compileShown (compileC cc fuel) s vm t mRepeat
    else
      let ty := mType.getD t.type
      if cc.contains ty then compileCustomComponent s
      else if t.type = "block" then compileBlock (compileC cc fuel) s vm t
      else compileNativeComponent (compileC cc fuel) s vm t

/-- Claim C6.  Whenever the abort signal holds (`app.lastSignal === -1`),
`compile` returns at once with the state untouched (no element or block
created, no warning, no native send), for every fuel, template, destination
and meta; and both child-iteration loops (the `children.every` of
`compileChildren` and of `compileBlock`) stop before compiling the next
sibling as soon as a child's compilation leaves the signal at -1.  All
embedded functions are total, so no exception is thrown. -/
theorem compile_abort_signal (cc : List String) :
    (∀ fuel s vm t dest mRepeat mShown mType, s.lastSignal = -1 →
        compileC cc fuel s vm t dest mRepeat mShown mType = s) ∧
      (∀ fuel s vm c rest dest,
        (compileC cc fuel s vm c dest none false none).lastSignal = -1 →
          compileChildren (compileC cc fuel) s vm (c :: rest) dest =
            compileC cc fuel s vm c dest none false none) ∧
      (∀ fuel s vm t c rest, t.children = c :: rest →
        (compileC cc fuel (createBlock s) vm c Dst.block none false none).lastSignal = -1 →
          compileBlock (compileC cc fuel) s vm t =
            compileC cc fuel (createBlock s) vm c Dst.block none false none) := by
  refine ⟨fun fuel s vm t dest mR mS mT h => ?_, fun fuel s vm c rest dest h => ?_,
    fun fuel s vm t c rest hch h => ?_⟩
  · cases fuel with
    | zero => rfl
    | succ n => simp [compileC, h]
  · simp [compileChildren, h]
  · simp [compileBlock, hch, compileChildren, h]

/-- Witness for claim C6: with the abort signal set, compiling a native
template is the identity; and with a native oracle answering -1 to the first
attach, the sibling after the first child is never compiled (the element
counter stays at one). -/
theorem compile_abort_signal_witness :
    compileC [] 3 ⟨-1, 0, 0, 0, 0, 0, 0, 0, false, []⟩ (.mk none)
        (.mk "div" none false [] false false false []) Dst.element none false none =
      ⟨-1, 0, 0, 0, 0, 0, 0, 0, false, []⟩ ∧
      compileChildren (compileC [] 1) ⟨0, 0, 0, 0, 0, 0, 0, 0, false, [-1]⟩
          (.mk none)
          [.mk "div" none false [] false false false [],
            .mk "text" none false [] false false false []] Dst.element =
        compileC [] 1 ⟨0, 0, 0, 0, 0, 0, 0, 0, false, [-1]⟩ (.mk none)
          (.mk "div" none false [] false false false []) Dst.element none false none := by
  have h := compile_abort_signal []
  refine ⟨h.1 3 _ _ _ _ _ _ _ rfl, h.2.1 1 _ _ _ _ _ ?_⟩
  decide

/-- Claim C9.  When `compile` meets a repeat directive (not yet marked
resolved) or a shown directive (repeat not applicable, shown not yet marked)
whose destination is the document root, it logs one warning and skips the node
entirely: no block is created and nothing else in the state changes; the
embedded function is total, so no exception is thrown.  (A template of type
`slot` is dispatched to slot handling before the repeat check, hence the
`t.type ≠ "slot"` hypothesis.) -/
theorem compile_document_directive_skipped (cc : List String) (fuel : Nat)
    (s : CState) (vm : CVm) (t : Tmpl) (mRepeat : Option Bool) (mShown : Bool)
    (mType : Option String) (hsig : ¬ s.lastSignal = -1)
    (hslot : ¬ t.type = "slot") :
    (mRepeat = none ∧ t.hasRepeat = true →
        compileC cc (fuel + 1) s vm t Dst.document mRepeat mShown mType =
          { s with warns := s.warns + 1 }) ∧
      (¬ (mRepeat = none ∧ t.hasRepeat = true) →
        mShown = false ∧ t.hasShown = true →
          compileC cc (fuel + 1) s vm t Dst.document mRepeat mShown mType =
            { s with warns := s.warns + 1 }) := by
  constructor
  · intro hr
    simp [compileC, hsig, hslot, hr]
  · intro hnr hs
    simp [compileC, hsig, hslot, hnr, hs]

/-- Witness for claim C9: a repeat directive and a shown directive on the
document root each produce exactly one warning and nothing else. -/
theorem compile_document_directive_skipped_witness :
    compileC [] 1 ⟨0, 0, 0, 0, 0, 0, 0, 0, false, []⟩ (.mk none)
        (.mk "div" none true [] false false false []) Dst.document none false none =
      ⟨0, 1, 0, 0, 0, 0, 0, 0, false, []⟩ ∧
      compileC [] 1 ⟨0, 0, 0, 0, 0, 0, 0, 0, false, []⟩ (.mk none)
          (.mk "div" none false [] true true false []) Dst.document none false none =
        ⟨0, 1, 0, 0, 0, 0, 0, 0, false, []⟩ := by
  have h1 := compile_document_directive_skipped [] 0
    ⟨0, 0, 0, 0, 0, 0, 0, 0, false, []⟩ (.mk none)
    (.mk "div" none true [] false false false []) none false none
    (by decide) (by decide)
  have h2 := compile_document_directive_skipped [] 0
    ⟨0, 0, 0, 0, 0, 0, 0, 0, false, []⟩ (.mk none)
    (.mk "div" none false [] true true false []) none false none
    (by decide) (by decide)
  exact ⟨h1.1 (by simp [Tmpl.hasRepeat]), h2.2 (by simp [Tmpl.hasRepeat])
    (by simp [Tmpl.hasShown])⟩

end Compile

namespace Repeat

/-- A JS value usable as a track-by key: a string or `null` (numbers other
than the positional index are subsumed by strings here; `undefined` is
`Option.none` at the use site). -/
inductive JV where
  | str (s : String)
  | jnull
deriving DecidableEq

/-- A data item of the repeated collection: its object identity and the value
of its declared track-by property (`none` models `undefined`, including the
property being absent). -/
structure Item where
  id : Nat
  tb : Option JV
deriving DecidableEq

/-- The identity key computed by the reconciler: the track-by value, or the
positional index. -/
inductive JKey where
  | str (s : String)
  | num (n : Nat)
  | jnull
deriving DecidableEq

/-- Transcription of the key computation of `bindRepeat`
(compiler.ts:592, 602, 622):
`trackBy && item[trackBy] !== undefined ? item[trackBy] : index`. -/
def keyOf (trackBy : Bool) (item : Item) (idx : Nat) : JKey :=
  if trackBy then
    match item.tb with
    | some (JV.str s) => JKey.str s
    | some JV.jnull => JKey.jnull
    | none => JKey.num idx
  else JKey.num idx

/-- JS property-key coercion: object keys are strings, numbers print in
decimal, `null` coerces to the string "null". -/
def keyStr : JKey → String
  | JKey.str s => s
  | JKey.num n => Nat.repr n
  | JKey.jnull => "null"

/-- Reading a JS object used as a map (`m[k]`). -/
def mget {α : Type} : List (String × α) → String → Option α
  | [], _ => none
  | p :: t, k => if p.1 = k then some p.2 else mget t k

/-- Writing a JS object used as a map (`m[k] = v`): overwrite in place, else
append. -/
def mset {α : Type} : List (String × α) → String → α → List (String × α)
  | [], k, v => [(k, v)]
  | p :: t, k, v => if p.1 = k then (k, v) :: t else p :: mset t k v

/-- The `hasOwn` helper (utils, not in src; modelled from the spec as
`Object.prototype.hasOwnProperty`). -/
def mhas {α : Type} (m : List (String × α)) (k : String) : Bool :=
  (mget m k).isSome

/-- Building the `trackMap` of `bindRepeat` (compiler.ts:589-597): walk the
new data with indices, skip keys that are `null` or the empty string, and
record the item under its (string-coerced) key. -/
def btm (trackBy : Bool) : Nat → List Item → List (String × Item) →
    List (String × Item)
  | _, [], m => m
  | idx, it :: rest, m =>
    let k := keyOf trackBy it idx
    btm trackBy (idx + 1) rest
      (if k = JKey.jnull ∨ k = JKey.str "" then m else mset m (keyStr k) it)

def buildTrackMap (trackBy : Bool) (data : List Item) : List (String × Item) :=
  btm trackBy 0 data []

/-- A `reusedMap` entry (compiler.ts:604-608): the old item, its old index,
its materialized target element and its child Vm. -/
structure RE where
  item : Item
  index : Nat
  target : Nat
  vm : Nat
deriving DecidableEq

/-- The `updateMark` of the FragBlock: the start marker or the last placed
target. -/
inductive Mark where
  | start
  | node (t : Nat)
deriving DecidableEq

/-- Emitted tree operations: `moveTarget(target, updateMark)`,
`removeTarget(oldChildren[index])` (domHelper.ts, not in src; modelled from
the spec as opaque emitted operations), and the compilation of a brand-new
item (`compileItem`, carrying the fresh target and Vm identities). -/
inductive Act where
  | move (target : Nat) (mark : Mark)
  | removeT (target : Nat)
  | add (target vm : Nat)
deriving DecidableEq

/-- The walk over the previous materialization (compiler.ts:599-613): an old
item whose key is in `trackMap` is recorded in `reusedMap` (keyed by the same
string coercion) and pushed on `reusedList`; any other old item's target is
removed. -/
def pOld (trackBy : Bool) (tm : List (String × Item))
    (oldCh oldVm : List Nat) :
    Nat → List Item →
    List (String × RE) × List Item × List Act →
    List (String × RE) × List Item × List Act
  | _, [], acc => acc
  | idx, it :: rest, (rm, rl, acts) =>
    let k := keyOf trackBy it idx
    if mhas tm (keyStr k) then
      pOld trackBy tm oldCh oldVm (idx + 1) rest
        (mset rm (keyStr k) ⟨it, idx, oldCh.getD idx 0, oldVm.getD idx 0⟩,
          rl ++ [it], acts)
    else
      pOld trackBy tm oldCh oldVm (idx + 1) rest
        (rm, rl, acts ++ [Act.removeT (oldCh.getD idx 0)])

/-- The accumulator of the walk over the new data: the rebuilt `children` and
`vms` arrays, the still-unconsumed `reusedList`, the `updateMark`, the next
fresh identity, and the actions emitted so far. -/
structure NewAcc where
  children : List Nat
  vms : List Nat
  rl : List Item
  mark : Mark
  nextId : Nat
  acts : List Act
deriving DecidableEq

/-- The `removeItem` helper (utils, not in src; modelled from the spec as
removing the first occurrence of the item from the array). -/
def removeItem (l : List Item) (it : Item) : List Item :=
  l.erase it

/-- The walk over the new data (compiler.ts:621-640): a reusable item is
spliced back (moving its target unless it is the next unconsumed reusable
item) and its existing target/Vm are pushed; otherwise `compileItem` compiles
a brand-new child Vm and element at this position (`compileItem` pushes the
new context into `vms` and `compile`/`attachTarget` — domHelper.ts, not in
src — appends the new element into the block's children, index-aligned,
modelled with fresh identities). -/
def pNew (trackBy : Bool) (rm : List (String × RE)) :
    Nat → List Item → NewAcc → NewAcc
  | _, [], a => a
  | idx, it :: rest, a =>
    let k := keyOf trackBy it idx
    match mget rm (keyStr k) with
    | some r =>
      let a1 :=
        if a.rl.head? = some r.item then { a with rl := a.rl.tail }
        else { a with rl := removeItem a.rl r.item,
                      acts := a.acts ++ [Act.move r.target a.mark] }
      pNew trackBy rm (idx + 1) rest
        { a1 with children := a1.children ++ [r.target],
                  vms := a1.vms ++ [r.vm], mark := Mark.node r.target }
    | none =>
      pNew trackBy rm (idx + 1) rest
        { a with children := a.children ++ [a.nextId],
                 vms := a.vms ++ [a.nextId + 1], nextId := a.nextId + 2,
                 acts := a.acts ++ [Act.add a.nextId (a.nextId + 1)] }

/-- The FragBlock slice the repeat handler operates on: the parallel
`children`, `vms` and `data` arrays, the next fresh identity for newly
compiled targets/Vms, and the log of emitted actions. -/
structure RState where
  children : List Nat
  vms : List Nat
  data : List Item
  nextId : Nat
  acts : List Act
deriving DecidableEq

/-- Transcription of the `watchBlock` handler of `bindRepeat`
(compiler.ts:579-642): snapshot the old arrays, build the track map of the
new data, remove or record each old item, reset the arrays and walk the new
data rebuilding them. -/
def repeatHandler (trackBy : Bool) (st : RState) (data : List Item) : RState :=
  let tm := buildTrackMap trackBy data
  let po := pOld trackBy tm st.children st.vms 0 st.data ([], [], [])
  let rm := po.1
  let rl := po.2.1
  let acts1 := po.2.2
  let acc0 : NewAcc :=
    ⟨[], [], rl, Mark.start, st.nextId, st.acts ++ acts1⟩
  let accF := pNew trackBy rm 0 data acc0
  ⟨accF.children, accF.vms, data, accF.nextId, accF.acts⟩

/-! Lemmas about the reconciler's maps and walks. -/

theorem toDigitsCore_len (b : Nat) :
    ∀ (fuel n : Nat) (ds : List Char),
      ds.length ≤ (Nat.toDigitsCore b fuel n ds).length := by
  intro fuel
  induction fuel with
  | zero => intro n ds; simp [Nat.toDigitsCore]
  | succ f ih =>
    intro n ds
    simp only [Nat.toDigitsCore]
    split
    · simp
    · exact le_trans (by simp) (ih (n / b) (Nat.digitChar (n % b) :: ds))

/-- The decimal string of a natural number is never empty, so a positional
index never coerces to the empty property key. -/
theorem nat_repr_ne_empty (n : Nat) : ¬ Nat.repr n = "" := by
  intro hc
  have h2 : (Nat.toDigits 10 n) = [] := by
    have := congrArg String.toList hc
    simpa [Nat.repr, List.asString] using this
  have h3 : (1 : Nat) ≤ (Nat.toDigits 10 n).length := by
    unfold Nat.toDigits
    simp only [Nat.toDigitsCore]
    split
    · simp
    · exact le_trans (by simp) (toDigitsCore_len 10 n (n / 10) [Nat.digitChar (n % 10)])
  rw [h2] at h3
  simp at h3

theorem mget_mset_same {α : Type} (m : List (String × α)) (k : String) (v : α) :
    mget (mset m k v) k = some v := by
  induction m with
  | nil => simp [mset, mget]
  | cons p t ih =>
    by_cases h : p.1 = k
    · simp [mset, mget, h]
    · simp [mset, mget, h, ih]

theorem mget_mset_ne {α : Type} (m : List (String × α)) (k k' : String) (v : α)
    (h : ¬ k' = k) : mget (mset m k v) k' = mget m k' := by
  have h2 : ¬ k = k' := fun hh => h hh.symm
  induction m with
  | nil => simp [mset, mget, h2]
  | cons p t ih =>
    by_cases hp : p.1 = k
    · have hp' : ¬ p.1 = k' := by rw [hp]; exact h2
      simp [mset, mget, hp, hp', h2]
    · by_cases hq : p.1 = k'
      · simp [mset, mget, hp, hq, h]
      · simp [mset, mget, hp, hq, ih]

/-- No key that survives the null/empty guard coerces to the empty string, so
the track map never acquires an empty-string key. -/
theorem btm_no_empty (tb : Bool) :
    ∀ (data : List Item) (idx : Nat) (m : List (String × Item)),
      mhas m "" = false → mhas (btm tb idx data m) "" = false := by
  intro data
  induction data with
  | nil => intro idx m h; simpa [btm] using h
  | cons it rest ih =>
    intro idx m h
    simp only [btm]
    apply ih
    by_cases hg : keyOf tb it idx = JKey.jnull ∨ keyOf tb it idx = JKey.str ""
    · simpa [hg] using h
    · have hne : ¬ ("" : String) = keyStr (keyOf tb it idx) := by
        push_neg at hg
        cases hk : keyOf tb it idx with
        | str s =>
          have : ¬ s = "" := by
            intro hs; exact hg.2 (by rw [hk, hs])
          simpa [keyStr] using fun hh => this hh.symm
        | num n =>
          simpa [keyStr] using fun hh => nat_repr_ne_empty n hh.symm
        | jnull => exact absurd hk hg.1
      simp only [if_neg hg]
      simpa [mhas, mget_mset_ne _ _ _ _ hne] using h

/-- Claim C7, conjunct (a): the empty string is never a track-map key. -/
theorem buildTrackMap_no_empty (tb : Bool) (data : List Item) :
    mhas (buildTrackMap tb data) "" = false :=
  btm_no_empty tb data 0 [] rfl

/-- The walk over the new data only appends to `children`, `vms` and `acts`,
and never decreases the fresh-identity counter. -/
theorem pNew_extends (tb : Bool) (rm : List (String × RE)) :
    ∀ (news : List Item) (idx : Nat) (a : NewAcc),
      (∃ tl, (pNew tb rm idx news a).children = a.children ++ tl) ∧
        (∃ tl, (pNew tb rm idx news a).vms = a.vms ++ tl) ∧
        (∃ tl, (pNew tb rm idx news a).acts = a.acts ++ tl) ∧
        a.nextId ≤ (pNew tb rm idx news a).nextId := by
  intro news
  induction news with
  | nil =>
    intro idx a
    exact ⟨⟨[], by simp [pNew]⟩, ⟨[], by simp [pNew]⟩, ⟨[], by simp [pNew]⟩,
      by simp [pNew]⟩
  | cons hd rest ih =>
    intro idx a
    simp only [pNew]
    cases hm : mget rm (keyStr (keyOf tb hd idx)) with
    | some r =>
      by_cases hh : a.rl.head? = some r.item
      · simp only [if_pos hh]
        obtain ⟨⟨ctl, hc⟩, ⟨vtl, hv⟩, ⟨atl, ha⟩, hn⟩ := ih (idx + 1) _
        refine ⟨⟨[r.target] ++ ctl, ?_⟩, ⟨[r.vm] ++ vtl, ?_⟩, ⟨atl, ?_⟩, ?_⟩
        · rw [hc]; simp
        · rw [hv]; simp
        · rw [ha]
        · exact hn
      · simp only [if_neg hh]
        obtain ⟨⟨ctl, hc⟩, ⟨vtl, hv⟩, ⟨atl, ha⟩, hn⟩ := ih (idx + 1) _
        refine ⟨⟨[r.target] ++ ctl, ?_⟩, ⟨[r.vm] ++ vtl, ?_⟩,
          ⟨[Act.move r.target a.mark] ++ atl, ?_⟩, ?_⟩
        · rw [hc]; simp
        · rw [hv]; simp
        · rw [ha]; simp
        · exact hn
    | none =>
      obtain ⟨⟨ctl, hc⟩, ⟨vtl, hv⟩, ⟨atl, ha⟩, hn⟩ := ih (idx + 1) _
      refine ⟨⟨[a.nextId] ++ ctl, ?_⟩, ⟨[a.nextId + 1] ++ vtl, ?_⟩,
        ⟨[Act.add a.nextId (a.nextId + 1)] ++ atl, ?_⟩, ?_⟩
      · rw [hc]; simp
      · rw [hv]; simp
      · rw [ha]; simp
      · exact le_trans (Nat.le_add_right a.nextId 2) hn

/-- A new item whose key misses the reused map is compiled fresh: the child
placed at its position is a new identity at or above the current counter, and
likewise for its Vm. -/
theorem pNew_fresh_at (tb : Bool) (rm : List (String × RE)) :
    ∀ (news : List Item) (idx : Nat) (a : NewAcc) (j : Nat) (it : Item),
      news.get? j = some it →
      mget rm (keyStr (keyOf tb it (idx + j))) = none →
      ∃ c v, (pNew tb rm idx news a).children.get? (a.children.length + j) = some c ∧
        (pNew tb rm idx news a).vms.get? (a.vms.length + j) = some v ∧
        a.nextId ≤ c ∧ a.nextId ≤ v := by
  intro news
  induction news with
  | nil => intro idx a j it hj _; simp at hj
  | cons hd rest ih =>
    intro idx a j it hj hm
    cases j with
    | zero =>
      have hit : hd = it := by simpa using hj
      subst hit
      rw [Nat.add_zero] at hm
      simp only [pNew, hm]
      obtain ⟨⟨ctl, hc⟩, ⟨vtl, hv⟩, _, _⟩ := pNew_extends tb rm rest (idx + 1) _
      refine ⟨a.nextId, a.nextId + 1, ?_, ?_, le_refl _, by omega⟩
      · rw [hc]
        simp only [Nat.add_zero]
        rw [List.append_assoc, List.get?_append_right (by simp)]
        simp
      · rw [hv]
        simp only [Nat.add_zero]
        rw [List.append_assoc, List.get?_append_right (by simp)]
        simp
    | succ j' =>
      have hj' : rest.get? j' = some it := by simpa using hj
      have hm' : mget rm (keyStr (keyOf tb it ((idx + 1) + j'))) = none := by
        have heq : (idx + 1) + j' = idx + (j' + 1) := by omega
        rw [heq]; exact hm
      simp only [pNew]
      cases hmhd : mget rm (keyStr (keyOf tb hd idx)) with
      | some r =>
        by_cases hh : a.rl.head? = some r.item
        · simp only [if_pos hh]
          obtain ⟨c, v, h1, h2, h3, h4⟩ := ih (idx + 1)
            ⟨a.children ++ [r.target], a.vms ++ [r.vm], a.rl.tail,
              Mark.node r.target, a.nextId, a.acts⟩ j' it hj' hm'
          refine ⟨c, v, ?_, ?_, h3, h4⟩
          · rw [show a.children.length + (j' + 1) =
                (a.children ++ [r.target]).length + j' by
              simp only [List.length_append, List.length_singleton]; omega]
            exact h1
          · rw [show a.vms.length + (j' + 1) = (a.vms ++ [r.vm]).length + j' by
              simp only [List.length_append, List.length_singleton]; omega]
            exact h2
        · simp only [if_neg hh]
          obtain ⟨c, v, h1, h2, h3, h4⟩ := ih (idx + 1)
            ⟨a.children ++ [r.target], a.vms ++ [r.vm], removeItem a.rl r.item,
              Mark.node r.target, a.nextId,
              a.acts ++ [Act.move r.target a.mark]⟩ j' it hj' hm'
          refine ⟨c, v, ?_, ?_, h3, h4⟩
          · rw [show a.children.length + (j' + 1) =
                (a.children ++ [r.target]).length + j' by
              simp only [List.length_append, List.length_singleton]; omega]
            exact h1
          · rw [show a.vms.length + (j' + 1) = (a.vms ++ [r.vm]).length + j' by
              simp only [List.length_append, List.length_singleton]; omega]
            exact h2
      | none =>
        obtain ⟨c, v, h1, h2, h3, h4⟩ := ih (idx + 1)
          ⟨a.children ++ [a.nextId], a.vms ++ [a.nextId + 1], a.rl, a.mark,
            a.nextId + 2, a.acts ++ [Act.add a.nextId (a.nextId + 1)]⟩ j' it hj' hm'
        refine ⟨c, v, ?_, ?_, le_trans (Nat.le_add_right a.nextId 2) h3,
          le_trans (Nat.le_add_right a.nextId 2) h4⟩
        · rw [show a.children.length + (j' + 1) =
              (a.children ++ [a.nextId]).length + j' by
            simp only [List.length_append, List.length_singleton]; omega]
          exact h1
        · rw [show a.vms.length + (j' + 1) = (a.vms ++ [a.nextId + 1]).length + j' by
            simp only [List.length_append, List.length_singleton]; omega]
          exact h2

/-- The walk over the old data only appends to the action log. -/
theorem pOld_acts_extends (tb : Bool) (tm : List (String × Item))
    (oldCh oldVm : List Nat) :
    ∀ (olds : List Item) (idx : Nat) (acc : List (String × RE) × List Item × List Act),
      ∃ tl, (pOld tb tm oldCh oldVm idx olds acc).2.2 = acc.2.2 ++ tl := by
  intro olds
  induction olds with
  | nil => intro idx acc; exact ⟨[], by simp [pOld]⟩
  | cons hd rest ih =>
    intro idx acc
    obtain ⟨rm, rl, acts⟩ := acc
    simp only [pOld]
    by_cases hh : mhas tm (keyStr (keyOf tb hd idx)) = true
    · simpa [hh] using ih (idx + 1) _
    · simp only [Bool.not_eq_true] at hh
      obtain ⟨tl, htl⟩ := ih (idx + 1)
        (rm, rl, acts ++ [Act.removeT (oldCh.getD idx 0)])
      refine ⟨[Act.removeT (oldCh.getD idx 0)] ++ tl, ?_⟩
      simp only [hh, Bool.false_eq_true, if_false]
      rw [htl]
      simp

/-- An old item whose key misses the track map is removed: the walk emits
`removeTarget` for its recorded target element. -/
theorem pOld_removes_at (tb : Bool) (tm : List (String × Item))
    (oldCh oldVm : List Nat) :
    ∀ (olds : List Item) (idx : Nat)
      (acc : List (String × RE) × List Item × List Act) (i : Nat) (it : Item),
      olds.get? i = some it →
      mhas tm (keyStr (keyOf tb it (idx + i))) = false →
      Act.removeT (oldCh.getD (idx + i) 0) ∈
        (pOld tb tm oldCh oldVm idx olds acc).2.2 := by
  intro olds
  induction olds with
  | nil => intro idx acc i it hi _; simp at hi
  | cons hd rest ih =>
    intro idx acc i it hi hm
    obtain ⟨rm, rl, acts⟩ := acc
    cases i with
    | zero =>
      have hit : hd = it := by simpa using hi
      subst hit
      rw [Nat.add_zero] at hm
      simp only [pOld, hm, Bool.false_eq_true, if_false]
      obtain ⟨tl, htl⟩ := pOld_acts_extends tb tm oldCh oldVm rest (idx + 1)
        (rm, rl, acts ++ [Act.removeT (oldCh.getD idx 0)])
      rw [htl]
      simp [Nat.add_zero]
    | succ i' =>
      have hi' : rest.get? i' = some it := by simpa using hi
      have hm' : mhas tm (keyStr (keyOf tb it ((idx + 1) + i'))) = false := by
        have : (idx + 1) + i' = idx + (i' + 1) := by omega
        rw [this]; exact hm
      have hgoal : oldCh.getD (idx + (i' + 1)) 0 = oldCh.getD ((idx + 1) + i') 0 := by
        have : idx + (i' + 1) = (idx + 1) + i' := by omega
        rw [this]
      rw [hgoal]
      simp only [pOld]
      by_cases hh : mhas tm (keyStr (keyOf tb hd idx)) = true
      · simpa [hh] using ih (idx + 1) _ i' it hi' hm'
      · simp only [Bool.not_eq_true] at hh
        simp only [hh, Bool.false_eq_true, if_false]
        exact ih (idx + 1) _ i' it hi' hm'

/-- The reused map built by the old walk never acquires a key that misses the
track map; in particular it never has an empty-string key. -/
theorem pOld_rm_no_empty (tb : Bool) (tm : List (String × Item))
    (oldCh oldVm : List Nat) (hemp : mhas tm "" = false) :
    ∀ (olds : List Item) (idx : Nat)
      (acc : List (String × RE) × List Item × List Act),
      mget acc.1 "" = none →
      mget (pOld tb tm oldCh oldVm idx olds acc).1 "" = none := by
  intro olds
  induction olds with
  | nil => intro idx acc h; simpa [pOld] using h
  | cons hd rest ih =>
    intro idx acc h
    obtain ⟨rm, rl, acts⟩ := acc
    simp only [pOld]
    by_cases hh : mhas tm (keyStr (keyOf tb hd idx)) = true
    · simp only [hh, if_true]
      apply ih
      have hne : ¬ ("" : String) = keyStr (keyOf tb hd idx) := by
        intro hk
        rw [← hk] at hh
        rw [hemp] at hh
        exact Bool.false_ne_true hh
      simpa [mget_mset_ne _ _ _ _ hne] using h
    · simp only [Bool.not_eq_true] at hh
      simp only [hh, Bool.false_eq_true, if_false]
      exact ih (idx + 1) _ h

/-- Claim C7.  In the repeat reconciler: (1) an item's identity key is the
value of its declared track-by attribute when the directive declares one and
the value is defined, and its positional index otherwise (so a key is never
`undefined`); (2) the empty string is never entered in the new-key (track)
mapping; (3) a new item whose key is the empty string is always treated as
new — it is compiled fresh (its target is a brand-new identity, never one of
the previous children); (4) an old item whose key is the empty string is
never reused — its target is removed. -/
theorem repeat_identity_keys :
    (∀ (it : Item) (s : String) (idx : Nat), it.tb = some (JV.str s) →
        keyOf true it idx = JKey.str s) ∧
      (∀ (it : Item) (idx : Nat), it.tb = none → keyOf true it idx = JKey.num idx) ∧
      (∀ (it : Item) (idx : Nat), keyOf false it idx = JKey.num idx) ∧
      (∀ (tb : Bool) (data : List Item), mhas (buildTrackMap tb data) "" = false) ∧
      (∀ (st : RState) (data : List Item) (j : Nat) (it : Item),
        data.get? j = some it → it.tb = some (JV.str "") →
        ∃ c, (repeatHandler true st data).children.get? j = some c ∧
          st.nextId ≤ c) ∧
      (∀ (st : RState) (data : List Item) (i : Nat) (it : Item),
        st.data.get? i = some it → it.tb = some (JV.str "") →
        Act.removeT (st.children.getD i 0) ∈ (repeatHandler true st data).acts) := by
  refine ⟨fun it s idx h => by simp [keyOf, h],
    fun it idx h => by simp [keyOf, h],
    fun it idx => by simp [keyOf],
    buildTrackMap_no_empty,
    fun st data j it hj htb => ?_, fun st data i it hi htb => ?_⟩
  · have hkey : ∀ n, keyOf true it n = JKey.str "" := fun n => by simp [keyOf, htb]
    have hrm : mget (pOld true (buildTrackMap true data) st.children st.vms 0
        st.data ([], [], [])).1 "" = none :=
      pOld_rm_no_empty true _ st.children st.vms
        (buildTrackMap_no_empty true data) st.data 0 ([], [], []) rfl
    have hm : mget (pOld true (buildTrackMap true data) st.children st.vms 0
        st.data ([], [], [])).1 (keyStr (keyOf true it (0 + j))) = none := by
      rw [hkey]
      simpa [keyStr] using hrm
    obtain ⟨c, v, h1, _, h3, _⟩ := pNew_fresh_at true _ data 0
      ⟨[], [], (pOld true (buildTrackMap true data) st.children st.vms 0
        st.data ([], [], [])).2.1, Mark.start, st.nextId,
        st.acts ++ (pOld true (buildTrackMap true data) st.children st.vms 0
          st.data ([], [], [])).2.2⟩ j it hj hm
    refine ⟨c, ?_, h3⟩
    simpa [repeatHandler] using h1
  · have hkey : ∀ n, keyOf true it n = JKey.str "" := fun n => by simp [keyOf, htb]
    have hm : mhas (buildTrackMap true data) (keyStr (keyOf true it (0 + i))) = false := by
      rw [hkey]
      simpa [keyStr] using buildTrackMap_no_empty true data
    have hrem := pOld_removes_at true (buildTrackMap true data) st.children st.vms
      st.data 0 ([], [], []) i it hi hm
    obtain ⟨_, _, ⟨atl, ha⟩, _⟩ := pNew_extends true
      (pOld true (buildTrackMap true data) st.children st.vms 0
        st.data ([], [], [])).1 data 0
      ⟨[], [], (pOld true (buildTrackMap true data) st.children st.vms 0
        st.data ([], [], [])).2.1, Mark.start, st.nextId,
        st.acts ++ (pOld true (buildTrackMap true data) st.children st.vms 0
          st.data ([], [], [])).2.2⟩
    simp only [repeatHandler]
    rw [ha]
    simp only [List.mem_append]
    left; right
    simpa using hrem

/-- Witness for claim C7 at concrete inputs: a tracked item keyed "x" uses
that key; an untracked item uses its index; an empty-keyed new item is
compiled fresh (identity 100, not one of the old children); an empty-keyed
old item has its target 10 removed. -/
theorem repeat_identity_keys_witness :
    keyOf true ⟨1, some (JV.str "x")⟩ 5 = JKey.str "x" ∧
      keyOf true ⟨1, none⟩ 5 = JKey.num 5 ∧
      keyOf false ⟨1, some (JV.str "x")⟩ 5 = JKey.num 5 ∧
      mhas (buildTrackMap true [⟨1, some (JV.str "")⟩]) "" = false ∧
      (∃ c, (repeatHandler true ⟨[10], [20], [⟨1, some (JV.str "a")⟩], 100, []⟩
          [⟨2, some (JV.str "")⟩]).children.get? 0 = some c ∧ 100 ≤ c) ∧
      Act.removeT 10 ∈ (repeatHandler true
        ⟨[10], [20], [⟨1, some (JV.str "")⟩], 100, []⟩ [⟨2, some (JV.str "b")⟩]).acts := by
  have h := repeat_identity_keys
  exact ⟨h.1 ⟨1, some (JV.str "x")⟩ "x" 5 rfl, h.2.1 ⟨1, none⟩ 5 rfl,
    h.2.2.1 ⟨1, some (JV.str "x")⟩ 5, h.2.2.2.1 true [⟨1, some (JV.str "")⟩],
    h.2.2.2.2.1 ⟨[10], [20], [⟨1, some (JV.str "a")⟩], 100, []⟩
      [⟨2, some (JV.str "")⟩] 0 ⟨2, some (JV.str "")⟩ rfl rfl,
    h.2.2.2.2.2 ⟨[10], [20], [⟨1, some (JV.str "")⟩], 100, []⟩
      [⟨2, some (JV.str "b")⟩] 0 ⟨1, some (JV.str "")⟩ rfl rfl⟩

/-! Machinery for the reorder case (claim C1): with every item carrying a
defined, non-empty, pairwise-distinct string key, and the new data carrying
the same keys as the old in a new order, every item is reused. -/

/-- The string track-by key of an item, when defined. -/
def tbStr (it : Item) : Option String :=
  match it.tb with
  | some (JV.str s) => some s
  | _ => none

/-- The keys of a list of items, in order. -/
def keysOf (l : List Item) : List String :=
  l.filterMap tbStr

theorem keyOf_of_tbStr (it : Item) (s : String) (h : tbStr it = some s)
    (idx : Nat) : keyOf true it idx = JKey.str s := by
  unfold tbStr at h
  unfold keyOf
  cases htb : it.tb with
  | none => rw [htb] at h; simp at h
  | some v =>
    cases v with
    | str s' => rw [htb] at h; simp at h; simp [h]
    | jnull => rw [htb] at h; simp at h

theorem keysOf_cons (hd : Item) (rest : List Item) (s : String)
    (h : tbStr hd = some s) : keysOf (hd :: rest) = s :: keysOf rest := by
  simp [keysOf, List.filterMap_cons, h]

theorem mem_keysOf (l : List Item) (s : String) :
    s ∈ keysOf l ↔ ∃ it, it ∈ l ∧ tbStr it = some s := by
  simp [keysOf, List.mem_filterMap]

theorem mhas_mset_of {α : Type} (m : List (String × α)) (k k' : String) (v : α)
    (h : mhas m k' = true) : mhas (mset m k v) k' = true := by
  by_cases hk : k' = k
  · subst hk; simp [mhas, mget_mset_same]
  · simpa [mhas, mget_mset_ne _ _ _ _ hk] using h

/-- The track-map build only adds keys. -/
theorem btm_mono (data : List Item) :
    ∀ (idx : Nat) (m : List (String × Item)) (s : String),
      mhas m s = true → mhas (btm true idx data m) s = true := by
  induction data with
  | nil => intro idx m s h; simpa [btm] using h
  | cons hd rest ih =>
    intro idx m s h
    simp only [btm]
    apply ih
    split
    · exact h
    · exact mhas_mset_of _ _ _ _ h

/-- Every defined, non-empty key of the data ends up in the track map. -/
theorem btm_mem (data : List Item)
    (hgood : ∀ it ∈ data, ∃ s, tbStr it = some s ∧ ¬ s = "") :
    ∀ (idx : Nat) (m : List (String × Item)) (s : String),
      s ∈ keysOf data → mhas (btm true idx data m) s = true := by
  induction data with
  | nil => intro idx m s h; simp [keysOf] at h
  | cons hd rest ih =>
    intro idx m s hs
    obtain ⟨shd, hshd, hne⟩ := hgood hd (by simp)
    rw [keysOf_cons hd rest shd hshd] at hs
    simp only [btm]
    have hk : keyOf true hd idx = JKey.str shd := keyOf_of_tbStr hd shd hshd idx
    have hguard : ¬ (keyOf true hd idx = JKey.jnull ∨ keyOf true hd idx = JKey.str "") := by
      rw [hk]
      simp [hne]
    rw [if_neg hguard]
    rcases List.mem_cons.mp hs with hs1 | hs2
    · subst hs1
      apply btm_mono
      rw [hk]
      simp only [keyStr]
      simp [mhas, mget_mset_same]
    · exact ih (fun it hit => hgood it (List.mem_cons_of_mem _ hit)) (idx + 1) _ s hs2

/-- The old walk never disturbs a reused-map key that no old item carries. -/
theorem pOld_rm_other (tm : List (String × Item)) (oldCh oldVm : List Nat)
    (s : String) :
    ∀ (olds : List Item) (idx : Nat) (rm : List (String × RE))
      (rl : List Item) (acts : List Act),
      (∀ it ∈ olds, ∃ s', tbStr it = some s' ∧ ¬ s' = s) →
      mget (pOld true tm oldCh oldVm idx olds (rm, rl, acts)).1 s = mget rm s := by
  intro olds
  induction olds with
  | nil => intro idx rm rl acts _; simp [pOld]
  | cons hd rest ih =>
    intro idx rm rl acts hgood
    obtain ⟨s', hs', hne⟩ := hgood hd (by simp)
    have hk : keyOf true hd idx = JKey.str s' := keyOf_of_tbStr hd s' hs' idx
    have hrest : ∀ it ∈ rest, ∃ s', tbStr it = some s' ∧ ¬ s' = s :=
      fun it hit => hgood it (List.mem_cons_of_mem _ hit)
    simp only [pOld]
    by_cases hh : mhas tm (keyStr (keyOf true hd idx)) = true
    · simp only [hh, if_true]
      rw [ih (idx + 1) _ _ _ hrest]
      rw [hk]
      simp only [keyStr]
      exact mget_mset_ne _ _ _ _ (fun hc => hne hc.symm)
    · simp only [Bool.not_eq_true] at hh
      simp only [hh, Bool.false_eq_true, if_false]
      exact ih (idx + 1) _ _ _ hrest

/-- With all old keys in the track map and pairwise distinct, the old walk
records each old item in the reused map under its key, together with its old
index, target and Vm. -/
theorem pOld_rm_spec (tm : List (String × Item)) (oldCh oldVm : List Nat) :
    ∀ (olds : List Item) (idx : Nat) (rm0 : List (String × RE))
      (rl0 : List Item) (acts0 : List Act),
      (∀ it ∈ olds, ∃ s, tbStr it = some s ∧ mhas tm s = true) →
      (keysOf olds).Nodup →
      ∀ (i : Nat) (it : Item) (s : String), olds.get? i = some it →
        tbStr it = some s →
        mget (pOld true tm oldCh oldVm idx olds (rm0, rl0, acts0)).1 s =
          some ⟨it, idx + i, oldCh.getD (idx + i) 0, oldVm.getD (idx + i) 0⟩ := by
  intro olds
  induction olds with
  | nil => intro idx rm0 rl0 acts0 _ _ i it s hi; simp at hi
  | cons hd rest ih =>
    intro idx rm0 rl0 acts0 hall hnd i it s hi hs
    obtain ⟨shd, hshd, hhas⟩ := hall hd (by simp)
    have hk : keyOf true hd idx = JKey.str shd := keyOf_of_tbStr hd shd hshd idx
    have hks : keyStr (keyOf true hd idx) = shd := by rw [hk]; rfl
    have hndrest : (keysOf rest).Nodup := by
      rw [keysOf_cons hd rest shd hshd] at hnd
      exact hnd.of_cons
    have hnotin : ¬ shd ∈ keysOf rest := by
      rw [keysOf_cons hd rest shd hshd] at hnd
      exact (List.nodup_cons.mp hnd).1
    simp only [pOld, hks, hhas, if_true]
    cases i with
    | zero =>
      have hit : hd = it := by simpa using hi
      subst hit
      have hss : shd = s := by rw [hshd] at hs; simpa using hs
      subst hss
      rw [pOld_rm_other tm oldCh oldVm shd rest (idx + 1) _ _ _ ?_]
      · rw [Nat.add_zero]
        exact mget_mset_same _ _ _
      · intro it2 hit2
        obtain ⟨s2, hs2, _⟩ := hall it2 (List.mem_cons_of_mem _ hit2)
        refine ⟨s2, hs2, fun hc => hnotin ?_⟩
        subst hc
        exact (mem_keysOf rest s2).mpr ⟨it2, hit2, hs2⟩
    | succ i' =>
      have hi' : rest.get? i' = some it := by simpa using hi
      have heq : idx + (i' + 1) = (idx + 1) + i' := by omega
      rw [heq]
      exact ih (idx + 1) _ _ _
        (fun it2 hit2 => hall it2 (List.mem_cons_of_mem _ hit2)) hndrest
        i' it s hi' hs

/-- With all old keys reusable, the old walk removes nothing: the action log
passes through unchanged. -/
theorem pOld_acts_all_reused (tm : List (String × Item)) (oldCh oldVm : List Nat) :
    ∀ (olds : List Item) (idx : Nat) (rm0 : List (String × RE))
      (rl0 : List Item) (acts0 : List Act),
      (∀ it ∈ olds, ∃ s, tbStr it = some s ∧ mhas tm s = true) →
      (pOld true tm oldCh oldVm idx olds (rm0, rl0, acts0)).2.2 = acts0 := by
  intro olds
  induction olds with
  | nil => intro idx rm0 rl0 acts0 _; simp [pOld]
  | cons hd rest ih =>
    intro idx rm0 rl0 acts0 hall
    obtain ⟨shd, hshd, hhas⟩ := hall hd (by simp)
    have hks : keyStr (keyOf true hd idx) = shd := by
      rw [keyOf_of_tbStr hd shd hshd idx]; rfl
    simp only [pOld, hks, hhas, if_true]
    exact ih (idx + 1) _ _ _ (fun it2 hit2 => hall it2 (List.mem_cons_of_mem _ hit2))

/-- With every new key found in the reused map, the new walk reuses every
item: no fresh identity is allocated, every emitted action beyond the incoming
log is a move, and the children/Vms placed at each position are exactly the
recorded target and Vm for that item's key. -/
theorem pNew_all_reused (rm : List (String × RE)) :
    ∀ (news : List Item) (idx : Nat) (a : NewAcc),
      (∀ it ∈ news, ∃ s, tbStr it = some s ∧ ∃ r, mget rm s = some r) →
      (pNew true rm idx news a).nextId = a.nextId ∧
        (∀ x ∈ (pNew true rm idx news a).acts,
          x ∈ a.acts ∨ ∃ t m, x = Act.move t m) ∧
        (∀ (j : Nat) (it : Item) (s : String), news.get? j = some it →
          tbStr it = some s →
          ∃ r, mget rm s = some r ∧
            (pNew true rm idx news a).children.get? (a.children.length + j) =
              some r.target ∧
            (pNew true rm idx news a).vms.get? (a.vms.length + j) = some r.vm) := by
  intro news
  induction news with
  | nil =>
    intro idx a _
    refine ⟨by simp [pNew], fun x hx => Or.inl (by simpa [pNew] using hx),
      fun j it s hj _ => by simp at hj⟩
  | cons hd rest ih =>
    intro idx a hall
    obtain ⟨shd, hshd, rhd, hrhd⟩ := hall hd (by simp)
    have hks : keyStr (keyOf true hd idx) = shd := by
      rw [keyOf_of_tbStr hd shd hshd idx]; rfl
    have hallrest : ∀ it ∈ rest, ∃ s, tbStr it = some s ∧ ∃ r, mget rm s = some r :=
      fun it hit => hall it (List.mem_cons_of_mem _ hit)
    simp only [pNew, hks, hrhd]
    by_cases hh : a.rl.head? = some rhd.item
    · simp only [if_pos hh]
      have ihh := ih (idx + 1)
        ⟨a.children ++ [rhd.target], a.vms ++ [rhd.vm], a.rl.tail,
          Mark.node rhd.target, a.nextId, a.acts⟩ hallrest
      refine ⟨ihh.1, fun x hx => ihh.2.1 x hx, fun j it s hj hs => ?_⟩
      cases j with
      | zero =>
        have hit : hd = it := by simpa using hj
        subst hit
        have hss : shd = s := by rw [hshd] at hs; simpa using hs
        subst hss
        refine ⟨rhd, hrhd, ?_, ?_⟩
        · obtain ⟨⟨ctl, hc⟩, _, _, _⟩ := pNew_extends true rm rest (idx + 1)
            ⟨a.children ++ [rhd.target], a.vms ++ [rhd.vm], a.rl.tail,
              Mark.node rhd.target, a.nextId, a.acts⟩
          rw [hc]
          simp only [Nat.add_zero]
          rw [List.append_assoc, List.get?_append_right (by simp)]
          simp
        · obtain ⟨_, ⟨vtl, hv⟩, _, _⟩ := pNew_extends true rm rest (idx + 1)
            ⟨a.children ++ [rhd.target], a.vms ++ [rhd.vm], a.rl.tail,
              Mark.node rhd.target, a.nextId, a.acts⟩
          rw [hv]
          simp only [Nat.add_zero]
          rw [List.append_assoc, List.get?_append_right (by simp)]
          simp
      | succ j' =>
        have hj' : rest.get? j' = some it := by simpa using hj
        obtain ⟨r, hr, h1, h2⟩ := ihh.2.2 j' it s hj' hs
        refine ⟨r, hr, ?_, ?_⟩
        · rw [show a.children.length + (j' + 1) =
              (a.children ++ [rhd.target]).length + j' by
            simp only [List.length_append, List.length_singleton]; omega]
          exact h1
        · rw [show a.vms.length + (j' + 1) = (a.vms ++ [rhd.vm]).length + j' by
            simp only [List.length_append, List.length_singleton]; omega]
          exact h2
    · simp only [if_neg hh]
      have ihh := ih (idx + 1)
        ⟨a.children ++ [rhd.target], a.vms ++ [rhd.vm], removeItem a.rl rhd.item,
          Mark.node rhd.target, a.nextId,
          a.acts ++ [Act.move rhd.target a.mark]⟩ hallrest
      refine ⟨ihh.1, fun x hx => ?_, fun j it s hj hs => ?_⟩
      · rcases ihh.2.1 x hx with hx1 | hx2
        · rcases List.mem_append.mp hx1 with hxa | hxm
          · exact Or.inl hxa
          · exact Or.inr ⟨rhd.target, a.mark, by simpa using hxm⟩
        · exact Or.inr hx2
      · cases j with
        | zero =>
          have hit : hd = it := by simpa using hj
          subst hit
          have hss : shd = s := by rw [hshd] at hs; simpa using hs
          subst hss
          refine ⟨rhd, hrhd, ?_, ?_⟩
          · obtain ⟨⟨ctl, hc⟩, _, _, _⟩ := pNew_extends true rm rest (idx + 1)
              ⟨a.children ++ [rhd.target], a.vms ++ [rhd.vm],
                removeItem a.rl rhd.item, Mark.node rhd.target, a.nextId,
                a.acts ++ [Act.move rhd.target a.mark]⟩
            rw [hc]
            simp only [Nat.add_zero]
            rw [List.append_assoc, List.get?_append_right (by simp)]
            simp
          · obtain ⟨_, ⟨vtl, hv⟩, _, _⟩ := pNew_extends true rm rest (idx + 1)
              ⟨a.children ++ [rhd.target], a.vms ++ [rhd.vm],
                removeItem a.rl rhd.item, Mark.node rhd.target, a.nextId,
                a.acts ++ [Act.move rhd.target a.mark]⟩
            rw [hv]
            simp only [Nat.add_zero]
            rw [List.append_assoc, List.get?_append_right (by simp)]
            simp
        | succ j' =>
          have hj' : rest.get? j' = some it := by simpa using hj
          obtain ⟨r, hr, h1, h2⟩ := ihh.2.2 j' it s hj' hs
          refine ⟨r, hr, ?_, ?_⟩
          · rw [show a.children.length + (j' + 1) =
                (a.children ++ [rhd.target]).length + j' by
              simp only [List.length_append, List.length_singleton]; omega]
            exact h1
          · rw [show a.vms.length + (j' + 1) = (a.vms ++ [rhd.vm]).length + j' by
              simp only [List.length_append, List.length_singleton]; omega]
            exact h2

/-- Claim C1.  For a repeat re-run whose new data carries exactly the same
(defined, non-empty, pairwise-distinct) identity keys as the previous
materialization, in any order: no fresh target/Vm identity is allocated (no
child Vm is compiled), every action emitted beyond the pre-existing log is a
`moveTarget` (no `removeTarget`), and the entry of every item in the rebuilt
`children` and `vms` arrays is the identical element and Vm recorded for that
key in the previous materialization. -/
theorem repeat_reorder_preserves_identity (st : RState) (data : List Item)
    (hgoodOld : ∀ it ∈ st.data, ∃ s, tbStr it = some s ∧ ¬ s = "")
    (hgoodNew : ∀ it ∈ data, ∃ s, tbStr it = some s ∧ ¬ s = "")
    (hnodup : (keysOf st.data).Nodup)
    (hperm : (keysOf data).Perm (keysOf st.data))
    (hlenCh : st.children.length = st.data.length)
    (hlenVm : st.vms.length = st.data.length) :
    (repeatHandler true st data).nextId = st.nextId ∧
      (∀ x ∈ (repeatHandler true st data).acts,
        x ∈ st.acts ∨ ∃ t m, x = Act.move t m) ∧
      (∀ (j : Nat) (it : Item), data.get? j = some it →
        ∃ (i : Nat) (itOld : Item), st.data.get? i = some itOld ∧
          tbStr itOld = tbStr it ∧
          (repeatHandler true st data).children.get? j = st.children.get? i ∧
          (repeatHandler true st data).vms.get? j = st.vms.get? i) := by
  have hTM : ∀ it ∈ st.data, ∃ s, tbStr it = some s ∧
      mhas (buildTrackMap true data) s = true := by
    intro it hit
    obtain ⟨s, hs, hne⟩ := hgoodOld it hit
    refine ⟨s, hs, btm_mem data hgoodNew 0 [] s ?_⟩
    exact hperm.mem_iff.mpr ((mem_keysOf _ s).mpr ⟨it, hit, hs⟩)
  have hacts1 : (pOld true (buildTrackMap true data) st.children st.vms 0
      st.data ([], [], [])).2.2 = [] :=
    pOld_acts_all_reused _ st.children st.vms st.data 0 [] [] [] hTM
  have hRM : ∀ it ∈ data, ∃ s, tbStr it = some s ∧
      ∃ r, mget (pOld true (buildTrackMap true data) st.children st.vms 0
        st.data ([], [], [])).1 s = some r := by
    intro it hit
    obtain ⟨s, hs, hne⟩ := hgoodNew it hit
    have hsin : s ∈ keysOf st.data :=
      hperm.mem_iff.mp ((mem_keysOf data s).mpr ⟨it, hit, hs⟩)
    obtain ⟨itOld, hmem, hsOld⟩ := (mem_keysOf _ s).mp hsin
    obtain ⟨i, hi⟩ := List.get?_of_mem hmem
    exact ⟨s, hs, _,
      pOld_rm_spec _ st.children st.vms st.data 0 [] [] [] hTM hnodup i itOld s hi hsOld⟩
  have hPN := pNew_all_reused
    (pOld true (buildTrackMap true data) st.children st.vms 0 st.data ([], [], [])).1
    data 0
    ⟨[], [], (pOld true (buildTrackMap true data) st.children st.vms 0
        st.data ([], [], [])).2.1, Mark.start, st.nextId,
      st.acts ++ (pOld true (buildTrackMap true data) st.children st.vms 0
        st.data ([], [], [])).2.2⟩ hRM
  refine ⟨hPN.1, fun x hx => ?_, fun j it hj => ?_⟩
  · rcases hPN.2.1 x hx with hx1 | hx2
    · left
      rw [hacts1] at hx1
      simpa using hx1
    · exact Or.inr hx2
  · obtain ⟨s, hs, hne⟩ := hgoodNew it (List.get?_mem hj)
    obtain ⟨r, hr, h1, h2⟩ := hPN.2.2 j it s hj hs
    have hsin : s ∈ keysOf st.data :=
      hperm.mem_iff.mp ((mem_keysOf data s).mpr ⟨it, List.get?_mem hj, hs⟩)
    obtain ⟨itOld, hmem, hsOld⟩ := (mem_keysOf _ s).mp hsin
    obtain ⟨i, hi⟩ := List.get?_of_mem hmem
    have hr2 := pOld_rm_spec _ st.children st.vms st.data 0 [] [] []
      hTM hnodup i itOld s hi hsOld
    rw [hr] at hr2
    have hreq : r = ⟨itOld, 0 + i, st.children.getD (0 + i) 0,
        st.vms.getD (0 + i) 0⟩ := by
      exact Option.some_injective _ hr2
    have hilt : i < st.data.length := by
      cases hx : st.data.get? i with
      | none => rw [hx] at hi; exact absurd hi (by simp)
      | some y =>
        by_contra hc
        push_neg at hc
        rw [List.get?_eq_none.mpr hc] at hx
        exact absurd hx (by simp)
    have hcg : st.children.get? i = some (st.children.getD i 0) := by
      cases hx : st.children.get? i with
      | none =>
        have := List.get?_eq_none.mp hx
        rw [hlenCh] at this
        omega
      | some x => rw [List.getD_eq_getD_get?, hx]; rfl
    have hvg : st.vms.get? i = some (st.vms.getD i 0) := by
      cases hx : st.vms.get? i with
      | none =>
        have := List.get?_eq_none.mp hx
        rw [hlenVm] at this
        omega
      | some x => rw [List.getD_eq_getD_get?, hx]; rfl
    simp only [List.length_nil, Nat.zero_add] at h1 h2
    refine ⟨i, itOld, hi, by rw [hsOld, hs], ?_, ?_⟩
    · rw [hcg]
      have hRc : (repeatHandler true st data).children =
          (pNew true (pOld true (buildTrackMap true data) st.children st.vms 0
              st.data ([], [], [])).1 0 data
            ⟨[], [], (pOld true (buildTrackMap true data) st.children st.vms 0
                st.data ([], [], [])).2.1, Mark.start, st.nextId,
              st.acts ++ (pOld true (buildTrackMap true data) st.children st.vms 0
                st.data ([], [], [])).2.2⟩).children := rfl
      rw [hRc, h1, hreq]
      simp
    · rw [hvg]
      have hRv : (repeatHandler true st data).vms =
          (pNew true (pOld true (buildTrackMap true data) st.children st.vms 0
              st.data ([], [], [])).1 0 data
            ⟨[], [], (pOld true (buildTrackMap true data) st.children st.vms 0
                st.data ([], [], [])).2.1, Mark.start, st.nextId,
              st.acts ++ (pOld true (buildTrackMap true data) st.children st.vms 0
                st.data ([], [], [])).2.2⟩).vms := rfl
      rw [hRv, h2, hreq]
      simp

/-- Witness for claim C1 at a concrete input: old keys a,b,c with targets
10,11,12 and vms 20,21,22, reordered to c,a,b — every entry keeps its old
target and Vm, no fresh identity is allocated, and the only actions are
moves. -/
theorem repeat_reorder_preserves_identity_witness :
    (repeatHandler true
        ⟨[10, 11, 12], [20, 21, 22],
          [⟨1, some (JV.str "a")⟩, ⟨2, some (JV.str "b")⟩, ⟨3, some (JV.str "c")⟩],
          100, []⟩
        [⟨5, some (JV.str "c")⟩, ⟨6, some (JV.str "a")⟩, ⟨7, some (JV.str "b")⟩]).nextId =
      100 ∧
      (∀ x ∈ (repeatHandler true
          ⟨[10, 11, 12], [20, 21, 22],
            [⟨1, some (JV.str "a")⟩, ⟨2, some (JV.str "b")⟩, ⟨3, some (JV.str "c")⟩],
            100, []⟩
          [⟨5, some (JV.str "c")⟩, ⟨6, some (JV.str "a")⟩, ⟨7, some (JV.str "b")⟩]).acts,
        x ∈ ([] : List Act) ∨ ∃ t m, x = Act.move t m) := by
  have h := repeat_reorder_preserves_identity
    ⟨[10, 11, 12], [20, 21, 22],
      [⟨1, some (JV.str "a")⟩, ⟨2, some (JV.str "b")⟩, ⟨3, some (JV.str "c")⟩],
      100, []⟩
    [⟨5, some (JV.str "c")⟩, ⟨6, some (JV.str "a")⟩, ⟨7, some (JV.str "b")⟩]
    (by intro it hit; fin_cases hit <;> exact ⟨_, rfl, by decide⟩)
    (by intro it hit; fin_cases hit <;> exact ⟨_, rfl, by decide⟩)
    (by decide) (by decide) (by decide) (by decide)
  exact ⟨h.1, h.2.1⟩

end Repeat

namespace Tree

/-- A native DOM message as sent by the structural mutations of `Element`. -/
inductive DomMsg where
  | addElement (child : Nat) (index : Int)
  | moveElement (child : Nat) (index : Int)
  | removeElement (child : Nat)
deriving DecidableEq

/-- The state of one parent element and the world of nodes around it:
the `children` and `pureChildren` arrays (node identities), the sibling
pointers of every node (`none`/`none` when never set — Node.ts is not in src;
its `previousSibling`/`nextSibling` fields are modelled here as state), the
parent pointer of every node (`some true` = this element, `some false` = some
other element, absent = no parent), whether a task center exists, and the
message log. -/
structure TState where
  children : List Nat
  pure : List Nat
  sibs : List (Nat × (Option Nat × Option Nat))
  par : List (Nat × Bool)
  hasTC : Bool
  msgs : List DomMsg
deriving DecidableEq

def alookup {α : Type} : List (Nat × α) → Nat → Option α
  | [], _ => none
  | p :: t, k => if p.1 = k then some p.2 else alookup t k

def aset {α : Type} : List (Nat × α) → Nat → α → List (Nat × α)
  | [], k, v => [(k, v)]
  | p :: t, k, v => if p.1 = k then (k, v) :: t else p :: aset t k v

def sibOf (s : TState) (n : Nat) : Option Nat × Option Nat :=
  (alookup s.sibs n).getD (none, none)

def prevOf (s : TState) (n : Nat) : Option Nat := (sibOf s n).1

def nextOf (s : TState) (n : Nat) : Option Nat := (sibOf s n).2

def setPrev (s : TState) (n : Nat) (v : Option Nat) : TState :=
  { s with sibs := aset s.sibs n (v, nextOf s n) }

def setNext (s : TState) (n : Nat) (v : Option Nat) : TState :=
  { s with sibs := aset s.sibs n (prevOf s n, v) }

def parOf (s : TState) (n : Nat) : Option Bool := alookup s.par n

/-- `Array.prototype.indexOf`: the index of the first occurrence, or -1. -/
def jsIndexOf : List Nat → Nat → Int
  | [], _ => -1
  | y :: t, x =>
    if y = x then 0
    else
      let r := jsIndexOf t x
      if r < 0 then -1 else r + 1

/-- Reading `list[i]`: `undefined` when out of bounds or negative. -/
def jsAt (l : List Nat) (i : Int) : Option Nat :=
  if i < 0 then none else l.get? i.toNat

/-- The start-index normalization of `Array.prototype.splice`. -/
def spliceIdx (len : Nat) (i : Int) : Nat :=
  if i < 0 then ((len : Int) + i).toNat else min i.toNat len

/-- `list.splice(i, 0, x)`. -/
def spliceIn (l : List Nat) (i : Int) (x : Nat) : List Nat :=
  l.insertIdx (spliceIdx l.length i) x

/-- `list.splice(i, 1)` for a non-negative in-range index. -/
def spliceOut1 (l : List Nat) (i : Nat) : List Nat :=
  l.eraseIdx i

def getList (s : TState) (isInPure : Bool) : List Nat :=
  if isInPure then s.pure else s.children

def setList (s : TState) (isInPure : Bool) (l : List Nat) : TState :=
  if isInPure then { s with pure := l } else { s with children := l }

/-- Transcription of `Element#insertIndex` (Element.ts:253-268): clamp a
negative index to 0, read the would-be neighbours, splice the target in, and
optionally rewire the four sibling pointers. -/
def wireIn (s : TState) (target : Nat) (before after : Option Nat) : TState :=
  let sA := match before with
    | some b => setNext s b (some target)
    | none => s
  let sB := setPrev sA target before
  let sC := setNext sB target after
  match after with
  | some a2 => setPrev sC a2 (some target)
  | none => sC

def wireOut (s : TState) (before after : Option Nat) : TState :=
  let sA := match before with
    | some b => setNext s b after
    | none => s
  match after with
  | some a2 => setPrev sA a2 before
  | none => sA

def insertIndex (s : TState) (target : Nat) (newIndex0 : Int)
    (changeSibling isInPure : Bool) : TState × Int :=
  let list := getList s isInPure
  let newIndex : Int := if newIndex0 < 0 then 0 else newIndex0
  let before := jsAt list (newIndex - 1)
  let after := jsAt list newIndex
  let s1 := setList s isInPure (spliceIn list newIndex target)
  let s2 := if changeSibling then wireIn s1 target before after else s1
  (s2, newIndex)

/-- Transcription of `Element#moveIndex` (Element.ts:279-313): -1 when the
target is not in the list; otherwise unlink the neighbours, splice the target
out, adjust the destination index when the removal shifted it, splice back in,
rewire pointers, and return -1 when the position did not change. -/
def moveIndex (s : TState) (target : Nat) (newIndex : Int)
    (changeSibling isInPure : Bool) : TState × Int :=
  let list := getList s isInPure
  let index := jsIndexOf list target
  if index < 0 then (s, -1)
  else
    let s1 :=
      if changeSibling then
        wireOut s (jsAt list (index - 1)) (jsAt list (index + 1))
      else s
    let listRm := spliceOut1 (getList s1 isInPure) index.toNat
    let newIndexAfter : Int := if index ≤ newIndex then newIndex - 1 else newIndex
    let beforeNew := jsAt listRm (newIndexAfter - 1)
    let afterNew := jsAt listRm newIndexAfter
    let s2 := setList s1 isInPure (spliceIn listRm newIndexAfter target)
    let s3 := if changeSibling then wireIn s2 target beforeNew afterNew else s2
    if index = newIndexAfter then (s3, -1) else (s3, newIndex)

/-- Transcription of `Element#removeIndex` (Element.ts:322-335). -/
def removeIndex (s : TState) (target : Nat) (changeSibling isInPure : Bool) :
    TState :=
  let list := getList s isInPure
  let index := jsIndexOf list target
  if index < 0 then s
  else
    let s1 :=
      if changeSibling then
        wireOut s (jsAt list (index - 1)) (jsAt list (index + 1))
      else s
    setList s1 isInPure (spliceOut1 (getList s1 isInPure) index.toNat)

/-- Transcription of `Element#nextElement` (Element.ts:342-349): walk the
`nextSibling` chain until an element node.  The source `while (node)` loop is
unbounded; fuel makes the embedding total (the call sites pass enough fuel for
every chain that stays inside the list, and a cyclic stale chain — on which
the source would not terminate — exhausts it, yielding `undefined`). -/
def nextElement (etype : Nat → Bool) (s : TState) : Nat → Option Nat → Option Nat
  | 0, _ => none
  | _ + 1, none => none
  | fuel + 1, some n =>
    if etype n then some n else nextElement etype s fuel (nextOf s n)

/-- Transcription of `Element#previousElement` (Element.ts:356-363). -/
def previousElement (etype : Nat → Bool) (s : TState) :
    Nat → Option Nat → Option Nat
  | 0, _ => none
  | _ + 1, none => none
  | fuel + 1, some n =>
    if etype n then some n else previousElement etype s fuel (prevOf s n)

/-- Fuel for the sibling walks: more than any chain inside the state. -/
def walkFuel (s : TState) : Nat :=
  s.children.length + s.sibs.length + 1

/-- Transcription of `Element#linkChild` (Element.ts:228-242) for the parts
modelled here: `child.parentNode = this` (the docId/nodeMap bookkeeping has no
counterpart in this state). -/
def linkChild (s : TState) (n : Nat) : TState :=
  { s with par := aset s.par n true }

/-- Transcription of `Element#appendChild` (Element.ts:370-407). -/
def appendChild (etype : Nat → Bool) (s : TState) (node : Nat) : TState :=
  if parOf s node = some false then s
  else if parOf s node = none then
    let s0 := linkChild s node
    let r1 := insertIndex s0 node (s0.children.length : Int) true false
    let s1 := r1.1
    if etype node then
      let r2 := insertIndex s1 node (s1.pure.length : Int) false true
      let s2 := r2.1
      if s2.hasTC then { s2 with msgs := s2.msgs ++ [DomMsg.addElement node (-1)] }
      else s2
    else s1
  else
    let r1 := moveIndex s node (s.children.length : Int) true false
    let s1 := r1.1
    if etype node then
      let r2 := moveIndex s1 node (s1.pure.length : Int) false true
      let s2 := r2.1
      if s2.hasTC ∧ 0 ≤ r2.2 then
        { s2 with msgs := s2.msgs ++ [DomMsg.moveElement node r2.2] }
      else s2
    else s1

/-- Transcription of `Element#insertBefore` (Element.ts:415-472). -/
def insertBefore (etype : Nat → Bool) (s : TState) (node before : Nat) : TState :=
  if parOf s node = some false then s
  else if node = before ∨ ((nextOf s node).isSome ∧ nextOf s node = some before) then s
  else if jsIndexOf s.children before < 0 then s
  else if parOf s node = none then
    let s0 := linkChild s node
    let r1 := insertIndex s0 node (jsIndexOf s0.children before) true false
    let s1 := r1.1
    if etype node then
      let pureBefore := nextElement etype s1 (walkFuel s1) (some before)
      let pureIdx : Int := match pureBefore with
        | some pb => jsIndexOf s1.pure pb
        | none => (s1.pure.length : Int)
      let r2 := insertIndex s1 node pureIdx false true
      let s2 := r2.1
      if s2.hasTC then { s2 with msgs := s2.msgs ++ [DomMsg.addElement node r2.2] }
      else s2
    else s1
  else
    let r1 := moveIndex s node (jsIndexOf s.children before) true false
    let s1 := r1.1
    if etype node then
      let pureBefore := nextElement etype s1 (walkFuel s1) (some before)
      let pureIdx : Int := match pureBefore with
        | some pb => jsIndexOf s1.pure pb
        | none => (s1.pure.length : Int)
      let r2 := moveIndex s1 node pureIdx false true
      let s2 := r2.1
      if s2.hasTC ∧ 0 ≤ r2.2 then
        { s2 with msgs := s2.msgs ++ [DomMsg.moveElement node r2.2] }
      else s2
    else s1

/-- Transcription of `Element#insertAfter` (Element.ts:480-529).  Note: unlike
`insertBefore`, the source has no membership check on the reference node. -/
def insertAfter (etype : Nat → Bool) (s : TState) (node after : Nat) : TState :=
  if parOf s node = some false then s
  else if node = after ∨ ((prevOf s node).isSome ∧ prevOf s node = some after) then s
  else if parOf s node = none then
    let s0 := linkChild s node
    let r1 := insertIndex s0 node (jsIndexOf s0.children after + 1) true false
    let s1 := r1.1
    if etype node then
      let pe := previousElement etype s1 (walkFuel s1) (some after)
      let pureIdx : Int :=
        (match pe with
          | some p => jsIndexOf s1.pure p
          | none => -1) + 1
      let r2 := insertIndex s1 node pureIdx false true
      let s2 := r2.1
      if s2.hasTC then { s2 with msgs := s2.msgs ++ [DomMsg.addElement node r2.2] }
      else s2
    else s1
  else
    let r1 := moveIndex s node (jsIndexOf s.children after + 1) true false
    let s1 := r1.1
    if etype node then
      let pe := previousElement etype s1 (walkFuel s1) (some after)
      let pureIdx : Int :=
        (match pe with
          | some p => jsIndexOf s1.pure p
          | none => -1) + 1
      let r2 := moveIndex s1 node pureIdx false true
      let s2 := r2.1
      if s2.hasTC ∧ 0 ≤ r2.2 then
        { s2 with msgs := s2.msgs ++ [DomMsg.moveElement node r2.2] }
      else s2
    else s1

/-- Transcription of `Element#removeChild` (Element.ts:536-554).  The final
`node.destroy()` when not preserved (Node.ts, not in src) tears down the
removed subtree only and touches none of this parent's state. -/
def removeChild (etype : Nat → Bool) (s : TState) (node : Nat)
    (preserved : Bool) : TState :=
  if (parOf s node).isSome then
    let sA := removeIndex s node true false
    if etype node then
      let sB := removeIndex sA node false true
      if sB.hasTC then { sB with msgs := sB.msgs ++ [DomMsg.removeElement node] }
      else sB
    else sA
  else s

/-- A structural mutation issued against the parent element. -/
inductive Op where
  | append (n : Nat)
  | insBefore (n b : Nat)
  | insAfter (n a : Nat)
  | remove (n : Nat) (preserved : Bool)
deriving DecidableEq

def applyOp (etype : Nat → Bool) (s : TState) : Op → TState
  | Op.append n => appendChild etype s n
  | Op.insBefore n b => insertBefore etype s n b
  | Op.insAfter n a => insertAfter etype s n a
  | Op.remove n p => removeChild etype s n p

def run (etype : Nat → Bool) : TState → List Op → TState
  | s, [] => s
  | s, op :: rest => run etype (applyOp etype s op) rest

/-- Node type assignment for the concrete counterexample: node 2 is a comment,
all other identities are elements. -/
def etype0 (n : Nat) : Bool := ¬ n = 2

/-- Claim C4, counterexample.  Starting from an empty element and applying
only the four claimed operations — append elements 0 and 1, append comment 2,
remove comment 2 with `preserved` (as the reconciler's move/remove paths do),
then `insertAfter` element 3 relative to the removed comment (which still
carries its stale `previousSibling` pointer to element 1) — the source inserts
node 3 at children position 0 (because `children.indexOf(after) + 1` is 0) but
at pureChildren position 2 (because `previousElement(after)` follows the stale
pointer to element 1).  The result has `children = [3, 0, 1]` but
`pureChildren = [0, 1, 3]`: pureChildren is NOT the element subsequence of
children, so the invariant does not hold for every operation sequence.
Second conjunct: even with a legitimate current-child reference, the
`insertAfter` move path breaks the invariant when a comment intervenes —
appending element 0, comment 2, elements 1 and 3 and then moving element 1
after element 0 yields `children = [0, 1, 2, 3]` (the move adjusts the
destination index for the removal because `index <= newIndex`) but
`pureChildren = [1, 0, 3]` (the pure-side move of `1` to position
`indexOf(previousElement(0)) + 1 = 1` is computed against a different
geometry), which is not the element subsequence `[0, 1, 3]`. -/
theorem pure_subsequence_counterexample :
    ¬ ((run etype0 ⟨[], [], [], [], false, []⟩
          [Op.append 0, Op.append 1, Op.append 2, Op.remove 2 true,
            Op.insAfter 3 2]).pure =
        (run etype0 ⟨[], [], [], [], false, []⟩
          [Op.append 0, Op.append 1, Op.append 2, Op.remove 2 true,
            Op.insAfter 3 2]).children.filter etype0) ∧
      ¬ ((run etype0 ⟨[], [], [], [], false, []⟩
            [Op.append 0, Op.append 2, Op.append 1, Op.append 3,
              Op.insAfter 1 0]).pure =
          (run etype0 ⟨[], [], [], [], false, []⟩
            [Op.append 0, Op.append 2, Op.append 1, Op.append 3,
              Op.insAfter 1 0]).children.filter etype0) := by
  constructor
  · decide
  · decide

/-- Claim C10.  Each of the early-return guards of `appendChild`,
`insertBefore` and `insertAfter` leaves the state — children, pureChildren,
sibling pointers, parents and the message log — completely unchanged: a node
with a parent different from the receiver, a node equal to the reference node,
a node whose sibling pointer already puts it immediately adjacent to the
reference node on the relevant side, and (for `insertBefore`) a reference node
that is not among the receiver's children. -/
theorem insert_guard_noops (etype : Nat → Bool) (s : TState) (n b a2 : Nat) :
    (parOf s n = some false → appendChild etype s n = s) ∧
      (parOf s n = some false → insertBefore etype s n b = s) ∧
      (n = b → insertBefore etype s n b = s) ∧
      (nextOf s n = some b → insertBefore etype s n b = s) ∧
      (jsIndexOf s.children b < 0 → insertBefore etype s n b = s) ∧
      (parOf s n = some false → insertAfter etype s n a2 = s) ∧
      (n = a2 → insertAfter etype s n a2 = s) ∧
      (prevOf s n = some a2 → insertAfter etype s n a2 = s) := by
  refine ⟨fun h => ?_, fun h => ?_, fun h => ?_, fun h => ?_, fun h => ?_,
    fun h => ?_, fun h => ?_, fun h => ?_⟩
  · simp [appendChild, h]
  · simp [insertBefore, h]
  · by_cases hp : parOf s n = some false
    · simp [insertBefore, hp]
    · simp [insertBefore, hp, h]
  · by_cases hp : parOf s n = some false
    · simp [insertBefore, hp]
    · by_cases he : n = b
      · simp [insertBefore, hp, he]
      · simp [insertBefore, hp, he, h]
  · by_cases hp : parOf s n = some false
    · simp [insertBefore, hp]
    · by_cases hg : n = b ∨ ((nextOf s n).isSome ∧ nextOf s n = some b)
      · simp [insertBefore, hp, hg]
      · simp [insertBefore, hp, hg, h]
  · simp [insertAfter, h]
  · by_cases hp : parOf s n = some false
    · simp [insertAfter, hp]
    · simp [insertAfter, hp, h]
  · by_cases hp : parOf s n = some false
    · simp [insertAfter, hp]
    · by_cases he : n = a2
      · simp [insertAfter, hp, he]
      · simp [insertAfter, hp, he, h]

/-! Well-formedness of the element state and its preservation. -/

/-! List utilities used by the well-formedness proofs. -/

theorem insertIdx_take_drop (x : Nat) :
    ∀ (i : Nat) (l : List Nat), i ≤ l.length →
      l.insertIdx i x = l.take i ++ x :: l.drop i := by
  intro i
  induction i with
  | zero => intro l _; simp [List.insertIdx]
  | succ n ih =>
    intro l h
    cases l with
    | nil => simp at h
    | cons a t =>
      simp only [List.insertIdx_succ_cons, List.take_succ_cons, List.drop_succ_cons,
        List.cons_append]
      rw [ih t (by simpa using h)]

theorem eraseIdx_take_drop :
    ∀ (i : Nat) (l : List Nat), l.eraseIdx i = l.take i ++ l.drop (i + 1) := by
  intro i
  induction i with
  | zero =>
    intro l
    cases l <;> simp [List.eraseIdx]
  | succ n ih =>
    intro l
    cases l with
    | nil => simp [List.eraseIdx]
    | cons a t =>
      simp only [List.eraseIdx, List.take_succ_cons, List.drop_succ_cons,
        List.cons_append]
      rw [ih t]

theorem jsAt_nat (l : List Nat) (k : Nat) : jsAt l (k : Int) = l.get? k := by
  simp [jsAt]

theorem jsAt_len_sub_one (l : List Nat) :
    jsAt l ((l.length : Int) - 1) = l.getLast? := by
  cases l with
  | nil => simp [jsAt, List.getLast?]
  | cons a t =>
    have h0 : ¬ ((((a :: t).length : Int) - 1) < 0) := by
      simp only [List.length_cons]
      omega
    have ht : (((a :: t).length : Int) - 1).toNat = t.length := by
      simp only [List.length_cons]
      omega
    rw [jsAt, if_neg h0, ht]
    rw [List.getLast?_eq_get? (a :: t)]
    simp

theorem jsIndexOf_eq_neg_of_not_mem (x : Nat) :
    ∀ (l : List Nat), ¬ x ∈ l → jsIndexOf l x = -1 := by
  intro l
  induction l with
  | nil => intro _; rfl
  | cons y t ih =>
    intro h
    have hy : ¬ y = x := fun hc => h (by simp [hc])
    have ht : ¬ x ∈ t := fun hc => h (by simp [hc])
    simp [jsIndexOf, hy, ih ht]

theorem jsIndexOf_spec (x : Nat) :
    ∀ (l : List Nat), x ∈ l →
      ∃ k : Nat, jsIndexOf l x = (k : Int) ∧ k < l.length ∧
        l.get? k = some x ∧ ¬ x ∈ l.take k := by
  intro l
  induction l with
  | nil => intro h; simp at h
  | cons y t ih =>
    intro h
    by_cases hy : y = x
    · exact ⟨0, by simp [jsIndexOf, hy], by simp, by simp [hy], by simp⟩
    · have ht : x ∈ t := by
        rcases List.mem_cons.mp h with h1 | h2
        · exact absurd h1.symm hy
        · exact h2
      obtain ⟨k, h1, h2, h3, h4⟩ := ih ht
      refine ⟨k + 1, ?_, by simpa using h2, by simpa using h3, ?_⟩
      · simp only [jsIndexOf, hy, if_false]
        rw [h1]
        have : ¬ ((k : Int) < 0) := by omega
        simp only [this, if_false]
        push_cast
        ring
      · simp only [List.take_succ_cons, List.mem_cons]
        push_neg
        exact ⟨fun hc => hy hc.symm, h4⟩

theorem jsIndexOf_append_cons (x : Nat) (B : List Nat) :
    ∀ (A : List Nat), ¬ x ∈ A →
      jsIndexOf (A ++ x :: B) x = (A.length : Int) := by
  intro A
  induction A with
  | nil => intro _; simp [jsIndexOf]
  | cons a t ih =>
    intro h
    have ha : ¬ a = x := fun hc => h (by simp [hc])
    have ht : ¬ x ∈ t := fun hc => h (by simp [hc])
    simp only [List.cons_append, jsIndexOf, ha, if_false, List.append_eq]
    rw [ih ht]
    have : ¬ ((t.length : Int) < 0) := by omega
    simp only [this, if_false, List.length_cons]
    push_cast
    ring

theorem jsIndexOf_nonneg (l : List Nat) (x : Nat) (h : x ∈ l) :
    0 ≤ jsIndexOf l x := by
  obtain ⟨k, hk, _⟩ := jsIndexOf_spec x l h
  rw [hk]
  omega

theorem alookup_aset_same {α : Type} (m : List (Nat × α)) (k : Nat) (v : α) :
    alookup (aset m k v) k = some v := by
  induction m with
  | nil => simp [aset, alookup]
  | cons p t ih =>
    by_cases h : p.1 = k
    · simp [aset, alookup, h]
    · simp [aset, alookup, h, ih]

theorem alookup_aset_ne {α : Type} (m : List (Nat × α)) (k k' : Nat) (v : α)
    (h : ¬ k' = k) : alookup (aset m k v) k' = alookup m k' := by
  have h2 : ¬ k = k' := fun hh => h hh.symm
  induction m with
  | nil => simp [aset, alookup, h2]
  | cons p t ih =>
    by_cases hp : p.1 = k
    · have hp' : ¬ p.1 = k' := by rw [hp]; exact h2
      simp [aset, alookup, hp, hp', h2]
    · by_cases hq : p.1 = k'
      · simp [aset, alookup, hp, hq, h]
      · simp [aset, alookup, hp, hq, ih]

theorem prevOf_setNext (s : TState) (k : Nat) (v : Option Nat) (n : Nat) :
    prevOf (setNext s k v) n = prevOf s n := by
  by_cases h : n = k
  · subst h
    simp [prevOf, setNext, sibOf, alookup_aset_same]
  · simp [prevOf, setNext, sibOf, alookup_aset_ne s.sibs k n _ h]

theorem nextOf_setNext (s : TState) (k : Nat) (v : Option Nat) (n : Nat) :
    nextOf (setNext s k v) n = if n = k then v else nextOf s n := by
  by_cases h : n = k
  · subst h
    simp [nextOf, setNext, sibOf, alookup_aset_same]
  · simp [nextOf, setNext, sibOf, alookup_aset_ne s.sibs k n _ h, h]

theorem nextOf_setPrev (s : TState) (k : Nat) (v : Option Nat) (n : Nat) :
    nextOf (setPrev s k v) n = nextOf s n := by
  by_cases h : n = k
  · subst h
    simp [nextOf, setPrev, sibOf, alookup_aset_same]
  · simp [nextOf, setPrev, sibOf, alookup_aset_ne s.sibs k n _ h]

theorem prevOf_setPrev (s : TState) (k : Nat) (v : Option Nat) (n : Nat) :
    prevOf (setPrev s k v) n = if n = k then v else prevOf s n := by
  by_cases h : n = k
  · subst h
    simp [prevOf, setPrev, sibOf, alookup_aset_same]
  · simp [prevOf, setPrev, sibOf, alookup_aset_ne s.sibs k n _ h, h]

/-- The head of a list as the link target, with a default continuation. -/
def headOr (l : List Nat) (d : Option Nat) : Option Nat :=
  match l.head? with
  | some h => some h
  | none => d

/-- The last element of a list as the link source, with a default. -/
def lastOr (l : List Nat) (d : Option Nat) : Option Nat :=
  match l.getLast? with
  | some t => some t
  | none => d

/-- Correct doubly-linked wiring of a segment: `p` is the node before the
segment, `nx` the node after it. -/
def adjSeg (s : TState) : Option Nat → List Nat → Option Nat → Prop
  | _, [], _ => True
  | p, n :: rest, nx =>
    prevOf s n = p ∧ nextOf s n = headOr rest nx ∧ adjSeg s (some n) rest nx

/-- The sibling pointers of the whole children list are wired correctly. -/
def Adj (s : TState) : Prop :=
  adjSeg s none s.children none

/-- Well-formedness of the parent-element state: distinct children,
pureChildren is the element subsequence of children, the sibling chain is
wired, and every child's parent pointer names this element. -/
def WF (etype : Nat → Bool) (s : TState) : Prop :=
  s.children.Nodup ∧
    s.pure = s.children.filter etype ∧
    Adj s ∧
    (∀ n ∈ s.children, parOf s n = some true)

theorem headOr_append (l l' : List Nat) (d : Option Nat) :
    headOr (l ++ l') d = headOr l (headOr l' d) := by
  cases l <;> simp [headOr]

theorem lastOr_cons (x : Nat) (l : List Nat) (d : Option Nat) :
    lastOr (x :: l) d = lastOr l (some x) := by
  cases l with
  | nil => simp [lastOr, List.getLast?]
  | cons a t =>
    cases h : (a :: t).getLast? with
    | none => simp at h
    | some y => simp [lastOr, List.getLast?_cons_cons, h]

theorem adjSeg_nil (s : TState) (p nx : Option Nat) :
    adjSeg s p [] nx = True := rfl

theorem adjSeg_cons (s : TState) (p nx : Option Nat) (n : Nat) (rest : List Nat) :
    adjSeg s p (n :: rest) nx =
      (prevOf s n = p ∧ nextOf s n = headOr rest nx ∧
        adjSeg s (some n) rest nx) := rfl

theorem adjSeg_congr (s s' : TState) (l : List Nat) :
    ∀ (p nx : Option Nat),
      (∀ n ∈ l, prevOf s' n = prevOf s n ∧ nextOf s' n = nextOf s n) →
      adjSeg s p l nx → adjSeg s' p l nx := by
  induction l with
  | nil => intro p nx _ _; trivial
  | cons n rest ih =>
    intro p nx h hadj
    rw [adjSeg_cons] at hadj ⊢
    obtain ⟨h1, h2, h3⟩ := hadj
    obtain ⟨hp, hn⟩ := h n (by simp)
    exact ⟨hp.trans h1, hn.trans h2,
      ih _ _ (fun m hm => h m (List.mem_cons_of_mem _ hm)) h3⟩

theorem adjSeg_append (s : TState) (xs ys : List Nat) (nx : Option Nat) :
    ∀ (p : Option Nat),
      adjSeg s p (xs ++ ys) nx ↔
        adjSeg s p xs (headOr ys nx) ∧ adjSeg s (lastOr xs p) ys nx := by
  induction xs with
  | nil => intro p; simp [adjSeg_nil, lastOr, List.getLast?]
  | cons x t ih =>
    intro p
    rw [List.cons_append, adjSeg_cons, adjSeg_cons, ih (some x),
      headOr_append, lastOr_cons]
    tauto

/-! Pointwise characterization of the wiring helpers. -/

theorem wireIn_fields (s : TState) (x : Nat) (B A : Option Nat) :
    (wireIn s x B A).children = s.children ∧ (wireIn s x B A).pure = s.pure ∧
      (wireIn s x B A).par = s.par ∧ (wireIn s x B A).hasTC = s.hasTC ∧
      (wireIn s x B A).msgs = s.msgs := by
  cases B <;> cases A <;>
    simp [wireIn, setNext, setPrev]

theorem wireOut_fields (s : TState) (B A : Option Nat) :
    (wireOut s B A).children = s.children ∧ (wireOut s B A).pure = s.pure ∧
      (wireOut s B A).par = s.par ∧ (wireOut s B A).hasTC = s.hasTC ∧
      (wireOut s B A).msgs = s.msgs := by
  cases B <;> cases A <;>
    simp [wireOut, setNext, setPrev]

theorem some_ne_of_ne {a b : Nat} (h : ¬ a = b) :
    ¬ (some a : Option Nat) = some b := by
  intro hc
  exact h (Option.some_injective _ hc)

theorem nextOf_wireIn (s : TState) (x : Nat) (B A : Option Nat) (n : Nat) :
    nextOf (wireIn s x B A) n =
      if n = x then A else if B = some n then some x else nextOf s n := by
  cases B with
  | none =>
    cases A <;>
      · simp only [wireIn, nextOf_setPrev, nextOf_setNext]
        by_cases h : n = x <;> simp [h]
  | some b =>
    cases A <;>
      · simp only [wireIn, nextOf_setPrev, nextOf_setNext, Option.some.injEq]
        by_cases h2 : b = n
        · simp [h2]
        · have h2s : ¬ n = b := fun hc => h2 hc.symm
          simp [h2, h2s]

theorem prevOf_wireIn (s : TState) (x : Nat) (B A : Option Nat) (n : Nat) :
    prevOf (wireIn s x B A) n =
      if A = some n then some x else if n = x then B else prevOf s n := by
  cases A with
  | none =>
    cases B <;>
      · simp only [wireIn, prevOf_setPrev, prevOf_setNext]
        by_cases h : n = x <;> simp [h]
  | some a2 =>
    cases B <;>
      · simp only [wireIn, prevOf_setPrev, prevOf_setNext, Option.some.injEq]
        by_cases h2 : a2 = n
        · simp [h2]
        · have h2s : ¬ n = a2 := fun hc => h2 hc.symm
          simp [h2, h2s]

theorem nextOf_wireOut (s : TState) (B A : Option Nat) (n : Nat) :
    nextOf (wireOut s B A) n = if B = some n then A else nextOf s n := by
  cases B with
  | none => cases A <;> simp [wireOut, nextOf_setPrev]
  | some b =>
    cases A <;>
      · simp only [wireOut, nextOf_setPrev, nextOf_setNext, Option.some.injEq]
        by_cases h2 : b = n
        · simp [h2]
        · have h2s : ¬ n = b := fun hc => h2 hc.symm
          simp [h2, h2s]

theorem prevOf_wireOut (s : TState) (B A : Option Nat) (n : Nat) :
    prevOf (wireOut s B A) n = if A = some n then B else prevOf s n := by
  cases A with
  | none => cases B <;> simp [wireOut, prevOf_setNext]
  | some a2 =>
    cases B <;>
      · simp only [wireOut, prevOf_setPrev, prevOf_setNext, Option.some.injEq]
        by_cases h2 : a2 = n
        · simp [h2]
        · have h2s : ¬ n = a2 := fun hc => h2 hc.symm
          simp [h2, h2s]

theorem headOr_none (l : List Nat) : headOr l none = l.head? := by
  cases l <;> simp [headOr]

theorem lastOr_none (l : List Nat) : lastOr l none = l.getLast? := by
  cases h : l.getLast? <;> simp [lastOr, h]

/-- Rewiring only the last element's forward pointer retargets the segment's
exit link. -/
theorem adjSeg_retarget (s s' : TState) (T : List Nat) :
    ∀ (p c c' : Option Nat),
      T.Nodup →
      (∀ n ∈ T, prevOf s' n = prevOf s n) →
      (∀ n ∈ T, ¬ T.getLast? = some n → nextOf s' n = nextOf s n) →
      (∀ n, T.getLast? = some n → nextOf s' n = c') →
      adjSeg s p T c → adjSeg s' p T c' := by
  induction T with
  | nil => intro p c c' _ _ _ _ _; trivial
  | cons n rest ih =>
    intro p c c' hnd hkeepP hkeepN hlast h
    rw [adjSeg_cons] at h ⊢
    obtain ⟨h1, h2, h3⟩ := h
    cases rest with
    | nil =>
      refine ⟨(hkeepP n (by simp)).trans h1, ?_, trivial⟩
      exact hlast n (by simp [List.getLast?])
    | cons r t =>
      have hglast : (n :: r :: t).getLast? = (r :: t).getLast? :=
        List.getLast?_cons_cons
      have hnmem : ¬ n ∈ r :: t := (List.nodup_cons.mp hnd).1
      have hlne : ¬ (n :: r :: t).getLast? = some n := by
        rw [hglast]
        cases hgl : (r :: t).getLast? with
        | none => simp at hgl
        | some m =>
          have hm : m ∈ r :: t := by
            obtain ⟨hne, hx⟩ := List.mem_getLast?_eq_getLast
              (show m ∈ (r :: t).getLast? by simp [hgl])
            rw [hx]
            exact List.getLast_mem hne
          exact some_ne_of_ne (fun hc => hnmem (hc ▸ hm))
      refine ⟨(hkeepP n (by simp)).trans h1,
        (hkeepN n (by simp) hlne).trans (by simpa [headOr] using h2), ?_⟩
      exact ih (some n) c c' (List.nodup_cons.mp hnd).2
        (fun m hm => hkeepP m (List.mem_cons_of_mem _ hm))
        (fun m hm hgl => hkeepN m (List.mem_cons_of_mem _ hm) (by rwa [hglast]))
        (fun m hgl => hlast m (by rwa [hglast])) h3

/-- Rewiring only the head element's backward pointer resources the segment's
entry link. -/
theorem adjSeg_rehead (s s' : TState) (D : List Nat) (p p' nx : Option Nat)
    (hnd : D.Nodup)
    (hkeepN : ∀ n ∈ D, nextOf s' n = nextOf s n)
    (hkeepP : ∀ n ∈ D, ¬ D.head? = some n → prevOf s' n = prevOf s n)
    (hhead : ∀ n, D.head? = some n → prevOf s' n = p')
    (h : adjSeg s p D nx) : adjSeg s' p' D nx := by
  cases D with
  | nil => trivial
  | cons d t =>
    rw [adjSeg_cons] at h ⊢
    obtain ⟨h1, h2, h3⟩ := h
    have hdt : ¬ d ∈ t := (List.nodup_cons.mp hnd).1
    refine ⟨hhead d (by simp), (hkeepN d (by simp)).trans h2, ?_⟩
    refine adjSeg_congr s s' t (some d) nx (fun m hm => ?_) h3
    refine ⟨?_, hkeepN m (List.mem_cons_of_mem _ hm)⟩
    refine hkeepP m (List.mem_cons_of_mem _ hm) ?_
    simp only [List.head?_cons]
    exact some_ne_of_ne (fun hc => hdt (hc ▸ hm))

theorem mem_of_head?_eq {l : List Nat} {n : Nat} (h : l.head? = some n) :
    n ∈ l := by
  cases l with
  | nil => simp at h
  | cons d t =>
    simp only [List.head?_cons, Option.some.injEq] at h
    simp [h.symm]

theorem mem_of_getLast?_eq {l : List Nat} {n : Nat} (h : l.getLast? = some n) :
    n ∈ l := by
  obtain ⟨hne, hx⟩ := List.mem_getLast?_eq_getLast
    (show n ∈ l.getLast? by simp [h])
  rw [hx]
  exact List.getLast_mem hne

/-- Inserting a fresh node between segments `T` and `D`, with the four-pointer
rewiring that `insertIndex`/`wireIn` performs, keeps the chain wired. -/
theorem adj_insert_seam (s s' : TState) (T D : List Nat) (x : Nat)
    (hch : s.children = T ++ D) (hch' : s'.children = T ++ x :: D)
    (hnd : (T ++ D).Nodup) (hx : ¬ x ∈ T ++ D)
    (hnext : ∀ n, nextOf s' n =
      if n = x then D.head? else if T.getLast? = some n then some x else nextOf s n)
    (hprev : ∀ n, prevOf s' n =
      if D.head? = some n then some x else if n = x then T.getLast? else prevOf s n)
    (hadj : Adj s) : Adj s' := by
  have hndT : T.Nodup := (List.nodup_append.mp hnd).1
  have hndD : D.Nodup := (List.nodup_append.mp hnd).2.1
  have hdis : T.Disjoint D := (List.nodup_append.mp hnd).2.2
  have hxT : ¬ x ∈ T := fun hc => hx (List.mem_append_left _ hc)
  have hxD : ¬ x ∈ D := fun hc => hx (List.mem_append_right _ hc)
  unfold Adj at hadj ⊢
  rw [hch, adjSeg_append] at hadj
  rw [hch', adjSeg_append]
  obtain ⟨hT, hD⟩ := hadj
  constructor
  · have hhead : headOr (x :: D) none = some x := by simp [headOr]
    rw [hhead]
    refine adjSeg_retarget s s' T none (headOr D none) (some x) hndT
      (fun n hn => ?_) (fun n hn hgl => ?_) (fun n hgl => ?_) hT
    · rw [hprev n]
      have h1 : ¬ D.head? = some n := by
        cases hh : D.head? with
        | none => simp
        | some d => exact some_ne_of_ne (fun hc => hdis hn (hc ▸ mem_of_head?_eq hh))
      have h2 : ¬ n = x := fun hc => hxT (hc ▸ hn)
      simp [h1, h2]
    · rw [hnext n]
      have h2 : ¬ n = x := fun hc => hxT (hc ▸ hn)
      simp [h2, hgl]
    · rw [hnext n]
      have h2 : ¬ n = x := fun hc => hxT (hc ▸ mem_of_getLast?_eq hgl)
      simp [h2, hgl]
  · rw [adjSeg_cons]
    refine ⟨?_, ?_, ?_⟩
    · rw [hprev x]
      have h1 : ¬ D.head? = some x := by
        cases hh : D.head? with
        | none => simp
        | some d => exact some_ne_of_ne (fun hc => hxD (hc ▸ mem_of_head?_eq hh))
      simp [h1, lastOr_none]
    · rw [hnext x]
      simp [headOr_none]
    · refine adjSeg_rehead s s' D (lastOr T none) (some x) none hndD
        (fun n hn => ?_) (fun n hn hh => ?_) (fun n hh => ?_) hD
      · rw [hnext n]
        have h2 : ¬ n = x := fun hc => hxD (hc ▸ hn)
        have h3 : ¬ T.getLast? = some n := by
          cases hgl : T.getLast? with
          | none => simp
          | some m => exact some_ne_of_ne (fun hc => hdis (hc ▸ mem_of_getLast?_eq hgl) hn)
        simp [h2, h3]
      · rw [hprev n]
        have h2 : ¬ n = x := fun hc => hxD (hc ▸ hn)
        simp [hh, h2]
      · rw [hprev n]
        simp [hh]

/-- Erasing a node between segments `T` and `D`, with the neighbour rewiring
that `removeIndex`/`moveIndex`/`wireOut` performs, keeps the chain wired. -/
theorem adj_erase_seam (s s' : TState) (T D : List Nat) (z : Nat)
    (hch : s.children = T ++ z :: D) (hch' : s'.children = T ++ D)
    (hnd : (T ++ z :: D).Nodup)
    (hnext : ∀ n, nextOf s' n =
      if T.getLast? = some n then D.head? else nextOf s n)
    (hprev : ∀ n, prevOf s' n =
      if D.head? = some n then T.getLast? else prevOf s n)
    (hadj : Adj s) : Adj s' := by
  have hndT : T.Nodup := (List.nodup_append.mp hnd).1
  have hndzD : (z :: D).Nodup := (List.nodup_append.mp hnd).2.1
  have hndD : D.Nodup := hndzD.of_cons
  have hdis : T.Disjoint (z :: D) := (List.nodup_append.mp hnd).2.2
  have hdisD : T.Disjoint D := fun a ha hb => hdis ha (List.mem_cons_of_mem _ hb)
  unfold Adj at hadj ⊢
  rw [hch, adjSeg_append] at hadj
  rw [hch', adjSeg_append]
  obtain ⟨hT, hzD⟩ := hadj
  rw [adjSeg_cons] at hzD
  obtain ⟨hzp, hzn, hDadj⟩ := hzD
  constructor
  · have hhead : headOr (z :: D) none = some z := by simp [headOr]
    rw [hhead] at hT
    refine adjSeg_retarget s s' T none (some z) (headOr D none) hndT
      (fun n hn => ?_) (fun n hn hgl => ?_) (fun n hgl => ?_) hT
    · rw [hprev n]
      have h1 : ¬ D.head? = some n := by
        cases hh : D.head? with
        | none => simp
        | some d => exact some_ne_of_ne (fun hc => hdisD hn (hc ▸ mem_of_head?_eq hh))
      simp [h1]
    · rw [hnext n]
      simp [hgl]
    · rw [hnext n]
      simp [hgl, headOr_none]
  · refine adjSeg_rehead s s' D (some z) (lastOr T none) none hndD
      (fun n hn => ?_) (fun n hn hh => ?_) (fun n hh => ?_) ?_
    · rw [hnext n]
      have h3 : ¬ T.getLast? = some n := by
        cases hgl : T.getLast? with
        | none => simp
        | some m =>
          exact some_ne_of_ne
            (fun hc => hdisD (hc ▸ mem_of_getLast?_eq hgl) hn)
      simp [h3]
    · rw [hprev n]
      simp [hh]
    · rw [hprev n]
      simp [hh, lastOr_none]
    · exact hDadj
theorem jsAt_take_pred (l : List Nat) (i : Nat) (hi : i ≤ l.length) :
    jsAt l ((i : Int) - 1) = (l.take i).getLast? := by
  cases i with
  | zero => simp [jsAt]
  | succ k =>
    have h0 : ¬ (((k + 1 : Nat) : Int) - 1 < 0) := by omega
    have ht : (((k + 1 : Nat) : Int) - 1).toNat = k := by omega
    rw [jsAt, if_neg h0, ht]
    have hlt : k < l.length := by omega
    have hlen : (l.take (k + 1)).length = k + 1 := by
      rw [List.length_take]
      omega
    rw [List.getLast?_eq_get? (l.take (k + 1))]
    rw [hlen]
    simp only [Nat.add_sub_cancel]
    rw [List.get?_take (by omega)]

theorem jsAt_drop_head (l : List Nat) (i : Nat) :
    jsAt l (i : Int) = (l.drop i).head? := by
  rw [jsAt_nat]
  induction l generalizing i with
  | nil => simp
  | cons a t ih =>
    cases i with
    | zero => simp
    | succ k => simpa using ih k

theorem decomp_of_get? :
    ∀ (l : List Nat) (k : Nat) (z : Nat), l.get? k = some z →
      l = l.take k ++ z :: l.drop (k + 1) := by
  intro l
  induction l with
  | nil => intro k z h; simp at h
  | cons a t ih =>
    intro k z h
    cases k with
    | zero =>
      simp only [List.get?_cons_zero, Option.some.injEq] at h
      simp [h]
    | succ k' =>
      simp only [List.get?_cons_succ] at h
      simp only [List.take_succ_cons, List.drop_succ_cons, List.cons_append,
        List.cons.injEq, true_and]
      exact ih k' z h

theorem lt_length_of_get? {l : List Nat} {k : Nat} {z : Nat}
    (h : l.get? k = some z) : k < l.length := by
  by_contra hc
  push_neg at hc
  rw [List.get?_eq_none.mpr hc] at h
  exact absurd h (by simp)

theorem setList_false_eq (s : TState) (l : List Nat) :
    setList s false l = { s with children := l } := rfl

theorem setList_true_eq (s : TState) (l : List Nat) :
    setList s true l = { s with pure := l } := rfl

/-- Characterization of `insertIndex` on the children list with sibling
rewiring, at an in-range non-negative index, for a node not yet a child. -/
theorem insertIndex_children_spec (s : TState) (x : Nat) (i : Nat)
    (hnd : s.children.Nodup) (hadj : Adj s) (hx : ¬ x ∈ s.children)
    (hi : i ≤ s.children.length) :
    (insertIndex s x (i : Int) true false).2 = (i : Int) ∧
      (insertIndex s x (i : Int) true false).1.children =
        s.children.take i ++ x :: s.children.drop i ∧
      (insertIndex s x (i : Int) true false).1.pure = s.pure ∧
      (insertIndex s x (i : Int) true false).1.par = s.par ∧
      (insertIndex s x (i : Int) true false).1.hasTC = s.hasTC ∧
      (insertIndex s x (i : Int) true false).1.msgs = s.msgs ∧
      (insertIndex s x (i : Int) true false).1.children.Nodup ∧
      Adj (insertIndex s x (i : Int) true false).1 := by
  have hclamp : ¬ ((i : Int) < 0) := by omega
  have hsplice : spliceIn s.children (i : Int) x =
      s.children.take i ++ x :: s.children.drop i := by
    rw [spliceIn, spliceIdx, if_neg hclamp]
    have : min (i : Int).toNat s.children.length = i := by omega
    rw [this, insertIdx_take_drop x i s.children hi]
  have hTD : s.children.take i ++ s.children.drop i = s.children :=
    List.take_append_drop i s.children
  have hB : jsAt s.children ((i : Int) - 1) = (s.children.take i).getLast? :=
    jsAt_take_pred s.children i hi
  have hA : jsAt s.children (i : Int) = (s.children.drop i).head? :=
    jsAt_drop_head s.children i
  have hres : insertIndex s x (i : Int) true false =
      (wireIn { s with children := s.children.take i ++ x :: s.children.drop i }
          x (jsAt s.children ((i : Int) - 1)) (jsAt s.children (i : Int)),
        (i : Int)) := by
    rw [insertIndex]
    simp only [getList, Bool.false_eq_true, if_false, if_neg hclamp, if_pos,
      setList_false_eq, hsplice]
  rw [hres]
  obtain ⟨hwc, hwp, hwpar, hwtc, hwm⟩ := wireIn_fields
    { s with children := s.children.take i ++ x :: s.children.drop i }
    x (jsAt s.children ((i : Int) - 1)) (jsAt s.children (i : Int))
  have hnd2 : (s.children.take i ++ x :: s.children.drop i).Nodup := by
    rw [List.nodup_middle]
    rw [hTD]
    exact List.nodup_cons.mpr ⟨hx, hnd⟩
  refine ⟨rfl, by rw [hwc], by rw [hwp], by rw [hwpar], by rw [hwtc],
    by rw [hwm], by rw [hwc]; exact hnd2, ?_⟩
  have hndTD : (s.children.take i ++ s.children.drop i).Nodup := by
    rw [hTD]; exact hnd
  have hxTD : ¬ x ∈ s.children.take i ++ s.children.drop i := by
    rw [hTD]; exact hx
  refine adj_insert_seam s _ (s.children.take i) (s.children.drop i) x
    hTD.symm (by rw [hwc]) hndTD hxTD (fun n => ?_) (fun n => ?_) hadj
  · rw [nextOf_wireIn, hB, hA]
    rfl
  · rw [prevOf_wireIn, hB, hA]
    rfl

/-- With `changeSibling` off, `insertIndex` on the pure list just splices. -/
theorem insertIndex_pure_eq (s : TState) (x : Nat) (pi : Int) :
    insertIndex s x pi false true =
      ({ s with pure := spliceIn s.pure (if pi < 0 then 0 else pi) x },
        if pi < 0 then 0 else pi) := by
  rfl

theorem nextOf_setList (s : TState) (b : Bool) (l : List Nat) (n : Nat) :
    nextOf (setList s b l) n = nextOf s n := by
  cases b <;> rfl

theorem prevOf_setList (s : TState) (b : Bool) (l : List Nat) (n : Nat) :
    prevOf (setList s b l) n = prevOf s n := by
  cases b <;> rfl

theorem prevOf_congr (t t' : TState) (hs : t'.sibs = t.sibs) (n : Nat) :
    prevOf t' n = prevOf t n := by
  unfold prevOf sibOf
  rw [hs]

theorem nextOf_congr (t t' : TState) (hs : t'.sibs = t.sibs) (n : Nat) :
    nextOf t' n = nextOf t n := by
  unfold nextOf sibOf
  rw [hs]

theorem parOf_congr (t t' : TState) (hp : t'.par = t.par) (n : Nat) :
    parOf t' n = parOf t n := by
  unfold parOf
  rw [hp]

theorem Adj_congr (t t' : TState) (hc : t'.children = t.children)
    (hs : t'.sibs = t.sibs) (h : Adj t) : Adj t' := by
  unfold Adj at h ⊢
  rw [hc]
  exact adjSeg_congr t t' t.children none none
    (fun n _ => ⟨prevOf_congr t t' hs n, nextOf_congr t t' hs n⟩) h

/-- Well-formedness transports along equality of the four relevant fields. -/
theorem WF_of_fields (etype : Nat → Bool) (t t' : TState)
    (hc : t'.children = t.children) (hp : t'.pure = t.pure)
    (hs : t'.sibs = t.sibs) (hpar : t'.par = t.par) (h : WF etype t) :
    WF etype t' := by
  obtain ⟨h1, h2, h3, h4⟩ := h
  refine ⟨hc ▸ h1, by rw [hp, hc]; exact h2, Adj_congr t t' hc hs h3, ?_⟩
  intro n hn
  rw [parOf_congr t t' hpar n]
  exact h4 n (hc ▸ hn)

theorem linkChild_fields (s : TState) (x : Nat) :
    (linkChild s x).children = s.children ∧ (linkChild s x).pure = s.pure ∧
      (linkChild s x).sibs = s.sibs ∧ (linkChild s x).hasTC = s.hasTC ∧
      (linkChild s x).msgs = s.msgs :=
  ⟨rfl, rfl, rfl, rfl, rfl⟩

theorem parOf_linkChild (s : TState) (x n : Nat) :
    parOf (linkChild s x) n = if n = x then some true else parOf s n := by
  unfold parOf linkChild
  by_cases h : n = x
  · subst h
    simp [alookup_aset_same]
  · simp [alookup_aset_ne s.par x n true h, h]

/-- `splice(i, 0, x)` at a non-negative in-range index is `insertIdx`. -/
theorem spliceIn_nat (l : List Nat) (i : Nat) (x : Nat) (hi : i ≤ l.length) :
    spliceIn l (i : Int) x = l.take i ++ x :: l.drop i := by
  rw [spliceIn, spliceIdx, if_neg (by omega : ¬ ((i : Int) < 0))]
  have hmin : min (i : Int).toNat l.length = i := by omega
  rw [hmin, insertIdx_take_drop x i l hi]

theorem append_cons_take (A B : List Nat) (x : Nat) :
    (A ++ x :: B).take A.length = A := List.take_left A (x :: B)

theorem append_cons_drop (A B : List Nat) (x : Nat) :
    (A ++ x :: B).drop (A.length + 1) = B := by
  have h : ((A ++ [x]) ++ B).drop ((A ++ [x]).length) = B := List.drop_left _ _
  simpa using h

theorem eraseIdx_append_cons (A B : List Nat) (x : Nat) :
    (A ++ x :: B).eraseIdx A.length = A ++ B := by
  rw [eraseIdx_take_drop, append_cons_take, append_cons_drop]

theorem jsIndexOf_append_left (x : Nat) (B : List Nat) :
    ∀ (A : List Nat), x ∈ A → jsIndexOf (A ++ B) x = jsIndexOf A x := by
  intro A
  induction A with
  | nil => intro h; simp at h
  | cons a t ih =>
    intro h
    by_cases ha : a = x
    · simp [jsIndexOf, ha]
    · have ht : x ∈ t := by
        rcases List.mem_cons.mp h with h1 | h2
        · exact absurd h1.symm ha
        · exact h2
      simp only [List.cons_append, jsIndexOf, ha, if_false, List.append_eq]
      rw [ih ht]

theorem jsIndexOf_append_right (x : Nat) (B : List Nat) (hxB : x ∈ B) :
    ∀ (A : List Nat), ¬ x ∈ A →
      jsIndexOf (A ++ B) x = (A.length : Int) + jsIndexOf B x := by
  intro A
  induction A with
  | nil => intro _; simp
  | cons a t ih =>
    intro h
    have ha : ¬ a = x := fun hc => h (by simp [hc])
    have ht : ¬ x ∈ t := fun hc => h (by simp [hc])
    simp only [List.cons_append, jsIndexOf, ha, if_false, List.append_eq]
    rw [ih ht]
    have hge : 0 ≤ jsIndexOf B x := jsIndexOf_nonneg B x hxB
    have : ¬ ((t.length : Int) + jsIndexOf B x < 0) := by omega
    simp only [this, if_false, List.length_cons]
    push_cast
    ring

theorem jsIndexOf_head (l : List Nat) (e : Nat) (h : l.head? = some e) :
    jsIndexOf l e = 0 := by
  cases l with
  | nil => simp at h
  | cons a t =>
    simp only [List.head?_cons, Option.some.injEq] at h
    simp [jsIndexOf, h]

theorem jsIndexOf_lt_length (l : List Nat) (x : Nat) (h : x ∈ l) :
    jsIndexOf l x < (l.length : Int) := by
  obtain ⟨k, hk, hlt, _, _⟩ := jsIndexOf_spec x l h
  rw [hk]
  omega

theorem findq_head_filter (q : Nat → Bool) :
    ∀ (l : List Nat) (e : Nat), l.find? q = some e →
      (l.filter q).head? = some e := by
  intro l
  induction l with
  | nil => intro e h; simp at h
  | cons a t ih =>
    intro e h
    by_cases hq : q a
    · rw [List.find?_cons_of_pos _ hq] at h
      rw [List.filter_cons, if_pos hq, List.head?_cons]
      exact h
    · rw [List.find?_cons_of_neg _ hq] at h
      rw [List.filter_cons, if_neg hq]
      exact ih e h

theorem findq_none_filter (q : Nat → Bool) (l : List Nat)
    (h : l.find? q = none) : l.filter q = [] := by
  rw [List.filter_eq_nil]
  intro a ha
  exact List.find?_eq_none.mp h a ha

theorem filter_take_drop (q : Nat → Bool) (l : List Nat) (i : Nat) :
    l.filter q = (l.take i).filter q ++ (l.drop i).filter q := by
  conv_lhs => rw [← List.take_append_drop i l]
  rw [List.filter_append]

/-- Erasing the element at index `|A|` shifts the index of a later element
down by one and keeps the index of an earlier element. -/
theorem jsIndexOf_middle_erase (A B : List Nat) (x b : Nat)
    (hnd : (A ++ x :: B).Nodup) (hb : b ∈ A ++ B) :
    jsIndexOf (A ++ B) b =
      if (A.length : Int) < jsIndexOf (A ++ x :: B) b
      then jsIndexOf (A ++ x :: B) b - 1 else jsIndexOf (A ++ x :: B) b := by
  rcases List.mem_append.mp hb with hA | hB
  · have h1 : jsIndexOf (A ++ B) b = jsIndexOf A b :=
      jsIndexOf_append_left b B A hA
    have h2 : jsIndexOf (A ++ x :: B) b = jsIndexOf A b :=
      jsIndexOf_append_left b (x :: B) A hA
    have h3 : jsIndexOf A b < (A.length : Int) := jsIndexOf_lt_length A b hA
    rw [h1, h2, if_neg (by omega)]
  · have hxb : ¬ b ∈ A := by
      intro hc
      have hdis : A.Disjoint (x :: B) := (List.nodup_append.mp hnd).2.2
      exact hdis hc (List.mem_cons_of_mem _ hB)
    have hbx : ¬ x = b := by
      intro hc
      have hndxB : (x :: B).Nodup := (List.nodup_append.mp hnd).2.1
      exact (List.nodup_cons.mp hndxB).1 (hc ▸ hB)
    have h1 : jsIndexOf (A ++ B) b = (A.length : Int) + jsIndexOf B b :=
      jsIndexOf_append_right b B hB A hxb
    have h2 : jsIndexOf (A ++ x :: B) b =
        (A.length : Int) + jsIndexOf (x :: B) b :=
      jsIndexOf_append_right b (x :: B) (List.mem_cons_of_mem _ hB) A hxb
    have h3 : jsIndexOf (x :: B) b = jsIndexOf B b + 1 := by
      have hge : 0 ≤ jsIndexOf B b := jsIndexOf_nonneg B b hB
      simp only [jsIndexOf, hbx, if_false]
      rw [if_neg (by omega)]
    have hge : 0 ≤ jsIndexOf B b := jsIndexOf_nonneg B b hB
    rw [h1, h2, h3, if_pos (by omega)]
    ring

theorem not_mem_take_of_mem_drop {l : List Nat} {i : Nat} {a : Nat}
    (hnd : l.Nodup) (h : a ∈ l.drop i) : ¬ a ∈ l.take i := by
  intro hc
  have hnd2 : (l.take i ++ l.drop i).Nodup := by
    rw [List.take_append_drop]
    exact hnd
  exact (List.nodup_append.mp hnd2).2.2 hc h

/-- The pure-list index of the first element-typed node at or after children
position `i` is the number of element-typed nodes strictly before `i`. -/
theorem filterPos_find_some (q : Nat → Bool) (l : List Nat) (i : Nat)
    (pb : Nat) (hnd : l.Nodup) (hf : (l.drop i).find? q = some pb) :
    jsIndexOf (l.filter q) pb = (((l.take i).filter q).length : Int) := by
  have hmem_d : pb ∈ l.drop i := List.mem_of_find?_eq_some hf
  have hhead : ((l.drop i).filter q).head? = some pb := findq_head_filter q _ pb hf
  have hmemFd : pb ∈ (l.drop i).filter q := mem_of_head?_eq hhead
  have hnotT : ¬ pb ∈ l.take i := not_mem_take_of_mem_drop hnd hmem_d
  have hnotFt : ¬ pb ∈ (l.take i).filter q :=
    fun hc => hnotT (List.mem_of_mem_filter hc)
  rw [filter_take_drop q l i,
    jsIndexOf_append_right pb _ hmemFd _ hnotFt,
    jsIndexOf_head _ pb hhead, add_zero]

/-- When no element-typed node sits at or after children position `i`, every
pure node sits strictly before `i`. -/
theorem filterPos_find_none (q : Nat → Bool) (l : List Nat) (i : Nat)
    (hf : (l.drop i).find? q = none) :
    (l.filter q).length = ((l.take i).filter q).length := by
  rw [filter_take_drop q l i, findq_none_filter q _ hf]
  simp

/-- The pure-list index of the last element-typed node at or before a children
position, found by the backward walk, is one less than the number of
element-typed nodes in that prefix. -/
theorem filterLast_find_some (q : Nat → Bool) (l : List Nat) (i : Nat)
    (p : Nat) (hnd : l.Nodup) (hf : ((l.take i).reverse).find? q = some p) :
    1 ≤ ((l.take i).filter q).length ∧
      jsIndexOf (l.filter q) p = (((l.take i).filter q).length : Int) - 1 := by
  have hhead : ((l.take i).reverse.filter q).head? = some p :=
    findq_head_filter q _ p hf
  rw [List.filter_reverse, List.head?_reverse] at hhead
  have hne : (l.take i).filter q ≠ [] := by
    intro hc
    rw [hc] at hhead
    exact absurd hhead (by simp)
  have hndF : ((l.take i).filter q).Nodup :=
    (hnd.sublist (List.take_sublist i l)).filter q
  have hlast : ((l.take i).filter q).getLast hne = p := by
    have := List.getLast?_eq_getLast _ hne
    rw [this] at hhead
    exact (Option.some_injective _ hhead)
  have hFd : ((l.take i).filter q).dropLast ++ [p] = (l.take i).filter q := by
    rw [← hlast]
    exact List.dropLast_append_getLast hne
  have hnotDL : ¬ p ∈ ((l.take i).filter q).dropLast := by
    intro hc
    have hnd2 : (((l.take i).filter q).dropLast ++ [p]).Nodup := by
      rw [hFd]
      exact hndF
    exact (List.nodup_append.mp hnd2).2.2 hc (by simp)
  have hjF : jsIndexOf ((l.take i).filter q) p =
      ((((l.take i).filter q).dropLast).length : Int) := by
    conv_lhs => rw [← hFd]
    exact jsIndexOf_append_cons p [] _ hnotDL
  have hmemF : p ∈ (l.take i).filter q := by
    rw [← hFd]
    simp
  have hlen : 1 ≤ ((l.take i).filter q).length := by
    cases hd : (l.take i).filter q with
    | nil => exact absurd hd hne
    | cons c t => simp
  refine ⟨hlen, ?_⟩
  rw [filter_take_drop q l i, jsIndexOf_append_left p _ _ hmemF, hjF,
    List.length_dropLast]
  omega

theorem filterLast_find_none (q : Nat → Bool) (l : List Nat) (i : Nat)
    (hf : ((l.take i).reverse).find? q = none) :
    (l.take i).filter q = [] := by
  have h := findq_none_filter q _ hf
  rw [List.filter_reverse] at h
  exact List.reverse_eq_nil_iff.mp h

theorem nextElement_none (etype : Nat → Bool) (s : TState) (fuel : Nat) :
    nextElement etype s fuel none = none := by
  cases fuel <;> rfl

theorem previousElement_none (etype : Nat → Bool) (s : TState) (fuel : Nat) :
    previousElement etype s fuel none = none := by
  cases fuel <;> rfl

/-- The forward sibling walk over a correctly wired segment finds the first
element-typed node of the segment. -/
theorem nextElement_of_adjSeg (etype : Nat → Bool) (s : TState) :
    ∀ (L : List Nat) (p : Option Nat) (fuel : Nat),
      adjSeg s p L none → L.length ≤ fuel →
      nextElement etype s fuel (headOr L none) = L.find? etype := by
  intro L
  induction L with
  | nil =>
    intro p fuel _ _
    simp [headOr, nextElement_none]
  | cons bb rest ih =>
    intro p fuel hadj hfuel
    rw [adjSeg_cons] at hadj
    obtain ⟨h1, h2, h3⟩ := hadj
    cases fuel with
    | zero => simp at hfuel
    | succ f =>
      have hh : headOr (bb :: rest) none = some bb := by simp [headOr]
      rw [hh]
      simp only [nextElement, List.find?]
      by_cases hq : etype bb
      · simp [hq]
      · simp only [hq, Bool.false_eq_true, if_false, cond_false]
        rw [h2]
        exact ih (some bb) f h3 (by simp at hfuel; omega)

theorem lastOr_reverse (R : List Nat) (d : Option Nat) :
    lastOr R.reverse d = headOr R d := by
  unfold lastOr headOr
  rw [List.getLast?_reverse]

/-- The backward sibling walk over a correctly wired segment finds the first
element-typed node of the reversed segment. -/
theorem previousElement_of_adjSeg (etype : Nat → Bool) (s : TState) :
    ∀ (R : List Nat) (q0 : Option Nat) (fuel : Nat),
      adjSeg s none R.reverse q0 → R.length ≤ fuel →
      previousElement etype s fuel (headOr R none) = R.find? etype := by
  intro R
  induction R with
  | nil =>
    intro q0 fuel _ _
    simp [headOr, previousElement_none]
  | cons aa R' ih =>
    intro q0 fuel hadj hfuel
    rw [List.reverse_cons, adjSeg_append] at hadj
    obtain ⟨hT, hA⟩ := hadj
    rw [adjSeg_cons] at hA
    obtain ⟨hp, _, _⟩ := hA
    rw [lastOr_reverse] at hp
    have hhaa : headOr [aa] q0 = some aa := by simp [headOr]
    rw [hhaa] at hT
    cases fuel with
    | zero => simp at hfuel
    | succ f =>
      have hh : headOr (aa :: R') none = some aa := by simp [headOr]
      rw [hh]
      simp only [previousElement, List.find?]
      by_cases hq : etype aa
      · simp [hq]
      · simp only [hq, Bool.false_eq_true, if_false, cond_false]
        rw [hp]
        exact ih (some aa) f hT (by simp at hfuel; omega)

theorem moveIndex_not_mem (s : TState) (x : Nat) (ni : Int) (cs ip : Bool)
    (h : ¬ x ∈ getList s ip) : moveIndex s x ni cs ip = (s, -1) := by
  rw [moveIndex]
  simp only [jsIndexOf_eq_neg_of_not_mem x _ h]
  rw [if_pos (by omega : (-1 : Int) < 0)]

theorem removeIndex_not_mem (s : TState) (x : Nat) (cs ip : Bool)
    (h : ¬ x ∈ getList s ip) : removeIndex s x cs ip = s := by
  rw [removeIndex]
  simp only [jsIndexOf_eq_neg_of_not_mem x _ h]
  rw [if_pos (by omega : (-1 : Int) < 0)]

/-- With `changeSibling` off, `removeIndex` on the pure list just splices the
target out at its index. -/
theorem removeIndex_pure_spec (s : TState) (x : Nat) (k : Nat)
    (hk : jsIndexOf s.pure x = (k : Int)) :
    removeIndex s x false true = { s with pure := s.pure.eraseIdx k } := by
  rw [removeIndex]
  simp only [getList, if_pos, hk, Bool.false_eq_true, if_false]
  rw [if_neg (by omega : ¬ ((k : Int) < 0))]
  have ht : ((k : Int)).toNat = k := by omega
  rw [ht]
  simp only [spliceOut1, setList_true_eq]

/-- With `changeSibling` off, `moveIndex` on the pure list splices the target
out at its index and back in at the index adjusted for the removal. -/
theorem moveIndex_pure_spec (s : TState) (x : Nat) (ni : Int) (k : Nat)
    (hk : jsIndexOf s.pure x = (k : Int)) :
    (moveIndex s x ni false true).1 =
      { s with
          pure := spliceIn (s.pure.eraseIdx k)
            (if (k : Int) ≤ ni then ni - 1 else ni) x } := by
  rw [moveIndex]
  simp only [getList, if_pos, hk, Bool.false_eq_true, if_false]
  rw [if_neg (by omega : ¬ ((k : Int) < 0))]
  have ht : ((k : Int)).toNat = k := by omega
  rw [ht]
  simp only [spliceOut1, setList_true_eq]
  split <;> split <;> rfl

/-- Characterization of `removeIndex` on the children list with sibling
rewiring: the target is cut out and its two neighbours are linked. -/
theorem removeIndex_children_spec (s : TState) (T D : List Nat) (x : Nat)
    (hdec : s.children = T ++ x :: D) (hnd : s.children.Nodup) (hadj : Adj s) :
    (removeIndex s x true false).children = T ++ D ∧
      (removeIndex s x true false).pure = s.pure ∧
      (removeIndex s x true false).par = s.par ∧
      (removeIndex s x true false).hasTC = s.hasTC ∧
      (removeIndex s x true false).msgs = s.msgs ∧
      (T ++ D).Nodup ∧ Adj (removeIndex s x true false) := by
  have hndM : (x :: (T ++ D)).Nodup := List.nodup_middle.mp (hdec ▸ hnd)
  have hxTD : ¬ x ∈ T ++ D := (List.nodup_cons.mp hndM).1
  have hxT : ¬ x ∈ T := fun hc => hxTD (List.mem_append_left _ hc)
  have hndTD : (T ++ D).Nodup := (List.nodup_cons.mp hndM).2
  have hidx : jsIndexOf s.children x = (T.length : Int) := by
    rw [hdec]
    exact jsIndexOf_append_cons x D T hxT
  have hle : T.length ≤ s.children.length := by
    rw [hdec]
    simp only [List.length_append, List.length_cons]
    omega
  have hB : jsAt s.children ((T.length : Int) - 1) = T.getLast? := by
    rw [jsAt_take_pred s.children T.length hle, hdec, append_cons_take]
  have hA : jsAt s.children ((T.length : Int) + 1) = D.head? := by
    have hcast : ((T.length : Int) + 1) = ((T.length + 1 : Nat) : Int) := by
      push_cast
      ring
    rw [hcast, jsAt_drop_head, hdec, append_cons_drop]
  have hwc := (wireOut_fields s T.getLast? D.head?).1
  have ht : ((T.length : Int)).toNat = T.length := by omega
  have hres : removeIndex s x true false =
      setList (wireOut s T.getLast? D.head?) false (T ++ D) := by
    rw [removeIndex]
    simp only [getList, Bool.false_eq_true, if_false, hidx, if_pos]
    rw [if_neg (by omega : ¬ ((T.length : Int) < 0))]
    rw [hB, hA, ht]
    rw [hwc, spliceOut1, hdec, eraseIdx_append_cons]
  obtain ⟨_, hwp, hwpar, hwtc, hwm⟩ := wireOut_fields s T.getLast? D.head?
  rw [hres, setList_false_eq]
  refine ⟨rfl, hwp, hwpar, hwtc, hwm, hndTD, ?_⟩
  refine adj_erase_seam s _ T D x hdec rfl (hdec ▸ hnd)
    (fun n => ?_) (fun n => ?_) hadj
  · rw [show nextOf { wireOut s T.getLast? D.head? with children := T ++ D } n =
      nextOf (wireOut s T.getLast? D.head?) n from rfl, nextOf_wireOut]
  · rw [show prevOf { wireOut s T.getLast? D.head? with children := T ++ D } n =
      prevOf (wireOut s T.getLast? D.head?) n from rfl, prevOf_wireOut]

/-- Characterization of `moveIndex` on the children list with sibling
rewiring: the target is unlinked, cut out, and spliced back in at the
removal-adjusted destination index, with the four-pointer rewiring. -/
theorem moveIndex_children_spec (s : TState) (T D : List Nat) (x : Nat)
    (ni m : Nat)
    (hdec : s.children = T ++ x :: D)
    (hnd : s.children.Nodup) (hadj : Adj s)
    (hni : ni ≤ s.children.length)
    (hm : ((m : Nat) : Int) =
      if (T.length : Int) ≤ (ni : Int) then (ni : Int) - 1 else (ni : Int)) :
    (moveIndex s x (ni : Int) true false).1.children =
        (T ++ D).take m ++ x :: (T ++ D).drop m ∧
      (moveIndex s x (ni : Int) true false).1.pure = s.pure ∧
      (moveIndex s x (ni : Int) true false).1.par = s.par ∧
      (moveIndex s x (ni : Int) true false).1.hasTC = s.hasTC ∧
      (moveIndex s x (ni : Int) true false).1.msgs = s.msgs ∧
      ((T ++ D).take m ++ x :: (T ++ D).drop m).Nodup ∧
      Adj (moveIndex s x (ni : Int) true false).1 := by
  have hndM : (x :: (T ++ D)).Nodup := List.nodup_middle.mp (hdec ▸ hnd)
  have hxTD : ¬ x ∈ T ++ D := (List.nodup_cons.mp hndM).1
  have hxT : ¬ x ∈ T := fun hc => hxTD (List.mem_append_left _ hc)
  have hndTD : (T ++ D).Nodup := (List.nodup_cons.mp hndM).2
  have hni' : ni ≤ T.length + D.length + 1 := by
    rw [hdec] at hni
    simpa using hni
  have hmE : m ≤ (T ++ D).length := by
    rw [List.length_append]
    by_cases hc : (T.length : Int) ≤ (ni : Int)
    · rw [if_pos hc] at hm
      omega
    · rw [if_neg hc] at hm
      omega
  have hidx : jsIndexOf s.children x = (T.length : Int) := by
    rw [hdec]
    exact jsIndexOf_append_cons x D T hxT
  have hle : T.length ≤ s.children.length := by
    rw [hdec]
    simp only [List.length_append, List.length_cons]
    omega
  have hB1 : jsAt s.children ((T.length : Int) - 1) = T.getLast? := by
    rw [jsAt_take_pred s.children T.length hle, hdec, append_cons_take]
  have hA1 : jsAt s.children ((T.length : Int) + 1) = D.head? := by
    have hcast : ((T.length : Int) + 1) = ((T.length + 1 : Nat) : Int) := by
      push_cast
      ring
    rw [hcast, jsAt_drop_head, hdec, append_cons_drop]
  have hwc := (wireOut_fields s T.getLast? D.head?).1
  have ht : ((T.length : Int)).toNat = T.length := by omega
  have hB2 : jsAt (T ++ D) ((m : Int) - 1) = ((T ++ D).take m).getLast? :=
    jsAt_take_pred (T ++ D) m hmE
  have hA2 : jsAt (T ++ D) (m : Int) = ((T ++ D).drop m).head? :=
    jsAt_drop_head (T ++ D) m
  have hres : (moveIndex s x (ni : Int) true false).1 =
      wireIn (setList (wireOut s T.getLast? D.head?) false
          ((T ++ D).take m ++ x :: (T ++ D).drop m))
        x ((T ++ D).take m).getLast? ((T ++ D).drop m).head? := by
    rw [moveIndex]
    simp only [getList, Bool.false_eq_true, if_false, hidx, if_pos]
    rw [if_neg (by omega : ¬ ((T.length : Int) < 0))]
    rw [hB1, hA1, ht]
    rw [hwc, spliceOut1, hdec, eraseIdx_append_cons, ← hm]
    rw [hB2, hA2, spliceIn_nat (T ++ D) m x hmE]
    split <;> rfl
  have hsw : ∀ (l : List Nat) (n : Nat),
      nextOf (setList (wireOut s T.getLast? D.head?) false l) n =
        nextOf (wireOut s T.getLast? D.head?) n :=
    fun l n => rfl
  have hsw' : ∀ (l : List Nat) (n : Nat),
      prevOf (setList (wireOut s T.getLast? D.head?) false l) n =
        prevOf (wireOut s T.getLast? D.head?) n :=
    fun l n => rfl
  obtain ⟨hwic, hwip, hwipar, hwitc, hwim⟩ := wireIn_fields
    (setList (wireOut s T.getLast? D.head?) false
      ((T ++ D).take m ++ x :: (T ++ D).drop m))
    x ((T ++ D).take m).getLast? ((T ++ D).drop m).head?
  obtain ⟨_, hwp, hwpar, hwtc, hwm⟩ := wireOut_fields s T.getLast? D.head?
  have hnd2 : ((T ++ D).take m ++ x :: (T ++ D).drop m).Nodup := by
    rw [List.nodup_middle, List.take_append_drop]
    exact List.nodup_cons.mpr ⟨hxTD, hndTD⟩
  have hAdjMid : Adj (setList (wireOut s T.getLast? D.head?) false (T ++ D)) := by
    refine adj_erase_seam s _ T D x hdec rfl (hdec ▸ hnd)
      (fun n => ?_) (fun n => ?_) hadj
    · rw [hsw (T ++ D) n, nextOf_wireOut]
    · rw [hsw' (T ++ D) n, prevOf_wireOut]
  refine ⟨by rw [hres, hwic]; rfl,
    by rw [hres, hwip]; exact hwp,
    by rw [hres, hwipar]; exact hwpar,
    by rw [hres, hwitc]; exact hwtc,
    by rw [hres, hwim]; exact hwm,
    hnd2, ?_⟩
  refine adj_insert_seam
    (setList (wireOut s T.getLast? D.head?) false (T ++ D)) _
    ((T ++ D).take m) ((T ++ D).drop m) x
    (by rw [List.take_append_drop]; rfl)
    (by rw [hres, hwic]; rfl)
    (by rw [List.take_append_drop]; exact hndTD)
    (by rw [List.take_append_drop]; exact hxTD)
    (fun n => ?_) (fun n => ?_) hAdjMid
  · rw [hres, nextOf_wireIn, hsw _ n, hsw (T ++ D) n]
  · rw [hres, prevOf_wireIn, hsw' _ n, hsw' (T ++ D) n]

theorem mem_middle_of_mem {T D : List Nat} (x : Nat) {n : Nat}
    (h : n ∈ T ++ D) : n ∈ T ++ x :: D := by
  rcases List.mem_append.mp h with h1 | h2
  · exact List.mem_append_left _ h1
  · exact List.mem_append_right _ (List.mem_cons_of_mem _ h2)

theorem WF_msgs (etype : Nat → Bool) (t : TState) (M : List DomMsg)
    (h : WF etype t) : WF etype { t with msgs := M } :=
  WF_of_fields etype t _ rfl rfl rfl rfl h

/-- `removeChild` preserves well-formedness: both lists lose exactly the
removed node (or nothing, when the node is not a child). -/
theorem WF_removeChild (etype : Nat → Bool) (s : TState) (x : Nat) (p : Bool)
    (hwf : WF etype s) : WF etype (removeChild etype s x p) := by
  obtain ⟨hnd, hpure, hadj, hpar⟩ := hwf
  by_cases hsome : (parOf s x).isSome = true
  · by_cases hmem : x ∈ s.children
    · obtain ⟨k, hk, hlt, hget, hnmemk⟩ := jsIndexOf_spec x s.children hmem
      have hdec := decomp_of_get? s.children k x hget
      have hspec := removeIndex_children_spec s (s.children.take k)
        (s.children.drop (k + 1)) x hdec hnd hadj
      obtain ⟨hc1, hp1, hpar1, htc1, hm1, hnd1, hadj1⟩ := hspec
      by_cases hxe : etype x = true
      · have hfilters : s.pure = (s.children.take k).filter etype ++
            x :: (s.children.drop (k + 1)).filter etype := by
          rw [hpure]
          conv_lhs => rw [hdec]
          rw [List.filter_append, List.filter_cons, if_pos hxe]
        have hxFT : ¬ x ∈ (s.children.take k).filter etype :=
          fun hc => hnmemk (List.mem_of_mem_filter hc)
        have hkp : jsIndexOf (removeIndex s x true false).pure x =
            (((s.children.take k).filter etype).length : Int) := by
          rw [hp1, hfilters]
          exact jsIndexOf_append_cons x _ _ hxFT
        have hps := removeIndex_pure_spec (removeIndex s x true false) x
          ((s.children.take k).filter etype).length hkp
        have hpure2 : (removeIndex s x true false).pure.eraseIdx
            ((s.children.take k).filter etype).length =
            (s.children.take k ++ s.children.drop (k + 1)).filter etype := by
          rw [hp1, hfilters, eraseIdx_append_cons, List.filter_append]
        have hWFB : WF etype (removeIndex (removeIndex s x true false) x
            false true) := by
          rw [hps]
          refine ⟨?_, ?_, ?_, ?_⟩
          · show (removeIndex s x true false).children.Nodup
            rw [hc1]
            exact hnd1
          · show (removeIndex s x true false).pure.eraseIdx _ =
              (removeIndex s x true false).children.filter etype
            rw [hpure2, hc1]
          · exact Adj_congr (removeIndex s x true false) _ rfl rfl hadj1
          · intro n hn
            show parOf (removeIndex s x true false) n = some true
            rw [parOf_congr _ _ hpar1 n]
            refine hpar n ?_
            rw [hdec]
            exact mem_middle_of_mem x (by rw [← hc1]; exact hn)
        rw [removeChild]
        simp only [hsome, hxe, if_pos]
        split
        · exact WF_msgs etype _ _ hWFB
        · exact hWFB
      · have hWFA : WF etype (removeIndex s x true false) := by
          refine ⟨by rw [hc1]; exact hnd1, ?_, hadj1, ?_⟩
          · rw [hp1, hc1, hpure]
            conv_lhs => rw [hdec]
            rw [List.filter_append, List.filter_cons, if_neg hxe,
              List.filter_append]
          · intro n hn
            rw [parOf_congr _ _ hpar1 n]
            refine hpar n ?_
            rw [hdec]
            exact mem_middle_of_mem x (by rw [← hc1]; exact hn)
        rw [removeChild]
        simp only [hsome, hxe, if_pos, Bool.false_eq_true, if_false]
        exact hWFA
    · have hnm1 : ¬ x ∈ getList s false := hmem
      have hnm2 : ¬ x ∈ getList s true := by
        show ¬ x ∈ s.pure
        rw [hpure]
        exact fun hc => hmem (List.mem_of_mem_filter hc)
      have hwf0 : WF etype s := ⟨hnd, hpure, hadj, hpar⟩
      rw [removeChild]
      simp only [hsome, if_pos]
      rw [removeIndex_not_mem s x true false hnm1]
      by_cases hxe : etype x = true
      · simp only [hxe, if_pos]
        rw [removeIndex_not_mem s x false true hnm2]
        split
        · exact WF_msgs etype _ _ hwf0
        · exact hwf0
      · simp only [hxe, Bool.false_eq_true, if_false]
        exact hwf0
  · rw [removeChild]
    simp only [hsome, Bool.false_eq_true, if_false]
    exact ⟨hnd, hpure, hadj, hpar⟩

theorem filter_insert_boundary (q : Nat → Bool) (l : List Nat) (i : Nat)
    (x : Nat) (hq : q x = true) :
    spliceIn (l.filter q) (((l.take i).filter q).length : Int) x =
      (l.take i ++ x :: l.drop i).filter q := by
  have hle : ((l.take i).filter q).length ≤ (l.filter q).length := by
    rw [filter_take_drop q l i, List.length_append]
    omega
  rw [spliceIn_nat _ _ x hle]
  rw [filter_take_drop q l i, List.take_left, List.drop_left]
  rw [List.filter_append, List.filter_cons, if_pos hq]

theorem filter_insert_skip (q : Nat → Bool) (l : List Nat) (i : Nat)
    (x : Nat) (hq : q x = false) :
    (l.take i ++ x :: l.drop i).filter q = l.filter q := by
  rw [List.filter_append, List.filter_cons, if_neg (by simp [hq]),
    ← List.filter_append, List.take_append_drop]

theorem get?_append_cons_self (A B : List Nat) (x : Nat) :
    (A ++ x :: B).get? A.length = some x := by
  rw [List.get?_append_right (le_refl A.length)]
  simp

/-- The source's removal-adjusted destination index on the pure list: moving
`x` next to `pb` lands at `pb`'s index in the pure list without `x`. -/
theorem move_pure_index (q : Nat → Bool) (T D : List Nat) (x pb : Nat)
    (hq : q x = true) (hnd : (T ++ x :: D).Nodup)
    (hpb : pb ∈ (T ++ D).filter q) :
    (if (((T.filter q).length : Nat) : Int) ≤
        jsIndexOf ((T ++ x :: D).filter q) pb
      then jsIndexOf ((T ++ x :: D).filter q) pb - 1
      else jsIndexOf ((T ++ x :: D).filter q) pb) =
    jsIndexOf ((T ++ D).filter q) pb := by
  have hPdec : (T ++ x :: D).filter q = T.filter q ++ x :: D.filter q := by
    rw [List.filter_append, List.filter_cons, if_pos hq]
  have hEdec : (T ++ D).filter q = T.filter q ++ D.filter q :=
    List.filter_append _ _
  have hndP : (T.filter q ++ x :: D.filter q).Nodup := by
    rw [← hPdec]
    exact hnd.filter q
  have hpb' : pb ∈ T.filter q ++ D.filter q := by
    rw [← hEdec]
    exact hpb
  have hmer := jsIndexOf_middle_erase (T.filter q) (D.filter q) x pb hndP hpb'
  have hxnm : ¬ x ∈ T.filter q ++ D.filter q := by
    have h := List.nodup_middle.mp hndP
    exact (List.nodup_cons.mp h).1
  have hne : ¬ jsIndexOf (T.filter q ++ x :: D.filter q) pb =
      (((T.filter q).length : Nat) : Int) := by
    intro hc
    obtain ⟨k2, hk2, _, hget2, _⟩ :=
      jsIndexOf_spec pb _ (mem_middle_of_mem x hpb')
    rw [hk2] at hc
    have hk2e : k2 = (T.filter q).length := by exact_mod_cast hc
    rw [hk2e, get?_append_cons_self] at hget2
    have : x = pb := Option.some_injective _ hget2
    exact hxnm (this ▸ hpb')
  rw [hPdec, hEdec]
  by_cases hlt : (((T.filter q).length : Nat) : Int) <
      jsIndexOf (T.filter q ++ x :: D.filter q) pb
  · rw [if_pos (le_of_lt hlt), hmer, if_pos hlt]
  · rw [if_neg (by omega), hmer, if_neg hlt]

/-- The forward walk of `nextElement` from child `b` inspects exactly the
suffix of the children list starting at `b`. -/
theorem nextElement_walk (etype : Nat → Bool) (u : TState) (A R : List Nat)
    (b : Nat) (hch : u.children = A ++ b :: R) (hadj : Adj u) :
    nextElement etype u (walkFuel u) (some b) = (b :: R).find? etype := by
  unfold Adj at hadj
  rw [hch, adjSeg_append] at hadj
  have hadj2 : adjSeg u (lastOr A none) (b :: R) none := hadj.2
  have hfuel : (b :: R).length ≤ walkFuel u := by
    unfold walkFuel
    rw [hch]
    simp only [List.length_append, List.length_cons]
    omega
  have h := nextElement_of_adjSeg etype u (b :: R) (lastOr A none)
    (walkFuel u) hadj2 hfuel
  rw [show headOr (b :: R) none = some b from by simp [headOr]] at h
  exact h

/-- The backward walk of `previousElement` from child `a` inspects exactly the
reversed prefix of the children list ending at `a`. -/
theorem previousElement_walk (etype : Nat → Bool) (u : TState)
    (A R : List Nat) (a : Nat) (hch : u.children = A ++ a :: R)
    (hadj : Adj u) :
    previousElement etype u (walkFuel u) (some a) =
      (a :: A.reverse).find? etype := by
  unfold Adj at hadj
  have hch2 : u.children = (A ++ [a]) ++ R := by
    rw [hch, List.append_assoc]
    rfl
  rw [hch2, adjSeg_append] at hadj
  have hadj2 : adjSeg u none (A ++ [a]) (headOr R none) := hadj.1
  have hrev : (a :: A.reverse).reverse = A ++ [a] := by
    rw [List.reverse_cons, List.reverse_reverse]
  have hfuel : (a :: A.reverse).length ≤ walkFuel u := by
    unfold walkFuel
    rw [hch]
    simp only [List.length_cons, List.length_reverse, List.length_append]
    omega
  have h := previousElement_of_adjSeg etype u (a :: A.reverse)
    (headOr R none) (walkFuel u) (by rw [hrev]; exact hadj2) hfuel
  rw [show headOr (a :: A.reverse) none = some a from by simp [headOr]] at h
  exact h

/-- `appendChild` preserves well-formedness: the node lands at the end of
children (and of pureChildren when element-typed), whether freshly linked or
moved from its previous position. -/
theorem WF_appendChild (etype : Nat → Bool) (s : TState) (x : Nat)
    (hwf : WF etype s) : WF etype (appendChild etype s x) := by
  obtain ⟨hnd, hpure, hadj, hpar⟩ := hwf
  have hwf0 : WF etype s := ⟨hnd, hpure, hadj, hpar⟩
  by_cases hpf : parOf s x = some false
  · simp only [appendChild, if_pos hpf]
    exact hwf0
  by_cases hpn : parOf s x = none
  · have hxmem : ¬ x ∈ s.children := by
      intro hc
      have h := hpar x hc
      rw [hpn] at h
      exact Option.noConfusion h
    have hadj0 : Adj (linkChild s x) := Adj_congr s _ rfl rfl hadj
    have hspec := insertIndex_children_spec (linkChild s x) x s.children.length
      hnd hadj0 hxmem (le_refl _)
    obtain ⟨hi1, hc1, hp1, hpar1, htc1, hm1, hnd1, hadj1⟩ := hspec
    have hch1 : (insertIndex (linkChild s x) x ((s.children.length : Nat) : Int) true false).1.children = s.children ++ [x] := by
      rw [hc1]
      show s.children.take s.children.length ++
        x :: s.children.drop s.children.length = _
      rw [List.take_length, List.drop_length]
    have hpu1 : (insertIndex (linkChild s x) x ((s.children.length : Nat) : Int) true false).1.pure = s.pure := hp1
    have hparAll : ∀ n ∈ s.children ++ [x],
        parOf (insertIndex (linkChild s x) x ((s.children.length : Nat) : Int) true false).1 n = some true := by
      intro n hn
      rw [parOf_congr _ _ hpar1 n, parOf_linkChild s x n]
      by_cases hnx : n = x
      · rw [if_pos hnx]
      · rw [if_neg hnx]
        rcases List.mem_append.mp hn with h1 | h2
        · exact hpar n h1
        · simp only [List.mem_singleton] at h2
          exact absurd h2 hnx
    rw [hch1] at hnd1
    by_cases hxe : etype x = true
    · have hfx : List.filter etype [x] = [x] := by
        rw [List.filter_cons, if_pos hxe]
        rfl
      have hpeq1 : (insertIndex (insertIndex (linkChild s x) x ((s.children.length : Nat) : Int) true false).1 x (((insertIndex (linkChild s x) x ((s.children.length : Nat) : Int) true false).1.pure.length : Nat) : Int)
          false true).1 =
          { (insertIndex (linkChild s x) x ((s.children.length : Nat) : Int) true false).1 with
              pure := spliceIn (insertIndex (linkChild s x) x ((s.children.length : Nat) : Int) true false).1.pure (((insertIndex (linkChild s x) x ((s.children.length : Nat) : Int) true false).1.pure.length : Nat) : Int) x } := by
        rw [insertIndex_pure_eq]
        rw [if_neg (by omega : ¬ (((insertIndex (linkChild s x) x ((s.children.length : Nat) : Int) true false).1.pure.length : Int) < 0))]
      have hsp : spliceIn (insertIndex (linkChild s x) x ((s.children.length : Nat) : Int) true false).1.pure (((insertIndex (linkChild s x) x ((s.children.length : Nat) : Int) true false).1.pure.length : Nat) : Int) x =
          s.pure ++ [x] := by
        rw [spliceIn_nat _ _ x (le_refl _), List.take_length, List.drop_length,
          hpu1]
      have hWF2 : WF etype
          { (insertIndex (linkChild s x) x ((s.children.length : Nat) : Int) true false).1 with
              pure := spliceIn (insertIndex (linkChild s x) x ((s.children.length : Nat) : Int) true false).1.pure (((insertIndex (linkChild s x) x ((s.children.length : Nat) : Int) true false).1.pure.length : Nat) : Int) x } := by
        refine ⟨?_, ?_, ?_, ?_⟩
        · show (insertIndex (linkChild s x) x ((s.children.length : Nat) : Int) true false).1.children.Nodup
          rw [hch1]
          exact hnd1
        · show spliceIn (insertIndex (linkChild s x) x ((s.children.length : Nat) : Int) true false).1.pure (((insertIndex (linkChild s x) x ((s.children.length : Nat) : Int) true false).1.pure.length : Nat) : Int) x =
            (insertIndex (linkChild s x) x ((s.children.length : Nat) : Int) true false).1.children.filter etype
          rw [hsp, hch1, List.filter_append, hfx, hpure]
        · exact Adj_congr (insertIndex (linkChild s x) x ((s.children.length : Nat) : Int) true false).1 _ rfl rfl hadj1
        · intro n hn
          have hn' : n ∈ s.children ++ [x] := by
            rw [← hch1]
            exact hn
          exact hparAll n hn'
      have hWF3 : WF etype
          (insertIndex (insertIndex (linkChild s x) x ((s.children.length : Nat) : Int) true false).1 x (((insertIndex (linkChild s x) x ((s.children.length : Nat) : Int) true false).1.pure.length : Nat) : Int) false true).1 := by
        rw [hpeq1]
        exact hWF2
      simp only [appendChild, if_neg hpf, if_pos hpn, if_pos hxe]
      split
      · exact WF_msgs etype _ _ hWF3
      · exact hWF3
    · have hfx0 : List.filter etype [x] = [] := by
        rw [List.filter_cons, if_neg hxe]
        rfl
      have hWF1 : WF etype (insertIndex (linkChild s x) x ((s.children.length : Nat) : Int) true false).1 := by
        refine ⟨by rw [hch1]; exact hnd1, ?_, hadj1, ?_⟩
        · rw [hpu1, hch1, List.filter_append, hfx0, List.append_nil, hpure]
        · intro n hn
          refine hparAll n ?_
          rw [← hch1]
          exact hn
      simp only [appendChild, if_neg hpf, if_pos hpn, if_neg hxe]
      exact hWF1
  · by_cases hmem : x ∈ s.children
    · obtain ⟨k, hk, hlt, hget, hnmemk⟩ := jsIndexOf_spec x s.children hmem
      have hdec := decomp_of_get? s.children k x hget
      have hTlen : (s.children.take k).length = k := by
        rw [List.length_take]
        omega
      have hm : ((s.children.length - 1 : Nat) : Int) =
          if ((s.children.take k).length : Int) ≤ (s.children.length : Int)
          then (s.children.length : Int) - 1 else (s.children.length : Int) := by
        rw [if_pos (by rw [hTlen]; push_cast; omega)]
        push_cast
        omega
      have hspec := moveIndex_children_spec s (s.children.take k) (s.children.drop (k + 1)) x
        s.children.length (s.children.length - 1) hdec hnd hadj (le_refl _) hm
      obtain ⟨hc1, hp1, hpar1, htc1, hm1, hnd1, hadj1⟩ := hspec
      have hElen : ((s.children.take k) ++ (s.children.drop (k + 1))).length = s.children.length - 1 := by
        rw [List.length_append, hTlen, List.length_drop]
        omega
      have hch1 : (moveIndex s x ((s.children.length : Nat) : Int) true false).1.children = ((s.children.take k) ++ (s.children.drop (k + 1))) ++ [x] := by
        rw [hc1, ← hElen, List.take_length, List.drop_length]
      have hnd1' : (((s.children.take k) ++ (s.children.drop (k + 1))) ++ [x]).Nodup := by
        rw [← hElen, List.take_length, List.drop_length] at hnd1
        exact hnd1
      have hparAll : ∀ n ∈ ((s.children.take k) ++ (s.children.drop (k + 1))) ++ [x], parOf (moveIndex s x ((s.children.length : Nat) : Int) true false).1 n = some true := by
        intro n hn
        rw [parOf_congr _ _ hpar1 n]
        rcases List.mem_append.mp hn with h1 | h2
        · refine hpar n ?_
          rw [hdec]
          exact mem_middle_of_mem x h1
        · simp only [List.mem_singleton] at h2
          rw [h2]
          exact hpar x hmem
      by_cases hxe : etype x = true
      · have hfx : List.filter etype [x] = [x] := by
          rw [List.filter_cons, if_pos hxe]
          rfl
        have hPdec : s.pure = ((s.children.take k).filter etype) ++ x :: ((s.children.drop (k + 1)).filter etype) := by
          rw [hpure]
          conv_lhs => rw [hdec]
          rw [List.filter_append, List.filter_cons, if_pos hxe]
        have hxFT : ¬ x ∈ ((s.children.take k).filter etype) :=
          fun hc => hnmemk (List.mem_of_mem_filter hc)
        have hk' : jsIndexOf (moveIndex s x ((s.children.length : Nat) : Int) true false).1.pure x = (((s.children.take k).filter etype).length : Int) := by
          rw [hp1, hPdec]
          exact jsIndexOf_append_cons x _ _ hxFT
        have hmps := moveIndex_pure_spec (moveIndex s x ((s.children.length : Nat) : Int) true false).1 x (((moveIndex s x ((s.children.length : Nat) : Int) true false).1.pure.length : Nat) : Int)
          ((s.children.take k).filter etype).length hk'
        have hPlen : (moveIndex s x ((s.children.length : Nat) : Int) true false).1.pure.length = ((s.children.take k).filter etype).length + ((s.children.drop (k + 1)).filter etype).length + 1 := by
          rw [hp1, hPdec]
          simp only [List.length_append, List.length_cons]
          omega
        have hifi : (if (((s.children.take k).filter etype).length : Int) ≤ (((moveIndex s x ((s.children.length : Nat) : Int) true false).1.pure.length : Nat) : Int)
            then (((moveIndex s x ((s.children.length : Nat) : Int) true false).1.pure.length : Nat) : Int) - 1
            else (((moveIndex s x ((s.children.length : Nat) : Int) true false).1.pure.length : Nat) : Int)) =
            (((((s.children.take k).filter etype) ++ ((s.children.drop (k + 1)).filter etype)).length : Nat) : Int) := by
          rw [if_pos (by rw [hPlen]; push_cast; omega), hPlen,
            List.length_append]
          push_cast
          omega
        have hers : (moveIndex s x ((s.children.length : Nat) : Int) true false).1.pure.eraseIdx ((s.children.take k).filter etype).length = ((s.children.take k).filter etype) ++ ((s.children.drop (k + 1)).filter etype) := by
          rw [hp1, hPdec]
          exact eraseIdx_append_cons _ _ x
        have hWF2 : WF etype
            { (moveIndex s x ((s.children.length : Nat) : Int) true false).1 with
                pure := spliceIn ((moveIndex s x ((s.children.length : Nat) : Int) true false).1.pure.eraseIdx ((s.children.take k).filter etype).length)
                  (if (((s.children.take k).filter etype).length : Int) ≤ (((moveIndex s x ((s.children.length : Nat) : Int) true false).1.pure.length : Nat) : Int)
                    then (((moveIndex s x ((s.children.length : Nat) : Int) true false).1.pure.length : Nat) : Int) - 1
                    else (((moveIndex s x ((s.children.length : Nat) : Int) true false).1.pure.length : Nat) : Int)) x } := by
          refine ⟨?_, ?_, ?_, ?_⟩
          · show (moveIndex s x ((s.children.length : Nat) : Int) true false).1.children.Nodup
            rw [hch1]
            exact hnd1'
          · show spliceIn ((moveIndex s x ((s.children.length : Nat) : Int) true false).1.pure.eraseIdx ((s.children.take k).filter etype).length) _ x =
              (moveIndex s x ((s.children.length : Nat) : Int) true false).1.children.filter etype
            rw [hers, hifi, spliceIn_nat _ _ x (le_refl _), List.take_length,
              List.drop_length, hch1, List.filter_append, hfx,
              List.filter_append]
          · exact Adj_congr (moveIndex s x ((s.children.length : Nat) : Int) true false).1 _ rfl rfl hadj1
          · intro n hn
            have hn' : n ∈ ((s.children.take k) ++ (s.children.drop (k + 1))) ++ [x] := by
              rw [← hch1]
              exact hn
            exact hparAll n hn'
        have hWF3 : WF etype
            (moveIndex (moveIndex s x ((s.children.length : Nat) : Int) true false).1 x (((moveIndex s x ((s.children.length : Nat) : Int) true false).1.pure.length : Nat) : Int) false true).1 := by
          rw [hmps]
          exact hWF2
        simp only [appendChild, if_neg hpf, if_neg hpn, if_pos hxe]
        split
        · exact WF_msgs etype _ _ hWF3
        · exact hWF3
      · have hfx0 : List.filter etype [x] = [] := by
          rw [List.filter_cons, if_neg hxe]
          rfl
        have hPdec0 : s.pure = ((s.children.take k).filter etype) ++ ((s.children.drop (k + 1)).filter etype) := by
          rw [hpure]
          conv_lhs => rw [hdec]
          rw [List.filter_append, List.filter_cons, if_neg hxe]
        have hWF1 : WF etype (moveIndex s x ((s.children.length : Nat) : Int) true false).1 := by
          refine ⟨by rw [hch1]; exact hnd1', ?_, hadj1, ?_⟩
          · rw [hp1, hPdec0, hch1, List.filter_append, hfx0, List.append_nil,
              List.filter_append]
          · intro n hn
            refine hparAll n ?_
            rw [← hch1]
            exact hn
        simp only [appendChild, if_neg hpf, if_neg hpn, if_neg hxe]
        exact hWF1
    · have hpnm : ¬ x ∈ getList s true := by
        show ¬ x ∈ s.pure
        rw [hpure]
        exact fun hc => hmem (List.mem_of_mem_filter hc)
      have hr1 := moveIndex_not_mem s x ((s.children.length : Nat) : Int)
        true false hmem
      have hr2 := moveIndex_not_mem s x ((s.pure.length : Nat) : Int)
        false true hpnm
      by_cases hxe : etype x = true
      · simp only [appendChild, if_neg hpf, if_neg hpn, if_pos hxe, hr1, hr2]
        rw [if_neg (fun hcon => absurd hcon.2 (by omega))]
        exact hwf0
      · simp only [appendChild, if_neg hpf, if_neg hpn, if_neg hxe, hr1]
        exact hwf0

theorem mem_insert_mid {l : List Nat} {i : Nat} {x n : Nat}
    (h : n ∈ l.take i ++ x :: l.drop i) : n = x ∨ n ∈ l := by
  rcases List.mem_append.mp h with h1 | h2
  · exact Or.inr (List.take_subset i l h1)
  · rcases List.mem_cons.mp h2 with h3 | h4
    · exact Or.inl h3
    · exact Or.inr (List.drop_subset i l h4)

theorem mem_middle_inv {T D : List Nat} {x n : Nat}
    (h : n ∈ T ++ x :: D) (hne : ¬ n = x) : n ∈ T ++ D := by
  rcases List.mem_append.mp h with h1 | h2
  · exact List.mem_append_left _ h1
  · rcases List.mem_cons.mp h2 with h3 | h4
    · exact absurd h3 hne
    · exact List.mem_append_right _ h4

theorem mem_of_jsIndexOf_nonneg {l : List Nat} {b : Nat}
    (h : ¬ jsIndexOf l b < 0) : b ∈ l := by
  by_contra hc
  rw [jsIndexOf_eq_neg_of_not_mem b l hc] at h
  exact h (by omega)

theorem drop_eq_cons_of_get? :
    ∀ (l : List Nat) (j : Nat) (b : Nat), l.get? j = some b →
      l.drop j = b :: l.drop (j + 1) := by
  intro l
  induction l with
  | nil => intro j b h; simp at h
  | cons a t ih =>
    intro j b h
    cases j with
    | zero =>
      simp only [List.get?_cons_zero, Option.some.injEq] at h
      simp [h]
    | succ j2 =>
      simp only [List.get?_cons_succ] at h
      simp only [List.drop_succ_cons]
      exact ih j2 b h

/-- `insertBefore` preserves well-formedness: the node lands immediately
before the reference child in children, and immediately before the first
element-typed node at or after the reference in pureChildren. -/
theorem WF_insertBefore (etype : Nat → Bool) (s : TState) (x b : Nat)
    (hwf : WF etype s) : WF etype (insertBefore etype s x b) := by
  obtain ⟨hnd, hpure, hadj, hpar⟩ := hwf
  have hwf0 : WF etype s := ⟨hnd, hpure, hadj, hpar⟩
  by_cases hg1 : parOf s x = some false
  · simp only [insertBefore, if_pos hg1]
    exact hwf0
  by_cases hg2 : x = b ∨ ((nextOf s x).isSome ∧ nextOf s x = some b)
  · simp only [insertBefore, if_neg hg1, if_pos hg2]
    exact hwf0
  by_cases hg3 : jsIndexOf s.children b < 0
  · simp only [insertBefore, if_neg hg1, if_neg hg2, if_pos hg3]
    exact hwf0
  have hxb : ¬ x = b := fun hc => hg2 (Or.inl hc)
  have hbmem : b ∈ s.children := mem_of_jsIndexOf_nonneg hg3
  obtain ⟨j, hj, hjlt, hbget, hbnm⟩ := jsIndexOf_spec b s.children hbmem
  have hdropj : s.children.drop j = b :: s.children.drop (j + 1) :=
    drop_eq_cons_of_get? s.children j b hbget
  have hg3' : ¬ ((j : Nat) : Int) < 0 := by omega
  by_cases hpn : parOf s x = none
  · -- fresh node: spliced in right before `b`
    have hxmem : ¬ x ∈ s.children := by
      intro hc
      have h := hpar x hc
      rw [hpn] at h
      exact Option.noConfusion h
    have hj' : jsIndexOf (linkChild s x).children b = ((j : Nat) : Int) := hj
    have hadj0 : Adj (linkChild s x) := Adj_congr s _ rfl rfl hadj
    have hspec := insertIndex_children_spec (linkChild s x) x j
      hnd hadj0 hxmem (le_of_lt hjlt)
    obtain ⟨hi1, hc1, hp1, hpar1, htc1, hm1, hnd1, hadj1⟩ := hspec
    have hc1' : (insertIndex (linkChild s x) x ((j : Nat) : Int) true
        false).1.children =
        s.children.take j ++ x :: s.children.drop j := hc1
    have hparAll : ∀ n ∈ (insertIndex (linkChild s x) x ((j : Nat) : Int) true false).1.children, parOf (insertIndex (linkChild s x) x ((j : Nat) : Int) true false).1 n = some true := by
      intro n hn
      have hn' : n ∈ s.children.take j ++ x :: s.children.drop j := by
        rw [← hc1']
        exact hn
      rw [parOf_congr _ _ hpar1 n, parOf_linkChild s x n]
      rcases mem_insert_mid hn' with h1 | h2
      · rw [if_pos h1]
      · have hnx : ¬ n = x := fun hc => hxmem (hc ▸ h2)
        rw [if_neg hnx]
        exact hpar n h2
    have hchS1 : (insertIndex (linkChild s x) x ((j : Nat) : Int) true false).1.children =
        (s.children.take j ++ [x]) ++ b :: s.children.drop (j + 1) := by
      rw [hc1', hdropj, List.append_assoc, List.singleton_append]
    by_cases hxe : etype x = true
    · have hwalk : nextElement etype (insertIndex (linkChild s x) x ((j : Nat) : Int) true false).1 (walkFuel (insertIndex (linkChild s x) x ((j : Nat) : Int) true false).1) (some b) =
          (s.children.drop j).find? etype := by
        rw [nextElement_walk etype (insertIndex (linkChild s x) x ((j : Nat) : Int) true false).1 _ _ b hchS1 hadj1, ← hdropj]
      have hWFmid : ∀ (pi : Int),
          pi = ((((s.children.take j).filter etype).length : Nat) : Int) →
          WF etype (insertIndex (insertIndex (linkChild s x) x ((j : Nat) : Int) true false).1 x pi false true).1 := by
        intro pi hpi
        subst hpi
        have hpeq1 : (insertIndex (insertIndex (linkChild s x) x ((j : Nat) : Int) true false).1 x ((((s.children.take j).filter etype).length : Nat) : Int) false true).1 =
            { (insertIndex (linkChild s x) x ((j : Nat) : Int) true false).1 with
                pure := spliceIn (insertIndex (linkChild s x) x ((j : Nat) : Int) true false).1.pure ((((s.children.take j).filter etype).length : Nat) : Int) x } := by
          rw [insertIndex_pure_eq]
          rw [if_neg (by omega : ¬ (((((s.children.take j).filter etype).length : Nat) : Int) < 0))]
        rw [hpeq1]
        refine ⟨?_, ?_, ?_, ?_⟩
        · show (insertIndex (linkChild s x) x ((j : Nat) : Int) true false).1.children.Nodup
          exact hnd1
        · show spliceIn (insertIndex (linkChild s x) x ((j : Nat) : Int) true false).1.pure ((((s.children.take j).filter etype).length : Nat) : Int) x =
            (insertIndex (linkChild s x) x ((j : Nat) : Int) true false).1.children.filter etype
          rw [hp1]
          show spliceIn s.pure ((((s.children.take j).filter etype).length : Nat) : Int) x = _
          rw [hpure, filter_insert_boundary etype s.children j x hxe, ← hc1']
        · exact Adj_congr (insertIndex (linkChild s x) x ((j : Nat) : Int) true false).1 _ rfl rfl hadj1
        · intro n hn
          exact hparAll n hn
      simp only [insertBefore, if_neg hg1, if_neg hg2, if_neg hg3, if_pos hpn,
        if_pos hxe, hj', hwalk]
      cases hfind : (s.children.drop j).find? etype with
      | some pb =>
        have hpi : jsIndexOf (insertIndex (linkChild s x) x ((j : Nat) : Int) true false).1.pure pb = ((((s.children.take j).filter etype).length : Nat) : Int) := by
          rw [hp1]
          show jsIndexOf s.pure pb = _
          rw [hpure]
          exact filterPos_find_some etype s.children j pb hnd hfind
        simp only [hfind, hpi]
        have hWF3 := hWFmid ((((s.children.take j).filter etype).length : Nat) : Int) rfl
        split
        · exact WF_msgs etype _ _ hWF3
        · exact hWF3
      | none =>
        have hpi : (((insertIndex (linkChild s x) x ((j : Nat) : Int) true false).1.pure.length : Nat) : Int) = ((((s.children.take j).filter etype).length : Nat) : Int) := by
          rw [hp1]
          show ((s.pure.length : Nat) : Int) = _
          rw [hpure, filterPos_find_none etype s.children j hfind]
        simp only [hfind, hpi]
        have hWF3 := hWFmid ((((s.children.take j).filter etype).length : Nat) : Int) rfl
        split
        · exact WF_msgs etype _ _ hWF3
        · exact hWF3
    · have hxf : etype x = false := by
        cases h : etype x
        · rfl
        · exact absurd h hxe
      have hWF1 : WF etype (insertIndex (linkChild s x) x ((j : Nat) : Int) true false).1 := by
        refine ⟨hnd1, ?_, hadj1, ?_⟩
        · rw [hp1]
          show s.pure = (insertIndex (linkChild s x) x ((j : Nat) : Int) true false).1.children.filter etype
          rw [hc1', filter_insert_skip etype s.children j x hxf]
          exact hpure
        · intro n hn
          exact hparAll n hn
      simp only [insertBefore, if_neg hg1, if_neg hg2, if_neg hg3, if_pos hpn,
        if_neg hxe, hj']
      exact hWF1
  · by_cases hmem : x ∈ s.children
    · -- move: the node is already a child and shifts next to `b`
      obtain ⟨k, hk, hlt, hget, hnmemk⟩ := jsIndexOf_spec x s.children hmem
      have hdec := decomp_of_get? s.children k x hget
      have hndM : (x :: ((s.children.take k) ++ (s.children.drop (k + 1)))).Nodup := List.nodup_middle.mp (hdec ▸ hnd)
      have hxE : ¬ x ∈ ((s.children.take k) ++ (s.children.drop (k + 1))) := (List.nodup_cons.mp hndM).1
      have hndE : ((s.children.take k) ++ (s.children.drop (k + 1))).Nodup := (List.nodup_cons.mp hndM).2
      have hTlen : (s.children.take k).length = k := by
        rw [List.length_take]
        omega
      have hknej : ¬ k = j := by
        intro hc
        rw [hc, hbget] at hget
        exact hxb (Option.some_injective _ hget).symm
      set m := if k < j then j - 1 else j with hmdef
      have hmIf : ((m : Nat) : Int) =
          if ((s.children.take k).length : Int) ≤ ((j : Nat) : Int)
          then ((j : Nat) : Int) - 1 else ((j : Nat) : Int) := by
        rw [hTlen, hmdef]
        by_cases hkj : k < j
        · rw [if_pos hkj, if_pos (by push_cast; omega)]
          push_cast
          omega
        · rw [if_neg hkj, if_neg (by push_cast; omega)]
      have hspec := moveIndex_children_spec s (s.children.take k) (s.children.drop (k + 1)) x j m hdec hnd hadj
        (le_of_lt hjlt) hmIf
      obtain ⟨hc1, hp1, hpar1, htc1, hm1, hnd1, hadj1⟩ := hspec
      have hbE : b ∈ ((s.children.take k) ++ (s.children.drop (k + 1))) :=
        mem_middle_inv (hdec ▸ hbmem) (fun hc => hxb hc.symm)
      have hjTD : jsIndexOf ((s.children.take k) ++ x :: (s.children.drop (k + 1))) b = ((j : Nat) : Int) := by
        rw [← hdec]
        exact hj
      have hjE : jsIndexOf ((s.children.take k) ++ (s.children.drop (k + 1))) b = ((m : Nat) : Int) := by
        rw [jsIndexOf_middle_erase (s.children.take k) (s.children.drop (k + 1)) x b (hdec ▸ hnd) hbE, hjTD, hTlen,
          hmdef]
        by_cases hkj : k < j
        · rw [if_pos (by push_cast; omega), if_pos hkj]
          push_cast
          omega
        · rw [if_neg (by push_cast; omega), if_neg hkj]
      have hgetE : ((s.children.take k) ++ (s.children.drop (k + 1))).get? m = some b := by
        obtain ⟨m2, hm2, hm2lt, hget2, _⟩ := jsIndexOf_spec b ((s.children.take k) ++ (s.children.drop (k + 1))) hbE
        have hm2m : m2 = m := by
          rw [hjE] at hm2
          exact_mod_cast hm2.symm
        rw [← hm2m]
        exact hget2
      have hdropEm : ((s.children.take k) ++ (s.children.drop (k + 1))).drop m = b :: ((s.children.take k) ++ (s.children.drop (k + 1))).drop (m + 1) :=
        drop_eq_cons_of_get? ((s.children.take k) ++ (s.children.drop (k + 1))) m b hgetE
      have hchS1 : (moveIndex s x ((j : Nat) : Int) true false).1.children =
          (((s.children.take k) ++ (s.children.drop (k + 1))).take m ++ [x]) ++ b :: ((s.children.take k) ++ (s.children.drop (k + 1))).drop (m + 1) := by
        rw [hc1, hdropEm, List.append_assoc, List.singleton_append]
      have hparAll : ∀ n ∈ (moveIndex s x ((j : Nat) : Int) true false).1.children, parOf (moveIndex s x ((j : Nat) : Int) true false).1 n = some true := by
        intro n hn
        have hn' : n ∈ ((s.children.take k) ++ (s.children.drop (k + 1))).take m ++ x :: ((s.children.take k) ++ (s.children.drop (k + 1))).drop m := by
          rw [← hc1]
          exact hn
        rw [parOf_congr _ _ hpar1 n]
        rcases mem_insert_mid hn' with h1 | h2
        · rw [h1]
          exact hpar x hmem
        · refine hpar n ?_
          rw [hdec]
          exact mem_middle_of_mem x h2
      by_cases hxe : etype x = true
      · have hPdec : s.pure = ((s.children.take k).filter etype) ++ x :: ((s.children.drop (k + 1)).filter etype) := by
          rw [hpure]
          conv_lhs => rw [hdec]
          rw [List.filter_append, List.filter_cons, if_pos hxe]
        have hxFT : ¬ x ∈ ((s.children.take k).filter etype) :=
          fun hc => hnmemk (List.mem_of_mem_filter hc)
        have hk'x : jsIndexOf (moveIndex s x ((j : Nat) : Int) true false).1.pure x = (((s.children.take k).filter etype).length : Int) := by
          rw [hp1, hPdec]
          exact jsIndexOf_append_cons x _ _ hxFT
        have hspure : s.pure = ((s.children.take k) ++ x :: (s.children.drop (k + 1))).filter etype := by
          rw [hpure]
          conv_lhs => rw [hdec]
        have hers : (moveIndex s x ((j : Nat) : Int) true false).1.pure.eraseIdx ((s.children.take k).filter etype).length = ((s.children.take k) ++ (s.children.drop (k + 1))).filter etype := by
          rw [hp1, hPdec, eraseIdx_append_cons, ← List.filter_append]
        have hwalk : nextElement etype (moveIndex s x ((j : Nat) : Int) true false).1 (walkFuel (moveIndex s x ((j : Nat) : Int) true false).1) (some b) =
            (((s.children.take k) ++ (s.children.drop (k + 1))).drop m).find? etype := by
          rw [nextElement_walk etype (moveIndex s x ((j : Nat) : Int) true false).1 _ _ b hchS1 hadj1, ← hdropEm]
        have hWFmid : ∀ (pi : Int),
            (if (((s.children.take k).filter etype).length : Int) ≤ pi then pi - 1 else pi) =
              ((((((s.children.take k) ++ (s.children.drop (k + 1))).take m).filter etype).length : Nat) : Int) →
            WF etype (moveIndex (moveIndex s x ((j : Nat) : Int) true false).1 x pi false true).1 := by
          intro pi hpi
          have hmps := moveIndex_pure_spec (moveIndex s x ((j : Nat) : Int) true false).1 x pi ((s.children.take k).filter etype).length hk'x
          rw [hmps, hpi]
          refine ⟨?_, ?_, ?_, ?_⟩
          · show (moveIndex s x ((j : Nat) : Int) true false).1.children.Nodup
            rw [hc1]
            exact hnd1
          · show spliceIn ((moveIndex s x ((j : Nat) : Int) true false).1.pure.eraseIdx ((s.children.take k).filter etype).length)
                ((((((s.children.take k) ++ (s.children.drop (k + 1))).take m).filter etype).length : Nat) : Int) x = (moveIndex s x ((j : Nat) : Int) true false).1.children.filter etype
            rw [hers, filter_insert_boundary etype ((s.children.take k) ++ (s.children.drop (k + 1))) m x hxe, ← hc1]
          · exact Adj_congr (moveIndex s x ((j : Nat) : Int) true false).1 _ rfl rfl hadj1
          · intro n hn
            exact hparAll n hn
        simp only [insertBefore, if_neg hg1, if_neg hg2, if_neg hg3,
          if_neg hg3', if_neg hpn, if_pos hxe, hj, hwalk]
        cases hfind : (((s.children.take k) ++ (s.children.drop (k + 1))).drop m).find? etype with
        | some pb =>
          have hpbE : pb ∈ ((s.children.take k) ++ (s.children.drop (k + 1))).filter etype :=
            List.mem_filter.mpr
              ⟨List.drop_subset m ((s.children.take k) ++ (s.children.drop (k + 1))) (List.mem_of_find?_eq_some hfind),
                List.find?_some hfind⟩
          have hpos := filterPos_find_some etype ((s.children.take k) ++ (s.children.drop (k + 1))) m pb hndE hfind
          have hpi : (if (((s.children.take k).filter etype).length : Int) ≤ jsIndexOf (moveIndex s x ((j : Nat) : Int) true false).1.pure pb
              then jsIndexOf (moveIndex s x ((j : Nat) : Int) true false).1.pure pb - 1
              else jsIndexOf (moveIndex s x ((j : Nat) : Int) true false).1.pure pb) = ((((((s.children.take k) ++ (s.children.drop (k + 1))).take m).filter etype).length : Nat) : Int) := by
            rw [hp1, hspure,
              move_pure_index etype (s.children.take k)
                (s.children.drop (k + 1)) x pb hxe (hdec ▸ hnd) hpbE,
              hpos]
          simp only [hfind]
          have hWF3 := hWFmid (jsIndexOf (moveIndex s x ((j : Nat) : Int) true false).1.pure pb) hpi
          split
          · exact WF_msgs etype _ _ hWF3
          · exact hWF3
        | none =>
          have hflen : (((s.children.take k) ++ (s.children.drop (k + 1))).filter etype).length = ((((s.children.take k) ++ (s.children.drop (k + 1))).take m).filter etype).length :=
            filterPos_find_none etype ((s.children.take k) ++ (s.children.drop (k + 1))) m hfind
          have hPlen : (moveIndex s x ((j : Nat) : Int) true false).1.pure.length = ((s.children.take k).filter etype).length + ((s.children.drop (k + 1)).filter etype).length + 1 := by
            rw [hp1, hPdec]
            simp only [List.length_append, List.length_cons]
            omega
          have hEfl : (((s.children.take k) ++ (s.children.drop (k + 1))).filter etype).length =
              ((s.children.take k).filter etype).length + ((s.children.drop (k + 1)).filter etype).length := by
            rw [List.filter_append, List.length_append]
          have hpi : (if (((s.children.take k).filter etype).length : Int) ≤ (((moveIndex s x ((j : Nat) : Int) true false).1.pure.length : Nat) : Int)
              then (((moveIndex s x ((j : Nat) : Int) true false).1.pure.length : Nat) : Int) - 1
              else (((moveIndex s x ((j : Nat) : Int) true false).1.pure.length : Nat) : Int)) =
              ((((((s.children.take k) ++ (s.children.drop (k + 1))).take m).filter etype).length : Nat) : Int) := by
            rw [if_pos (by rw [hPlen]; push_cast; omega), hPlen, ← hflen, hEfl]
            push_cast
            omega
          simp only [hfind]
          have hWF3 := hWFmid (((moveIndex s x ((j : Nat) : Int) true false).1.pure.length : Nat) : Int) hpi
          split
          · exact WF_msgs etype _ _ hWF3
          · exact hWF3
      · have hxf : etype x = false := by
          cases h : etype x
          · rfl
          · exact absurd h hxe
        have hPdec0 : s.pure = ((s.children.take k).filter etype) ++ ((s.children.drop (k + 1)).filter etype) := by
          rw [hpure]
          conv_lhs => rw [hdec]
          rw [List.filter_append, List.filter_cons, if_neg hxe]
        have hWF1 : WF etype (moveIndex s x ((j : Nat) : Int) true false).1 := by
          refine ⟨?_, ?_, hadj1, ?_⟩
          · show (moveIndex s x ((j : Nat) : Int) true false).1.children.Nodup
            rw [hc1]
            exact hnd1
          · show (moveIndex s x ((j : Nat) : Int) true false).1.pure = (moveIndex s x ((j : Nat) : Int) true false).1.children.filter etype
            rw [hp1, hc1, filter_insert_skip etype ((s.children.take k) ++ (s.children.drop (k + 1))) m x hxf,
              List.filter_append, hPdec0]
          · intro n hn
            exact hparAll n hn
        simp only [insertBefore, if_neg hg1, if_neg hg2, if_neg hg3,
          if_neg hg3', if_neg hpn, if_neg hxe, hj]
        exact hWF1
    · -- stale parent pointer: the node is not a child, nothing changes
      have hxm1 : ¬ x ∈ getList s false := hmem
      have hxm2 : ¬ x ∈ getList s true := by
        show ¬ x ∈ s.pure
        rw [hpure]
        exact fun hc => hmem (List.mem_of_mem_filter hc)
      have hr1 := moveIndex_not_mem s x ((j : Nat) : Int) true false hxm1
      by_cases hxe : etype x = true
      · simp only [insertBefore, if_neg hg1, if_neg hg2, if_neg hg3,
          if_neg hg3', if_neg hpn, if_pos hxe, hj, hr1]
        rw [moveIndex_not_mem s x _ false true hxm2]
        rw [if_neg (fun hcon => absurd hcon.2 (by omega))]
        exact hwf0
      · simp only [insertBefore, if_neg hg1, if_neg hg2, if_neg hg3,
          if_neg hg3', if_neg hpn, if_neg hxe, hj, hr1]
        exact hwf0

/-- `insertAfter` preserves well-formedness whenever the inserted node is
parentless and the reference node is a current child: the node lands right
after the reference in children, and right after the last element-typed node
at or before the reference in pureChildren.  (Without these two
preconditions the operation corrupts the lists — see the counterexamples.) -/
theorem WF_insertAfter (etype : Nat → Bool) (s : TState) (x a : Nat)
    (hwf : WF etype s) (hpn : parOf s x = none) (hamem : a ∈ s.children) :
    WF etype (insertAfter etype s x a) := by
  obtain ⟨hnd, hpure, hadj, hpar⟩ := hwf
  have hwf0 : WF etype s := ⟨hnd, hpure, hadj, hpar⟩
  have hg1 : ¬ parOf s x = some false := by
    rw [hpn]
    simp
  by_cases hg2 : x = a ∨ ((prevOf s x).isSome ∧ prevOf s x = some a)
  · simp only [insertAfter, if_neg hg1, if_pos hg2]
    exact hwf0
  have hxmem : ¬ x ∈ s.children := by
    intro hc
    have h := hpar x hc
    rw [hpn] at h
    exact Option.noConfusion h
  obtain ⟨j, hj, hjlt, haget, hanm⟩ := jsIndexOf_spec a s.children hamem
  have hj' : jsIndexOf (linkChild s x).children a = ((j : Nat) : Int) := hj
  have hcast : ((j : Nat) : Int) + 1 = (((j + 1 : Nat)) : Int) := by
    push_cast
    ring
  have hadj0 : Adj (linkChild s x) := Adj_congr s _ rfl rfl hadj
  have hspec := insertIndex_children_spec (linkChild s x) x (j + 1)
    hnd hadj0 hxmem hjlt
  obtain ⟨hi1, hc1, hp1, hpar1, htc1, hm1, hnd1, hadj1⟩ := hspec
  have hc1' : (insertIndex (linkChild s x) x (((j + 1 : Nat)) : Int) true false).1.children =
      s.children.take (j + 1) ++ x :: s.children.drop (j + 1) := hc1
  have haget' : s.children[j]? = some a := by
    rw [← List.get?_eq_getElem?]
    exact haget
  have htake : s.children.take (j + 1) = s.children.take j ++ [a] := by
    rw [List.take_succ, haget']
    rfl
  have hchS1 : (insertIndex (linkChild s x) x (((j + 1 : Nat)) : Int) true false).1.children =
      s.children.take j ++ a :: (x :: s.children.drop (j + 1)) := by
    rw [hc1', htake, List.append_assoc, List.singleton_append]
  have hrev : (s.children.take (j + 1)).reverse =
      a :: (s.children.take j).reverse := by
    rw [htake, List.reverse_append, List.reverse_singleton,
      List.singleton_append]
  have hparAll : ∀ n ∈ (insertIndex (linkChild s x) x (((j + 1 : Nat)) : Int) true false).1.children, parOf (insertIndex (linkChild s x) x (((j + 1 : Nat)) : Int) true false).1 n = some true := by
    intro n hn
    have hn' : n ∈ s.children.take (j + 1) ++ x :: s.children.drop (j + 1) := by
      rw [← hc1']
      exact hn
    rw [parOf_congr _ _ hpar1 n, parOf_linkChild s x n]
    rcases mem_insert_mid hn' with h1 | h2
    · rw [if_pos h1]
    · have hnx : ¬ n = x := fun hc => hxmem (hc ▸ h2)
      rw [if_neg hnx]
      exact hpar n h2
  by_cases hxe : etype x = true
  · have hwalk : previousElement etype (insertIndex (linkChild s x) x (((j + 1 : Nat)) : Int) true false).1 (walkFuel (insertIndex (linkChild s x) x (((j + 1 : Nat)) : Int) true false).1) (some a) =
        ((s.children.take (j + 1)).reverse).find? etype := by
      rw [previousElement_walk etype (insertIndex (linkChild s x) x (((j + 1 : Nat)) : Int) true false).1 _ _ a hchS1 hadj1, ← hrev]
    have hWFmid : ∀ (pi : Int),
        pi = ((((s.children.take (j + 1)).filter etype).length : Nat) : Int) →
        WF etype (insertIndex (insertIndex (linkChild s x) x (((j + 1 : Nat)) : Int) true false).1 x pi false true).1 := by
      intro pi hpi
      subst hpi
      have hpeq1 : (insertIndex (insertIndex (linkChild s x) x (((j + 1 : Nat)) : Int) true false).1 x ((((s.children.take (j + 1)).filter etype).length : Nat) : Int) false true).1 =
          { (insertIndex (linkChild s x) x (((j + 1 : Nat)) : Int) true false).1 with
              pure := spliceIn (insertIndex (linkChild s x) x (((j + 1 : Nat)) : Int) true false).1.pure ((((s.children.take (j + 1)).filter etype).length : Nat) : Int) x } := by
        rw [insertIndex_pure_eq]
        rw [if_neg (by omega : ¬ (((((s.children.take (j + 1)).filter etype).length : Nat) : Int) < 0))]
      rw [hpeq1]
      refine ⟨?_, ?_, ?_, ?_⟩
      · show (insertIndex (linkChild s x) x (((j + 1 : Nat)) : Int) true false).1.children.Nodup
        exact hnd1
      · show spliceIn (insertIndex (linkChild s x) x (((j + 1 : Nat)) : Int) true false).1.pure ((((s.children.take (j + 1)).filter etype).length : Nat) : Int) x =
          (insertIndex (linkChild s x) x (((j + 1 : Nat)) : Int) true false).1.children.filter etype
        rw [hp1]
        show spliceIn s.pure ((((s.children.take (j + 1)).filter etype).length : Nat) : Int) x = _
        rw [hpure, filter_insert_boundary etype s.children (j + 1) x hxe,
          ← hc1']
      · exact Adj_congr (insertIndex (linkChild s x) x (((j + 1 : Nat)) : Int) true false).1 _ rfl rfl hadj1
      · intro n hn
        exact hparAll n hn
    simp only [insertAfter, if_neg hg1, if_neg hg2, if_pos hpn, if_pos hxe,
      hj', hcast, hwalk]
    cases hfind : ((s.children.take (j + 1)).reverse).find? etype with
    | some p =>
      obtain ⟨h1le, hidxp⟩ := filterLast_find_some etype s.children (j + 1) p
        hnd hfind
      have hpi : jsIndexOf (insertIndex (linkChild s x) x (((j + 1 : Nat)) : Int) true false).1.pure p + 1 = ((((s.children.take (j + 1)).filter etype).length : Nat) : Int) := by
        rw [hp1]
        show jsIndexOf s.pure p + 1 = _
        rw [hpure, hidxp]
        omega
      simp only [hfind, hpi]
      have hWF3 := hWFmid ((((s.children.take (j + 1)).filter etype).length : Nat) : Int) rfl
      split
      · exact WF_msgs etype _ _ hWF3
      · exact hWF3
    | none =>
      have hfl0 : (s.children.take (j + 1)).filter etype = [] :=
        filterLast_find_none etype s.children (j + 1) hfind
      have hpi : (-1 : Int) + 1 = ((((s.children.take (j + 1)).filter etype).length : Nat) : Int) := by
        rw [hfl0]
        simp
      simp only [hfind, hpi]
      have hWF3 := hWFmid ((((s.children.take (j + 1)).filter etype).length : Nat) : Int) rfl
      split
      · exact WF_msgs etype _ _ hWF3
      · exact hWF3
  · have hxf : etype x = false := by
      cases h : etype x
      · rfl
      · exact absurd h hxe
    have hWF1 : WF etype (insertIndex (linkChild s x) x (((j + 1 : Nat)) : Int) true false).1 := by
      refine ⟨hnd1, ?_, hadj1, ?_⟩
      · rw [hp1]
        show s.pure = (insertIndex (linkChild s x) x (((j + 1 : Nat)) : Int) true false).1.children.filter etype
        rw [hc1', filter_insert_skip etype s.children (j + 1) x hxf]
        exact hpure
      · intro n hn
        exact hparAll n hn
    simp only [insertAfter, if_neg hg1, if_neg hg2, if_pos hpn, if_neg hxe,
      hj', hcast]
    exact hWF1

/-- Precondition under which an operation is handled correctly by the source:
`insertAfter` must insert a parentless node relative to a current child (the
source checks neither, unlike `insertBefore`); the other three operations need
no precondition. -/
def opOK (s : TState) : Op → Bool
  | Op.insAfter n a => decide (parOf s n = none) && decide (a ∈ s.children)
  | _ => true

/-- Every operation of the sequence satisfies its precondition in the state
where it executes. -/
def opsOK (etype : Nat → Bool) : TState → List Op → Bool
  | _, [] => true
  | s, op :: rest => opOK s op && opsOK etype (applyOp etype s op) rest

theorem WF_applyOp (etype : Nat → Bool) (s : TState) (op : Op)
    (hwf : WF etype s) (hok : opOK s op = true) :
    WF etype (applyOp etype s op) := by
  cases op with
  | append n => exact WF_appendChild etype s n hwf
  | insBefore n b => exact WF_insertBefore etype s n b hwf
  | insAfter n a =>
    simp only [opOK, Bool.and_eq_true, decide_eq_true_eq] at hok
    exact WF_insertAfter etype s n a hwf hok.1 hok.2
  | remove n p => exact WF_removeChild etype s n p hwf

theorem WF_run (etype : Nat → Bool) :
    ∀ (ops : List Op) (s : TState), WF etype s →
      opsOK etype s ops = true → WF etype (run etype s ops) := by
  intro ops
  induction ops with
  | nil =>
    intro s hwf _
    exact hwf
  | cons op rest ih =>
    intro s hwf hok
    simp only [opsOK, Bool.and_eq_true] at hok
    exact ih (applyOp etype s op) (WF_applyOp etype s op hwf hok.1) hok.2

/-- Claim C4, amended.  Starting from a well-formed element state, after any
sequence of `appendChild`, `insertBefore`, `insertAfter` and `removeChild`
operations in which every `insertAfter` inserts a parentless node relative to
a node that is currently a child, the `pureChildren` list is exactly the
element-typed subsequence of `children`.  (The original claim, without the
`insertAfter` precondition, is refuted by `pure_subsequence_counterexample`:
the source guards `insertBefore` against a non-child reference but not
`insertAfter`, and `insertAfter`'s move path shifts the two lists by
inconsistent offsets when a comment node sits before the reference.) -/
theorem pure_is_element_subsequence (etype : Nat → Bool) (s : TState)
    (ops : List Op) (hwf : WF etype s) (hok : opsOK etype s ops = true) :
    (run etype s ops).pure = (run etype s ops).children.filter etype :=
  (WF_run etype ops s hwf hok).2.1

/-- Witness for the amended claim C4: a run that exercises every operation —
appends, an `insertBefore`, a precondition-satisfying `insertAfter`, a
preserved removal of a comment and a re-append move — starting from the empty
element. -/
theorem pure_is_element_subsequence_witness :
    WF etype0 ⟨[], [], [], [], false, []⟩ ∧
      opsOK etype0 ⟨[], [], [], [], false, []⟩
        [Op.append 0, Op.append 1, Op.append 2, Op.insBefore 3 1,
          Op.insAfter 4 0, Op.remove 2 true, Op.append 1] = true ∧
      (run etype0 ⟨[], [], [], [], false, []⟩
          [Op.append 0, Op.append 1, Op.append 2, Op.insBefore 3 1,
            Op.insAfter 4 0, Op.remove 2 true, Op.append 1]).pure =
        (run etype0 ⟨[], [], [], [], false, []⟩
          [Op.append 0, Op.append 1, Op.append 2, Op.insBefore 3 1,
            Op.insAfter 4 0, Op.remove 2 true, Op.append 1]).children.filter
          etype0 :=
  ⟨⟨List.nodup_nil, rfl, True.intro, fun n hn => absurd hn (List.not_mem_nil n)⟩,
    by decide,
    pure_is_element_subsequence etype0 ⟨[], [], [], [], false, []⟩
      [Op.append 0, Op.append 1, Op.append 2, Op.insBefore 3 1,
        Op.insAfter 4 0, Op.remove 2 true, Op.append 1]
      ⟨List.nodup_nil, rfl, True.intro, fun n hn => absurd hn (List.not_mem_nil n)⟩
      (by decide)⟩

/-- Witness for claim C10: with one element child 0 and a foreign-parented
node 4, each guarded call is the identity on a concrete state. -/
theorem insert_guard_noops_witness :
    appendChild etype0 ⟨[0], [0], [(0, (none, none))], [(0, true), (4, false)],
        true, []⟩ 4 =
      ⟨[0], [0], [(0, (none, none))], [(0, true), (4, false)], true, []⟩ ∧
      insertBefore etype0 ⟨[0], [0], [(0, (none, none))],
          [(0, true), (4, false)], true, []⟩ 3 5 =
        ⟨[0], [0], [(0, (none, none))], [(0, true), (4, false)], true, []⟩ := by
  have h := insert_guard_noops etype0
    ⟨[0], [0], [(0, (none, none))], [(0, true), (4, false)], true, []⟩ 4 5 5
  have h2 := insert_guard_noops etype0
    ⟨[0], [0], [(0, (none, none))], [(0, true), (4, false)], true, []⟩ 3 5 5
  exact ⟨h.1 (by decide), h2.2.2.2.2.1 (by decide)⟩

end Tree
